import Mathlib

/-!
Verification of the mini-adapton incremental-computation engine
(`src/index.ts`).  The engine is embedded shallowly: node state becomes an
explicit `State` value, the mutable `currentlyAdapting` slot becomes a field
of that state, and the mutually recursive `adaptonCompute` / `adaptonForce` /
thunk-body evaluation becomes a single fuel-indexed interpreter `run`.
Thunk bodies (arbitrary JS closures in the source) are deep-embedded as the
expression language `Expr`, which covers exactly the operations the source's
client code performs inside a thunk: reading the node's own stored result,
forcing or computing another node, manually adding an edge, sequencing,
integer arithmetic, a conditional, and throwing.
-/

namespace MiniAdapton

/-- Node identifiers: an index into the state's node list. -/
abbrev NodeId := Nat

/-- Deep embedding of a thunk body.  `readSelf` is `self => self.result`
(the body `adaptonRef` installs); `force`/`computeE` call the engine's
`adaptonForce`/`adaptonCompute`; `addEdgeE d` is `addEdge(self, d)`;
`throwE k` models a JS `throw` carrying payload `k`. -/
inductive Expr where
  | lit (v : Int)
  | readSelf
  | force (d : NodeId)
  | computeE (d : NodeId)
  | addEdgeE (d : NodeId)
  | seq (a b : Expr)
  | add (a b : Expr)
  | subE (a b : Expr)
  | iteNz (c t e : Expr)
  | throwE (k : Nat)
deriving Repr, DecidableEq

/-- An adapton node, mirroring the `Adapton` interface of the source:
a thunk (here its deep-embedded body), the last result, the set of
subcomputations (`sub`), the set of supercomputations, and the clean flag.
JS `Set`s are modelled as duplicate-free insertion-ordered lists. -/
structure Node where
  body : Expr
  result : Int
  sub : List NodeId
  «super» : List NodeId
  clean : Bool
deriving Repr, DecidableEq

/-- The node returned for an out-of-range identifier.  It is inert: clean,
no edges, and a body that merely reads its own (zero) result, so that the
engine treats a bad identifier as a harmless already-clean leaf. -/
def defaultNode : Node :=
  { body := Expr.readSelf, result := 0, sub := [], «super» := [], clean := true }

/-- The whole mutable store of the engine: every node created so far
(identifier = list index), the process-wide `currentlyAdapting` slot, and a
ghost log of which nodes' thunks have been invoked (instrumentation only:
nothing in the engine reads it). -/
structure State where
  nodes : List Node
  currentlyAdapting : Option NodeId
  calls : List NodeId
deriving Repr, DecidableEq

def getNode (s : State) (n : NodeId) : Node := s.nodes.getD n defaultNode

def setNode (s : State) (n : NodeId) (nd : Node) : State :=
  { s with nodes := s.nodes.set n nd }

def modifyNode (s : State) (n : NodeId) (g : Node → Node) : State :=
  setNode s n (g (getNode s n))

/-- JS `Set.add`: append unless already present. -/
def insertOnce (x : NodeId) (l : List NodeId) : List NodeId :=
  if x ∈ l then l else l ++ [x]

/-- JS `Set.delete`. -/
def removeAll (x : NodeId) (l : List NodeId) : List NodeId :=
  l.filter (fun y => y ≠ x)

/-- `addEdge(superComp, subComp)` from the source: add `subComp` to the
supercomputation's `sub` set and `superComp` to the subcomputation's
`super` set. -/
def addEdge (superComp subComp : NodeId) (s : State) : State :=
  let s1 := modifyNode s superComp (fun nd => { nd with sub := insertOnce subComp nd.sub })
  modifyNode s1 subComp (fun nd => { nd with «super» := insertOnce superComp nd.«super» })

/-- `deleteEdge(superComp, subComp)` from the source. -/
def deleteEdge (superComp subComp : NodeId) (s : State) : State :=
  let s1 := modifyNode s superComp (fun nd => { nd with sub := removeAll subComp nd.sub })
  modifyNode s1 subComp (fun nd => { nd with «super» := removeAll superComp nd.«super» })

def setClean (n : NodeId) (b : Bool) (s : State) : State :=
  modifyNode s n (fun nd => { nd with clean := b })

def setResult (n : NodeId) (v : Int) (s : State) : State :=
  modifyNode s n (fun nd => { nd with result := v })

/-- Ghost instrumentation: record that node `n`'s thunk is being invoked. -/
def pushCall (n : NodeId) (s : State) : State :=
  { s with calls := s.calls ++ [n] }

/-- The three mutually recursive activities of the engine, packaged as one
call descriptor so that a single fuel-indexed interpreter covers them. -/
inductive Call where
  | computeC (n : NodeId)
  | forceC (n : NodeId)
  | evalC (self : NodeId) (e : Expr)
deriving Repr, DecidableEq

/-- Result of a run: the final store plus either a value or the payload of a
propagating JS exception.  `none` means the fuel ran out (the source would
instead recurse further, possibly forever). -/
abbrev RunRes := State × Except Nat Int

/-- The engine interpreter.  `computeC` is `adaptonCompute`: return the
cached result when clean, otherwise drop all outgoing edges, optimistically
set `clean`, invoke the thunk, store its value and recurse.  `forceC` is
`adaptonForce`: save `currentlyAdapting`, point it at the forced node,
compute, restore, and register an edge from the restored context (when
present); note that a thrown exception skips both the restore and the edge,
exactly as in the source.  `evalC` runs a thunk body. -/
def run : Nat → State → Call → Option RunRes
  | 0, _, _ => none
  | f+1, s, Call.computeC n =>
    let nd := getNode s n
    if nd.clean then
      some (s, Except.ok nd.result)
    else
      let s1 := nd.sub.foldl (fun st x => deleteEdge n x st) s
      let s2 := pushCall n (setClean n true s1)
      match run f s2 (Call.evalC n nd.body) with
      | none => none
      | some (s3, Except.error k) => some (s3, Except.error k)
      | some (s3, Except.ok v) => run f (setResult n v s3) (Call.computeC n)
  | f+1, s, Call.forceC n =>
    let prev := s.currentlyAdapting
    let s1 := { s with currentlyAdapting := some n }
    match run f s1 (Call.computeC n) with
    | none => none
    | some (s2, Except.error k) => some (s2, Except.error k)
    | some (s2, Except.ok v) =>
      let s3 := { s2 with currentlyAdapting := prev }
      match prev with
      | some c => some (addEdge c n s3, Except.ok v)
      | none => some (s3, Except.ok v)
  | f+1, s, Call.evalC self e =>
    match e with
    | Expr.lit v => some (s, Except.ok v)
    | Expr.readSelf => some (s, Except.ok (getNode s self).result)
    | Expr.throwE k => some (s, Except.error k)
    | Expr.force d => run f s (Call.forceC d)
    | Expr.computeE d => run f s (Call.computeC d)
    | Expr.addEdgeE d => some (addEdge self d s, Except.ok 0)
    | Expr.seq a b =>
      match run f s (Call.evalC self a) with
      | none => none
      | some (s1, Except.error k) => some (s1, Except.error k)
      | some (s1, Except.ok _) => run f s1 (Call.evalC self b)
    | Expr.add a b =>
      match run f s (Call.evalC self a) with
      | none => none
      | some (s1, Except.error k) => some (s1, Except.error k)
      | some (s1, Except.ok v1) =>
        match run f s1 (Call.evalC self b) with
        | none => none
        | some (s2, Except.error k) => some (s2, Except.error k)
        | some (s2, Except.ok v2) => some (s2, Except.ok (v1 + v2))
    | Expr.subE a b =>
      match run f s (Call.evalC self a) with
      | none => none
      | some (s1, Except.error k) => some (s1, Except.error k)
      | some (s1, Except.ok v1) =>
        match run f s1 (Call.evalC self b) with
        | none => none
        | some (s2, Except.error k) => some (s2, Except.error k)
        | some (s2, Except.ok v2) => some (s2, Except.ok (v1 - v2))
    | Expr.iteNz c t e =>
      match run f s (Call.evalC self c) with
      | none => none
      | some (s1, Except.error k) => some (s1, Except.error k)
      | some (s1, Except.ok v) =>
        if v ≠ 0 then run f s1 (Call.evalC self t) else run f s1 (Call.evalC self e)

/-- `adaptonCompute` at the public surface. -/
def adaptonCompute (f : Nat) (s : State) (n : NodeId) : Option RunRes :=
  run f s (Call.computeC n)

/-- `adaptonForce` at the public surface. -/
def adaptonForce (f : Nat) (s : State) (n : NodeId) : Option RunRes :=
  run f s (Call.forceC n)

/-- `adaptonDirty`: short-circuit when already dirty, otherwise clear the
flag and recursively dirty every supercomputation.  Fueled because the
recursion follows arbitrary graph edges. -/
def adaptonDirty : Nat → State → NodeId → Option State
  | 0, _, _ => none
  | f+1, s, n =>
    let nd := getNode s n
    if nd.clean = false then
      some s
    else
      let s1 := setClean n false s
      nd.«super».foldlM (fun st x => adaptonDirty f st x) s1

/-- Append a fresh node (shared shape of `makeAthunk` and `adaptonRef`). -/
def appendNode (s : State) (nd : Node) : State :=
  { s with nodes := s.nodes ++ [nd] }

/-- `makeAthunk`: append a fresh node, dirty, with an empty result slot
(JS `undefined`, modelled as `0`) and no edges. -/
def makeAthunk (e : Expr) (s : State) : State :=
  appendNode s { body := e, result := 0, sub := [], «super» := [], clean := false }

/-- `adaptonRef`: a thunk whose body returns its own stored result, with the
initial value installed and the clean flag already set. -/
def adaptonRef (v : Int) (s : State) : State :=
  appendNode s { body := Expr.readSelf, result := v, sub := [], «super» := [], clean := true }

/-- `adaptonRefSet`: overwrite the stored result, then dirty the node. -/
def adaptonRefSet (f : Nat) (s : State) (n : NodeId) (v : Int) : Option State :=
  adaptonDirty f (setResult n v s) n

/-- The empty initial store: no nodes, no context, nothing invoked yet. -/
def initState : State := { nodes := [], currentlyAdapting := none, calls := [] }

/-- The store in which a dirty node's computation is invoked: all edges to
current dependencies removed, the clean flag already set, the invocation
logged. -/
def invokeState (s : State) (n : NodeId) : State :=
  pushCall n (setClean n true ((getNode s n).sub.foldl (fun st x => deleteEdge n x st) s))

/-- Modelled from the spec, §4.2 steps 2-5, in the spec's own order: remove
every edge from the node to each member of its current dependency set, set
`clean` before invoking the computation, store the returned value, and
return through a recursive `compute` rather than directly.  A thrown
exception propagates and skips the store. -/
def computeDirtySpec (f : Nat) (s : State) (n : NodeId) : Option RunRes :=
  match run f (invokeState s n) (Call.evalC n (getNode s n).body) with
  | none => none
  | some (s3, Except.error k) => some (s3, Except.error k)
  | some (s3, Except.ok v) => adaptonCompute f (setResult n v s3) n

/-- Concrete store for the exception scenario: one dirty node whose
computation throws, holding a stale result from an earlier run. -/
def throwScene : State :=
  { nodes := [{ body := Expr.throwE 7, result := 5, sub := [], «super» := [], clean := false }],
    currentlyAdapting := none, calls := [] }

/-- Concrete store with a single clean node holding a cached result. -/
def cleanScene : State :=
  { nodes := [{ body := Expr.lit 7, result := 3, sub := [], «super» := [], clean := true }],
    currentlyAdapting := none, calls := [] }

/-- Nested-forcing scenario: a ref (node 0), a thunk B forcing it (node 1),
and a thunk A forcing B (node 2). -/
def nestedScene : State :=
  makeAthunk (Expr.force 1) (makeAthunk (Expr.force 0) (adaptonRef 1 initState))

/-- The store after forcing A in the nested scenario. -/
def nestedOut : State :=
  ((adaptonForce 10 nestedScene 2).map Prod.fst).getD initState

/-- The nested store after dirtying its leaf. -/
def nestedDirtied : State := (adaptonDirty 10 nestedOut 0).getD initState

/-- Micro-adapton-style scenario used to refute unconditional transitive
dirtying: a ref (node 0), a thunk manually adding an edge to it (node 1),
and a thunk manually adding an edge to node 1 (node 2), driven through the
engine exactly as the repository's own first demonstration drives it. -/
def microScene : State :=
  makeAthunk (Expr.seq (Expr.addEdgeE 1) (Expr.lit 7))
    (makeAthunk (Expr.seq (Expr.addEdgeE 0) (Expr.lit 5)) (adaptonRef 0 initState))

def microA : State := ((adaptonCompute 10 microScene 2).map Prod.fst).getD initState

def microB : State := ((adaptonCompute 10 microA 1).map Prod.fst).getD initState

def microC : State := (adaptonRefSet 10 microB 0 9).getD initState

def microD : State := ((adaptonCompute 10 microC 2).map Prod.fst).getD initState

/-- Store in which node 1 is dirty while its dependent node 2 is clean —
API-reachable, and the dirtying invariant fails. -/
def microE : State := ((adaptonCompute 10 microD 0).map Prod.fst).getD initState

/-- The store after dirtying node 0 of `microE`: the wave short-circuits at
the already-dirty node 1, leaving the reachable node 2 clean. -/
def microOut : State := (adaptonDirty 10 microE 0).getD initState

/-- Store for the compute-side-effect scenario: a ref (node 0), a dirty
thunk forcing it (node 1), an unrelated node 2, and a pending evaluation
context pointing at node 2 — the situation of a `compute` call issued from
inside node 2's computation. -/
def pendingScene : State :=
  { makeAthunk (Expr.lit 0)
      (makeAthunk (Expr.add (Expr.force 0) (Expr.lit 3)) (adaptonRef 5 initState)) with
    currentlyAdapting := some 2 }

/-- The store after computing node 1 of `pendingScene`. -/
def pendingOut : State :=
  ((adaptonCompute 10 pendingScene 1).map Prod.fst).getD initState

/-- Edge symmetry (spec §3): `Y ∈ X.dependencies ⇔ X ∈ Y.dependents` for all
nodes `X`, `Y` of the store. -/
def Sym (s : State) : Prop :=
  ∀ a, a < s.nodes.length → ∀ b, b < s.nodes.length →
    (b ∈ (getNode s a).sub ↔ a ∈ (getNode s b).«super»)

/-- Every recorded edge endpoint is an existing node (automatic in the
source, where edges hold object references). -/
def EdgesValid (s : State) : Prop :=
  ∀ a, a < s.nodes.length →
    (∀ b ∈ (getNode s a).sub, b < s.nodes.length) ∧
    (∀ b ∈ (getNode s a).«super», b < s.nodes.length)

/-- All node identifiers mentioned by a body exist (automatic in the source,
where a closure can only mention adaptons that have been constructed). -/
def targetsOK (len : Nat) : Expr → Bool
  | Expr.lit _ => true
  | Expr.readSelf => true
  | Expr.throwE _ => true
  | Expr.force d => d < len
  | Expr.computeE d => d < len
  | Expr.addEdgeE d => d < len
  | Expr.seq a b => targetsOK len a && targetsOK len b
  | Expr.add a b => targetsOK len a && targetsOK len b
  | Expr.subE a b => targetsOK len a && targetsOK len b
  | Expr.iteNz c t e => targetsOK len c && targetsOK len t && targetsOK len e

/-- Every stored body only mentions existing nodes. -/
def BodiesOK (s : State) : Prop :=
  ∀ m, m < s.nodes.length → targetsOK s.nodes.length (getNode s m).body = true

/-- The `currentlyAdapting` slot, when occupied, names an existing node. -/
def CtxOK (s : State) : Prop :=
  ∀ c, s.currentlyAdapting = some c → c < s.nodes.length

/-- A well-formed store, as every store reachable through the source's API
is: symmetric edges among existing nodes, bodies and context naming only
existing nodes. -/
def GoodGraph (s : State) : Prop :=
  Sym s ∧ EdgesValid s ∧ BodiesOK s ∧ CtxOK s

/-- Value of a body under an assignment of values to read nodes.  Modelled
from the spec: this is the evaluation a body performs when every read it
makes — a `force` or a low-level `compute` — is answered with the read
node's own fresh value, with no engine and no caches involved.  Constructs
a body cannot meaningfully evaluate outside the engine (`readSelf`,
`addEdgeE`, `throwE`) are given the junk value `0`. -/
def denotE (vals : Nat → Int) : Expr → Int
  | Expr.lit v => v
  | Expr.readSelf => 0
  | Expr.throwE _ => 0
  | Expr.force d => vals d
  | Expr.computeE d => vals d
  | Expr.addEdgeE _ => 0
  | Expr.seq _ b => denotE vals b
  | Expr.add a b => denotE vals a + denotE vals b
  | Expr.subE a b => denotE vals a - denotE vals b
  | Expr.iteNz c t e =>
    if denotE vals c ≠ 0 then denotE vals t else denotE vals e

/-- The nodes a body reads during the evaluation `denotE vals`: the
dynamically taken `force` and `compute` calls, in order.  For a
well-formed force-style body these are exactly the forced nodes. -/
def depsE (vals : Nat → Int) : Expr → List Nat
  | Expr.lit _ => []
  | Expr.readSelf => []
  | Expr.throwE _ => []
  | Expr.force d => [d]
  | Expr.computeE d => [d]
  | Expr.addEdgeE _ => []
  | Expr.seq a b => depsE vals a ++ depsE vals b
  | Expr.add a b => depsE vals a ++ depsE vals b
  | Expr.subE a b => depsE vals a ++ depsE vals b
  | Expr.iteNz c t e =>
    depsE vals c ++ (if denotE vals c ≠ 0 then depsE vals t else depsE vals e)

/-- Modelled from the spec: a fresh, non-memoized evaluation of a node's
computation graph from the current ref values.  A ref (body `readSelf`)
yields its stored value; a thunk re-evaluates its body, resolving each
forced node recursively.  Fuel-indexed for structural recursion; any fuel
above the node index is enough for well-formed graphs, whose bodies only
force strictly smaller nodes. -/
def freshEvalAux : Nat → State → Nat → Int
  | 0, _, _ => 0
  | f+1, s, n =>
    match (getNode s n).body with
    | Expr.readSelf => (getNode s n).result
    | e => denotE (fun d => if d < n then freshEvalAux f s d else 0) e

/-- Fresh, non-memoized evaluation of node `n` from the current ref values. -/
def freshEval (s : State) (n : Nat) : Int := freshEvalAux (n+1) s n

/-- The answers a fresh evaluation gives to the forces of node `n`'s body. -/
def denotVals (s : State) (n : Nat) : Nat → Int :=
  fun d => if d < n then freshEval s d else 0

/-- The nodes node `n`'s body forces on a fresh run from the current ref
values — the node's true dynamic dependency set. -/
def freshDeps (s : State) (n : Nat) : List Nat :=
  depsE (denotVals s n) (getNode s n).body

/-- Well-formed (force-style) thunk body with node index `n`: reads other
nodes only through `force`, and only nodes constructed before `n` (the
acyclicity contract of §1). -/
def wfE (n : Nat) : Expr → Bool
  | Expr.lit _ => true
  | Expr.force d => decide (d < n)
  | Expr.seq a b => wfE n a && wfE n b
  | Expr.add a b => wfE n a && wfE n b
  | Expr.subE a b => wfE n a && wfE n b
  | Expr.iteNz c t e => wfE n c && wfE n t && wfE n e
  | _ => false

/-- Every node is a ref or carries a well-formed force-style body. -/
def WFState (s : State) : Prop :=
  ∀ n, n < s.nodes.length →
    ((getNode s n).body = Expr.readSelf ∨ wfE n (getNode s n).body = true)

/-- Dependency edges only point at strictly smaller node indices — the shape
every force-style client run produces. -/
def SubsBelow (s : State) : Prop :=
  ∀ m, m < s.nodes.length → ∀ d ∈ (getNode s m).sub, d < m

/-- A clean node's cache is its fresh value, and it sits in the dependent
set of each node its fresh run forces, so any change below will dirty it. -/
def CleanOKAt (s : State) (n : NodeId) : Prop :=
  (getNode s n).clean = true →
    (getNode s n).result = freshEval s n ∧
    ∀ d ∈ freshDeps s n, n ∈ (getNode s d).«super»

/-- One dependent-side (super) edge step. -/
def SuperEdge (s : State) (a b : NodeId) : Prop := b ∈ (getNode s a).«super»

instance (s : State) (a b : NodeId) : Decidable (SuperEdge s a b) := by
  unfold SuperEdge
  infer_instance

/-- Reachability along dependent (super) edges. -/
def Reach (s : State) : NodeId → NodeId → Prop := Relation.ReflTransGen (SuperEdge s)

/-- The dirtying invariant: a dirty node's dependents are all dirty.  The
engine maintains it for force-style clients, but dirtying relies on it: its
short-circuit stops at an already-dirty node, assuming everything above is
dirty too. -/
def DirtyUp (s : State) : Prop :=
  ∀ a, a < s.nodes.length → (getNode s a).clean = false →
    ∀ b ∈ (getNode s a).«super», (getNode s b).clean = false

instance (s : State) : Decidable (DirtyUp s) := by
  unfold DirtyUp
  infer_instance

instance (s : State) : Decidable (Sym s) := by
  unfold Sym
  infer_instance

instance (s : State) : Decidable (EdgesValid s) := by
  unfold EdgesValid
  infer_instance

instance (s : State) : Decidable (BodiesOK s) := by
  unfold BodiesOK
  infer_instance

instance (s : State) : Decidable (CtxOK s) := by
  unfold CtxOK
  rcases s.currentlyAdapting with _ | c
  · exact isTrue (by simp)
  · by_cases h : c < s.nodes.length
    · exact isTrue (fun x hx => by cases hx; exact h)
    · exact isFalse (fun hall => h (hall c rfl))

instance (s : State) : Decidable (GoodGraph s) := by
  unfold GoodGraph
  infer_instance

/-- The engine invariant, with an exception list `E` of in-flight nodes
whose caches are being rebuilt: symmetric valid downward edges, dirtiness
propagated upward, and every settled clean node caching its fresh value. -/
def InvExc (E : List NodeId) (s : State) : Prop :=
  Sym s ∧ EdgesValid s ∧ SubsBelow s ∧ DirtyUp s ∧
  ∀ n, n < s.nodes.length → n ∉ E → CleanOKAt s n

/-- The quiescent engine invariant. -/
def Inv (s : State) : Prop := InvExc [] s

/-- Agreement of two stores on everything a fresh evaluation reads: bodies
everywhere, and stored results of refs. -/
def FreshEq (s t : State) : Prop :=
  ∀ m, (getNode t m).body = (getNode s m).body ∧
    ((getNode s m).body = Expr.readSelf → (getNode t m).result = (getNode s m).result)

instance (s : State) (n : NodeId) : Decidable (CleanOKAt s n) := by
  unfold CleanOKAt
  infer_instance

instance (s : State) : Decidable (WFState s) := by
  unfold WFState
  infer_instance

instance (s : State) : Decidable (SubsBelow s) := by
  unfold SubsBelow
  infer_instance

instance (E : List NodeId) (s : State) : Decidable (InvExc E s) := by
  unfold InvExc
  infer_instance

instance (s : State) : Decidable (Inv s) := by
  unfold Inv
  infer_instance

/-- A client operation on the public surface of the engine. -/
inductive Op where
  | mkRef (v : Int)
  | mkThunk (e : Expr)
  | setRefOp (r : NodeId) (v : Int)
  | forceOp (d : NodeId)
deriving Repr, DecidableEq

/-- Validity of one operation against the current store: thunks carry
well-formed force-style bodies, `set_ref` targets an existing ref, `force`
an existing node. -/
def wfOp (s : State) : Op → Bool
  | Op.mkRef _ => true
  | Op.mkThunk e => wfE s.nodes.length e
  | Op.setRefOp r _ =>
    decide (r < s.nodes.length) && decide ((getNode s r).body = Expr.readSelf)
  | Op.forceOp d => decide (d < s.nodes.length)

/-- Apply one client operation. -/
def applyOp (f : Nat) (s : State) : Op → Option State
  | Op.mkRef v => some (adaptonRef v s)
  | Op.mkThunk e => some (makeAthunk e s)
  | Op.setRefOp r v => adaptonRefSet f s r v
  | Op.forceOp d =>
    match run f s (Call.forceC d) with
    | some (s', Except.ok _) => some s'
    | _ => none

/-- Run a list of client operations from a store, demanding that each is
valid for the store it meets. -/
def runOps (f : Nat) : State → List Op → Option State
  | s, [] => some s
  | s, op :: rest =>
    if wfOp s op then (applyOp f s op).bind (fun t => runOps f t rest) else none

/-- Validity of the argument of an engine entry call. -/
def CallOK (s : State) : Call → Prop
  | Call.computeC n => n < s.nodes.length
  | Call.forceC n => n < s.nodes.length
  | Call.evalC self e => self < s.nodes.length ∧ targetsOK s.nodes.length e = true

/-- Frame of one engine run: the node count and every body are unchanged, and
a node that was clean stays clean with its result untouched (the engine never
dirties anything and only writes the result of a node it found dirty). -/
def Frames (s t : State) : Prop :=
  t.nodes.length = s.nodes.length ∧
  (∀ m, (getNode t m).body = (getNode s m).body) ∧
  (∀ m, (getNode s m).clean = true →
    (getNode t m).clean = true ∧ (getNode t m).result = (getNode s m).result)

/-- Frame of one dirtying wave: everything except clean flags is unchanged —
in particular no edge moves, no result is written and no computation is
invoked (the call log is untouched) — and clean flags only fall. -/
def EdgeFrame (s t : State) : Prop :=
  t.nodes.length = s.nodes.length ∧
  t.currentlyAdapting = s.currentlyAdapting ∧
  t.calls = s.calls ∧
  (∀ m, (getNode t m).body = (getNode s m).body ∧
        (getNode t m).result = (getNode s m).result ∧
        (getNode t m).sub = (getNode s m).sub ∧
        (getNode t m).«super» = (getNode s m).«super») ∧
  (∀ m, (getNode t m).clean = true → (getNode s m).clean = true)

/-! ### Basic state-access lemmas -/

theorem getNode_setNode (s : State) (n : NodeId) (nd : Node) (m : NodeId) :
    getNode (setNode s n nd) m = if n = m ∧ n < s.nodes.length then nd else getNode s m := by
  simp only [getNode, setNode, List.getD_eq_getElem?_getD, List.getElem?_set]
  by_cases h1 : n = m
  · subst h1
    by_cases h2 : n < s.nodes.length
    · simp [h2]
    · simp [h2, List.getElem?_eq_none (Nat.le_of_not_lt h2)]
  · simp [h1]

theorem length_setNode (s : State) (n : NodeId) (nd : Node) :
    (setNode s n nd).nodes.length = s.nodes.length := by
  simp [setNode]

theorem length_modifyNode (s : State) (n : NodeId) (g : Node → Node) :
    (modifyNode s n g).nodes.length = s.nodes.length := length_setNode ..

theorem getNode_modifyNode (s : State) (n : NodeId) (g : Node → Node) (m : NodeId) :
    getNode (modifyNode s n g) m =
      if n = m ∧ n < s.nodes.length then g (getNode s n) else getNode s m :=
  getNode_setNode ..

theorem ctx_modifyNode (s : State) (n : NodeId) (g : Node → Node) :
    (modifyNode s n g).currentlyAdapting = s.currentlyAdapting := rfl

theorem calls_modifyNode (s : State) (n : NodeId) (g : Node → Node) :
    (modifyNode s n g).calls = s.calls := rfl

theorem mem_insertOnce (x y : NodeId) (l : List NodeId) :
    y ∈ insertOnce x l ↔ y ∈ l ∨ y = x := by
  unfold insertOnce
  by_cases h : x ∈ l
  · simp only [if_pos h]
    constructor
    · exact Or.inl
    · rintro (h1 | rfl) <;> [exact h1; exact h]
  · simp [if_neg h]

theorem mem_removeAll (x y : NodeId) (l : List NodeId) :
    y ∈ removeAll x l ↔ y ∈ l ∧ y ≠ x := by
  simp [removeAll]

/-! ### Field-level characterization of the edge and flag mutators -/

theorem length_addEdge (a b : NodeId) (s : State) :
    (addEdge a b s).nodes.length = s.nodes.length := by
  simp [addEdge, length_modifyNode]

theorem ctx_addEdge (a b : NodeId) (s : State) :
    (addEdge a b s).currentlyAdapting = s.currentlyAdapting := rfl

theorem calls_addEdge (a b : NodeId) (s : State) :
    (addEdge a b s).calls = s.calls := rfl

theorem getNode_addEdge (a b : NodeId) (s : State) (m : NodeId) :
    getNode (addEdge a b s) m =
      (fun nd =>
        if b = m ∧ b < s.nodes.length then { nd with «super» := insertOnce a nd.«super» } else nd)
      ((fun nd =>
        if a = m ∧ a < s.nodes.length then { nd with sub := insertOnce b nd.sub } else nd)
       (getNode s m)) := by
  show getNode (modifyNode (modifyNode s a _) b _) m = _
  simp only [getNode_modifyNode, length_modifyNode]
  by_cases hb : b = m ∧ b < s.nodes.length <;> by_cases ha : a = m ∧ a < s.nodes.length <;>
    simp only [ha, hb, if_true, if_false] <;> simp_all

theorem body_addEdge (a b : NodeId) (s : State) (m : NodeId) :
    (getNode (addEdge a b s) m).body = (getNode s m).body := by
  simp only [getNode_addEdge]
  split <;> split <;> rfl

theorem result_addEdge (a b : NodeId) (s : State) (m : NodeId) :
    (getNode (addEdge a b s) m).result = (getNode s m).result := by
  simp only [getNode_addEdge]
  split <;> split <;> rfl

theorem clean_addEdge (a b : NodeId) (s : State) (m : NodeId) :
    (getNode (addEdge a b s) m).clean = (getNode s m).clean := by
  simp only [getNode_addEdge]
  split <;> split <;> rfl

theorem sub_addEdge (a b : NodeId) (s : State) (m : NodeId) :
    (getNode (addEdge a b s) m).sub =
      if a = m ∧ a < s.nodes.length then insertOnce b (getNode s m).sub
      else (getNode s m).sub := by
  simp only [getNode_addEdge]
  split <;> split <;> rfl

theorem super_addEdge (a b : NodeId) (s : State) (m : NodeId) :
    (getNode (addEdge a b s) m).«super» =
      if b = m ∧ b < s.nodes.length then insertOnce a (getNode s m).«super»
      else (getNode s m).«super» := by
  simp only [getNode_addEdge]
  split <;> split <;> rfl

theorem length_deleteEdge (a b : NodeId) (s : State) :
    (deleteEdge a b s).nodes.length = s.nodes.length := by
  simp [deleteEdge, length_modifyNode]

theorem ctx_deleteEdge (a b : NodeId) (s : State) :
    (deleteEdge a b s).currentlyAdapting = s.currentlyAdapting := rfl

theorem calls_deleteEdge (a b : NodeId) (s : State) :
    (deleteEdge a b s).calls = s.calls := rfl

theorem getNode_deleteEdge (a b : NodeId) (s : State) (m : NodeId) :
    getNode (deleteEdge a b s) m =
      (fun nd =>
        if b = m ∧ b < s.nodes.length then { nd with «super» := removeAll a nd.«super» } else nd)
      ((fun nd =>
        if a = m ∧ a < s.nodes.length then { nd with sub := removeAll b nd.sub } else nd)
       (getNode s m)) := by
  show getNode (modifyNode (modifyNode s a _) b _) m = _
  simp only [getNode_modifyNode, length_modifyNode]
  by_cases hb : b = m ∧ b < s.nodes.length <;> by_cases ha : a = m ∧ a < s.nodes.length <;>
    simp only [ha, hb, if_true, if_false] <;> simp_all

theorem body_deleteEdge (a b : NodeId) (s : State) (m : NodeId) :
    (getNode (deleteEdge a b s) m).body = (getNode s m).body := by
  simp only [getNode_deleteEdge]
  split <;> split <;> rfl

theorem result_deleteEdge (a b : NodeId) (s : State) (m : NodeId) :
    (getNode (deleteEdge a b s) m).result = (getNode s m).result := by
  simp only [getNode_deleteEdge]
  split <;> split <;> rfl

theorem clean_deleteEdge (a b : NodeId) (s : State) (m : NodeId) :
    (getNode (deleteEdge a b s) m).clean = (getNode s m).clean := by
  simp only [getNode_deleteEdge]
  split <;> split <;> rfl

theorem sub_deleteEdge (a b : NodeId) (s : State) (m : NodeId) :
    (getNode (deleteEdge a b s) m).sub =
      if a = m ∧ a < s.nodes.length then removeAll b (getNode s m).sub
      else (getNode s m).sub := by
  simp only [getNode_deleteEdge]
  split <;> split <;> rfl

theorem super_deleteEdge (a b : NodeId) (s : State) (m : NodeId) :
    (getNode (deleteEdge a b s) m).«super» =
      if b = m ∧ b < s.nodes.length then removeAll a (getNode s m).«super»
      else (getNode s m).«super» := by
  simp only [getNode_deleteEdge]
  split <;> split <;> rfl

theorem getNode_setClean (n : NodeId) (b : Bool) (s : State) (m : NodeId) :
    getNode (setClean n b s) m =
      if n = m ∧ n < s.nodes.length then { getNode s n with clean := b }
      else getNode s m := getNode_modifyNode ..

theorem length_setClean (n : NodeId) (b : Bool) (s : State) :
    (setClean n b s).nodes.length = s.nodes.length := length_modifyNode ..

theorem ctx_setClean (n : NodeId) (b : Bool) (s : State) :
    (setClean n b s).currentlyAdapting = s.currentlyAdapting := rfl

theorem calls_setClean (n : NodeId) (b : Bool) (s : State) :
    (setClean n b s).calls = s.calls := rfl

theorem body_setClean (n : NodeId) (b : Bool) (s : State) (m : NodeId) :
    (getNode (setClean n b s) m).body = (getNode s m).body := by
  rw [getNode_setClean]
  split
  · next h => rw [h.1]
  · rfl

theorem result_setClean (n : NodeId) (b : Bool) (s : State) (m : NodeId) :
    (getNode (setClean n b s) m).result = (getNode s m).result := by
  rw [getNode_setClean]
  split
  · next h => rw [h.1]
  · rfl

theorem sub_setClean (n : NodeId) (b : Bool) (s : State) (m : NodeId) :
    (getNode (setClean n b s) m).sub = (getNode s m).sub := by
  rw [getNode_setClean]
  split
  · next h => rw [h.1]
  · rfl

theorem super_setClean (n : NodeId) (b : Bool) (s : State) (m : NodeId) :
    (getNode (setClean n b s) m).«super» = (getNode s m).«super» := by
  rw [getNode_setClean]
  split
  · next h => rw [h.1]
  · rfl

theorem clean_setClean (n : NodeId) (b : Bool) (s : State) (m : NodeId) :
    (getNode (setClean n b s) m).clean =
      if n = m ∧ n < s.nodes.length then b else (getNode s m).clean := by
  rw [getNode_setClean]
  split <;> rfl

theorem getNode_setResult (n : NodeId) (v : Int) (s : State) (m : NodeId) :
    getNode (setResult n v s) m =
      if n = m ∧ n < s.nodes.length then { getNode s n with result := v }
      else getNode s m := getNode_modifyNode ..

theorem length_setResult (n : NodeId) (v : Int) (s : State) :
    (setResult n v s).nodes.length = s.nodes.length := length_modifyNode ..

theorem ctx_setResult (n : NodeId) (v : Int) (s : State) :
    (setResult n v s).currentlyAdapting = s.currentlyAdapting := rfl

theorem calls_setResult (n : NodeId) (v : Int) (s : State) :
    (setResult n v s).calls = s.calls := rfl

theorem body_setResult (n : NodeId) (v : Int) (s : State) (m : NodeId) :
    (getNode (setResult n v s) m).body = (getNode s m).body := by
  rw [getNode_setResult]
  split
  · next h => rw [h.1]
  · rfl

theorem clean_setResult (n : NodeId) (v : Int) (s : State) (m : NodeId) :
    (getNode (setResult n v s) m).clean = (getNode s m).clean := by
  rw [getNode_setResult]
  split
  · next h => rw [h.1]
  · rfl

theorem sub_setResult (n : NodeId) (v : Int) (s : State) (m : NodeId) :
    (getNode (setResult n v s) m).sub = (getNode s m).sub := by
  rw [getNode_setResult]
  split
  · next h => rw [h.1]
  · rfl

theorem super_setResult (n : NodeId) (v : Int) (s : State) (m : NodeId) :
    (getNode (setResult n v s) m).«super» = (getNode s m).«super» := by
  rw [getNode_setResult]
  split
  · next h => rw [h.1]
  · rfl

theorem result_setResult (n : NodeId) (v : Int) (s : State) (m : NodeId) :
    (getNode (setResult n v s) m).result =
      if n = m ∧ n < s.nodes.length then v else (getNode s m).result := by
  rw [getNode_setResult]
  split <;> rfl

theorem getNode_pushCall (n : NodeId) (s : State) (m : NodeId) :
    getNode (pushCall n s) m = getNode s m := rfl

theorem length_pushCall (n : NodeId) (s : State) :
    (pushCall n s).nodes.length = s.nodes.length := rfl

theorem ctx_pushCall (n : NodeId) (s : State) :
    (pushCall n s).currentlyAdapting = s.currentlyAdapting := rfl

/-! ### The edge-dropping fold performed at the start of a dirty `compute` -/

theorem foldDel_length (n : NodeId) (l : List NodeId) (s : State) :
    (l.foldl (fun st x => deleteEdge n x st) s).nodes.length = s.nodes.length := by
  induction l generalizing s with
  | nil => rfl
  | cons x xs ih => simp only [List.foldl_cons, ih, length_deleteEdge]

theorem foldDel_ctx (n : NodeId) (l : List NodeId) (s : State) :
    (l.foldl (fun st x => deleteEdge n x st) s).currentlyAdapting = s.currentlyAdapting := by
  induction l generalizing s with
  | nil => rfl
  | cons x xs ih => simp only [List.foldl_cons, ih, ctx_deleteEdge]

theorem foldDel_calls (n : NodeId) (l : List NodeId) (s : State) :
    (l.foldl (fun st x => deleteEdge n x st) s).calls = s.calls := by
  induction l generalizing s with
  | nil => rfl
  | cons x xs ih => simp only [List.foldl_cons, ih, calls_deleteEdge]

theorem foldDel_body (n : NodeId) (l : List NodeId) (s : State) (m : NodeId) :
    (getNode (l.foldl (fun st x => deleteEdge n x st) s) m).body = (getNode s m).body := by
  induction l generalizing s with
  | nil => rfl
  | cons x xs ih => simp only [List.foldl_cons, ih, body_deleteEdge]

theorem foldDel_result (n : NodeId) (l : List NodeId) (s : State) (m : NodeId) :
    (getNode (l.foldl (fun st x => deleteEdge n x st) s) m).result = (getNode s m).result := by
  induction l generalizing s with
  | nil => rfl
  | cons x xs ih => simp only [List.foldl_cons, ih, result_deleteEdge]

theorem foldDel_clean (n : NodeId) (l : List NodeId) (s : State) (m : NodeId) :
    (getNode (l.foldl (fun st x => deleteEdge n x st) s) m).clean = (getNode s m).clean := by
  induction l generalizing s with
  | nil => rfl
  | cons x xs ih => simp only [List.foldl_cons, ih, clean_deleteEdge]

theorem getNode_of_ge (s : State) (n : NodeId) (h : s.nodes.length ≤ n) :
    getNode s n = defaultNode := by
  simp [getNode, List.getD_eq_getElem?_getD, List.getElem?_eq_none h]

theorem foldDel_sub (n : NodeId) (l : List NodeId) (s : State) (m y : NodeId) :
    y ∈ (getNode (l.foldl (fun st x => deleteEdge n x st) s) m).sub ↔
      y ∈ (getNode s m).sub ∧ ¬(m = n ∧ y ∈ l) := by
  induction l generalizing s with
  | nil => simp
  | cons x xs ih =>
    rw [List.foldl_cons, ih, sub_deleteEdge]
    by_cases hm : n = m
    · subst hm
      by_cases hlen : n < s.nodes.length
      · rw [if_pos ⟨rfl, hlen⟩]
        simp only [mem_removeAll, List.mem_cons]
        tauto
      · rw [if_neg (fun hc => hlen hc.2)]
        rw [getNode_of_ge s n (Nat.le_of_not_lt hlen)]
        simp [defaultNode]
    · rw [if_neg (fun hc => hm hc.1)]
      simp only [List.mem_cons]
      tauto

theorem foldDel_sub_ne (n : NodeId) (l : List NodeId) (s : State) (m : NodeId) (hm : m ≠ n) :
    (getNode (l.foldl (fun st x => deleteEdge n x st) s) m).sub = (getNode s m).sub := by
  induction l generalizing s with
  | nil => rfl
  | cons x xs ih =>
    rw [List.foldl_cons, ih, sub_deleteEdge, if_neg (fun hc => hm hc.1.symm)]

theorem foldDel_super_ne (n : NodeId) (l : List NodeId) :
    ∀ (s : State) (m : NodeId), m ∉ l →
      (getNode (l.foldl (fun st x => deleteEdge n x st) s) m).«super»
        = (getNode s m).«super» := by
  induction l with
  | nil => intro s m _; rfl
  | cons x xs ih =>
    intro s m hm
    have hxm : ¬(x = m ∧ x < s.nodes.length) := by
      rintro ⟨rfl, _⟩
      exact hm (List.mem_cons_self x xs)
    rw [List.foldl_cons, ih _ m (fun hc => hm (List.mem_cons_of_mem x hc)), super_deleteEdge,
      if_neg hxm]

theorem foldDel_super (n : NodeId) (l : List NodeId) (s : State) (m a : NodeId) :
    a ∈ (getNode (l.foldl (fun st x => deleteEdge n x st) s) m).«super» ↔
      a ∈ (getNode s m).«super» ∧ ¬(a = n ∧ m ∈ l) := by
  induction l generalizing s with
  | nil => simp
  | cons x xs ih =>
    rw [List.foldl_cons, ih, super_deleteEdge]
    by_cases hx : x = m
    · subst hx
      by_cases hlen : x < s.nodes.length
      · rw [if_pos ⟨rfl, hlen⟩]
        simp only [mem_removeAll, List.mem_cons]
        tauto
      · rw [if_neg (fun hc => hlen hc.2)]
        rw [getNode_of_ge s x (Nat.le_of_not_lt hlen)]
        simp [defaultNode]
    · rw [if_neg (fun hc => hx hc.1)]
      simp only [List.mem_cons]
      tauto

/-! ### The run frame: one engine call never dirties a node, never changes a
body, and never overwrites the result of a node that was clean at entry. -/

theorem frames_refl (s : State) : Frames s s :=
  ⟨rfl, fun _ => rfl, fun _ h => ⟨h, rfl⟩⟩

theorem frames_trans {s t u : State} (h1 : Frames s t) (h2 : Frames t u) : Frames s u := by
  obtain ⟨l1, b1, c1⟩ := h1
  obtain ⟨l2, b2, c2⟩ := h2
  refine ⟨l2.trans l1, fun m => (b2 m).trans (b1 m), fun m hm => ?_⟩
  obtain ⟨hc, hr⟩ := c1 m hm
  obtain ⟨hc2, hr2⟩ := c2 m hc
  exact ⟨hc2, hr2.trans hr⟩

theorem frames_foldDel (n : NodeId) (l : List NodeId) (s : State) :
    Frames s (l.foldl (fun st x => deleteEdge n x st) s) := by
  refine ⟨foldDel_length .., fun m => foldDel_body .., fun m hm => ?_⟩
  rw [foldDel_clean, foldDel_result]
  exact ⟨hm, rfl⟩

theorem frames_addEdge (a b : NodeId) (s : State) : Frames s (addEdge a b s) := by
  refine ⟨length_addEdge .., fun m => body_addEdge .., fun m hm => ?_⟩
  rw [clean_addEdge, result_addEdge]
  exact ⟨hm, rfl⟩

theorem frames_setCleanTrue (n : NodeId) (s : State) : Frames s (setClean n true s) := by
  refine ⟨length_setClean .., fun m => body_setClean .., fun m hm => ?_⟩
  rw [clean_setClean, result_setClean]
  refine ⟨?_, rfl⟩
  split <;> simp [hm]

theorem frames_pushCall (n : NodeId) (s : State) : Frames s (pushCall n s) :=
  frames_refl _

/-- Writing the result of a node that was dirty in the base state preserves
the frame relative to that base state. -/
theorem frames_setResult_of_dirty {s t : State} (n : NodeId) (v : Int)
    (hd : (getNode s n).clean = false) (hf : Frames s t) : Frames s (setResult n v t) := by
  obtain ⟨l1, b1, c1⟩ := hf
  refine ⟨(length_setResult ..).trans l1, fun m => (body_setResult ..).trans (b1 m),
    fun m hm => ?_⟩
  have hne : n ≠ m := fun he => by rw [he] at hd; rw [hd] at hm; cases hm
  obtain ⟨hc, hr⟩ := c1 m hm
  rw [clean_setResult, result_setResult, if_neg (fun hx => hne hx.1)]
  exact ⟨hc, hr⟩

theorem run_frame : ∀ (f : Nat) (s : State) (c : Call) (s' : State) (r : Except Nat Int),
    run f s c = some (s', r) → Frames s s' := by
  intro f
  induction f with
  | zero => intro s c s' r h; exact absurd h (by simp [run])
  | succ f ih =>
    intro s c s' r h
    match c with
    | Call.computeC n =>
      simp only [run] at h
      by_cases hcl : (getNode s n).clean
      · rw [if_pos hcl] at h
        simp only [Option.some.injEq, Prod.mk.injEq] at h
        obtain ⟨h1, _⟩ := h
        subst h1
        exact frames_refl s
      · rw [if_neg hcl] at h
        rcases hev : run f (pushCall n (setClean n true
            ((getNode s n).sub.foldl (fun st x => deleteEdge n x st) s)))
            (Call.evalC n (getNode s n).body) with _ | ⟨s3, k | v⟩ <;> rw [hev] at h
        · exact absurd h (by simp)
        · simp only [Option.some.injEq, Prod.mk.injEq] at h
          obtain ⟨h1, _⟩ := h
          subst h1
          exact frames_trans (frames_trans (frames_trans (frames_foldDel ..)
            (frames_setCleanTrue ..)) (frames_pushCall ..)) (ih _ _ _ _ hev)
        · have h0 : Frames s s3 :=
            frames_trans (frames_trans (frames_trans (frames_foldDel ..)
              (frames_setCleanTrue ..)) (frames_pushCall ..)) (ih _ _ _ _ hev)
          have h4 : Frames s (setResult n v s3) :=
            frames_setResult_of_dirty n v (Bool.eq_false_iff.mpr hcl) h0
          exact frames_trans h4 (ih _ _ _ _ h)
    | Call.forceC n =>
      simp only [run] at h
      rcases hcm : run f { s with currentlyAdapting := some n } (Call.computeC n)
        with _ | ⟨s2, k | v⟩ <;> rw [hcm] at h
      · exact absurd h (by simp)
      · simp only [Option.some.injEq, Prod.mk.injEq] at h
        obtain ⟨h1, _⟩ := h
        subst h1
        have h2 := ih _ _ _ _ hcm
        exact h2
      · have h2x := ih _ _ _ _ hcm
        have h2 : Frames s s2 := h2x
        match hp : s.currentlyAdapting with
        | some c =>
          rw [hp] at h
          simp only [Option.some.injEq, Prod.mk.injEq] at h
          obtain ⟨h1, _⟩ := h
          subst h1
          exact frames_trans h2 (frames_addEdge ..)
        | none =>
          rw [hp] at h
          simp only [Option.some.injEq, Prod.mk.injEq] at h
          obtain ⟨h1, _⟩ := h
          subst h1
          exact h2
    | Call.evalC self e =>
      match e with
      | Expr.lit v =>
        simp only [run, Option.some.injEq, Prod.mk.injEq] at h
        obtain ⟨h1, _⟩ := h
        subst h1
        exact frames_refl s
      | Expr.readSelf =>
        simp only [run, Option.some.injEq, Prod.mk.injEq] at h
        obtain ⟨h1, _⟩ := h
        subst h1
        exact frames_refl s
      | Expr.throwE k =>
        simp only [run, Option.some.injEq, Prod.mk.injEq] at h
        obtain ⟨h1, _⟩ := h
        subst h1
        exact frames_refl s
      | Expr.force d =>
        simp only [run] at h
        exact ih _ _ _ _ h
      | Expr.computeE d =>
        simp only [run] at h
        exact ih _ _ _ _ h
      | Expr.addEdgeE d =>
        simp only [run, Option.some.injEq, Prod.mk.injEq] at h
        obtain ⟨h1, _⟩ := h
        subst h1
        exact frames_addEdge ..
      | Expr.seq a b =>
        simp only [run] at h
        rcases ha : run f s (Call.evalC self a) with _ | ⟨s1, k | v⟩ <;> rw [ha] at h
        · exact absurd h (by simp)
        · simp only [Option.some.injEq, Prod.mk.injEq] at h
          obtain ⟨h1, _⟩ := h
          subst h1
          exact ih _ _ _ _ ha
        · exact frames_trans (ih _ _ _ _ ha) (ih _ _ _ _ h)
      | Expr.add a b =>
        simp only [run] at h
        rcases ha : run f s (Call.evalC self a) with _ | ⟨s1, k | v⟩ <;> rw [ha] at h
        · exact absurd h (by simp)
        · simp only [Option.some.injEq, Prod.mk.injEq] at h
          obtain ⟨h1, _⟩ := h
          subst h1
          exact ih _ _ _ _ ha
        · dsimp only at h
          rcases hb : run f s1 (Call.evalC self b) with _ | ⟨s2, k | v2⟩ <;> rw [hb] at h
          · exact absurd h (by simp)
          · simp only [Option.some.injEq, Prod.mk.injEq] at h
            obtain ⟨h1, _⟩ := h
            subst h1
            exact frames_trans (ih _ _ _ _ ha) (ih _ _ _ _ hb)
          · simp only [Option.some.injEq, Prod.mk.injEq] at h
            obtain ⟨h1, _⟩ := h
            subst h1
            exact frames_trans (ih _ _ _ _ ha) (ih _ _ _ _ hb)
      | Expr.subE a b =>
        simp only [run] at h
        rcases ha : run f s (Call.evalC self a) with _ | ⟨s1, k | v⟩ <;> rw [ha] at h
        · exact absurd h (by simp)
        · simp only [Option.some.injEq, Prod.mk.injEq] at h
          obtain ⟨h1, _⟩ := h
          subst h1
          exact ih _ _ _ _ ha
        · dsimp only at h
          rcases hb : run f s1 (Call.evalC self b) with _ | ⟨s2, k | v2⟩ <;> rw [hb] at h
          · exact absurd h (by simp)
          · simp only [Option.some.injEq, Prod.mk.injEq] at h
            obtain ⟨h1, _⟩ := h
            subst h1
            exact frames_trans (ih _ _ _ _ ha) (ih _ _ _ _ hb)
          · simp only [Option.some.injEq, Prod.mk.injEq] at h
            obtain ⟨h1, _⟩ := h
            subst h1
            exact frames_trans (ih _ _ _ _ ha) (ih _ _ _ _ hb)
      | Expr.iteNz c0 t e0 =>
        simp only [run] at h
        rcases hc : run f s (Call.evalC self c0) with _ | ⟨s1, k | v⟩ <;> rw [hc] at h
        · exact absurd h (by simp)
        · simp only [Option.some.injEq, Prod.mk.injEq] at h
          obtain ⟨h1, _⟩ := h
          subst h1
          exact ih _ _ _ _ hc
        · dsimp only at h
          by_cases hv : v ≠ 0
          · rw [if_pos hv] at h
            exact frames_trans (ih _ _ _ _ hc) (ih _ _ _ _ h)
          · rw [if_neg hv] at h
            exact frames_trans (ih _ _ _ _ hc) (ih _ _ _ _ h)

/-- On a successful (non-throwing) run, the `currentlyAdapting` slot is
restored to its incoming value: every `force` saves and restores it, and
nothing else writes it. -/
theorem run_ctx_ok : ∀ (f : Nat) (s : State) (c : Call) (s' : State) (v : Int),
    run f s c = some (s', Except.ok v) →
    s'.currentlyAdapting = s.currentlyAdapting := by
  intro f
  induction f with
  | zero => intro s c s' v h; exact absurd h (by simp [run])
  | succ f ih =>
    intro s c s' v h
    match c with
    | Call.computeC n =>
      simp only [run] at h
      by_cases hcl : (getNode s n).clean
      · rw [if_pos hcl] at h
        simp only [Option.some.injEq, Prod.mk.injEq] at h
        obtain ⟨h1, _⟩ := h
        subst h1
        rfl
      · rw [if_neg hcl] at h
        rcases hev : run f (pushCall n (setClean n true
            ((getNode s n).sub.foldl (fun st x => deleteEdge n x st) s)))
            (Call.evalC n (getNode s n).body) with _ | ⟨s3, k | w⟩ <;> rw [hev] at h
        · exact absurd h (by simp)
        · simp only [Option.some.injEq, Prod.mk.injEq] at h
          exact absurd h.2 (by simp)
        · have h2 := ih _ _ _ _ hev
          have h3 := ih _ _ _ _ h
          rw [h3, ctx_setResult, h2, ctx_pushCall, ctx_setClean, foldDel_ctx]
    | Call.forceC n =>
      simp only [run] at h
      rcases hcm : run f { s with currentlyAdapting := some n } (Call.computeC n)
        with _ | ⟨s2, k | w⟩ <;> rw [hcm] at h
      · exact absurd h (by simp)
      · simp only [Option.some.injEq, Prod.mk.injEq] at h
        exact absurd h.2 (by simp)
      · match hp : s.currentlyAdapting with
        | some c =>
          rw [hp] at h
          simp only [Option.some.injEq, Prod.mk.injEq] at h
          obtain ⟨h1, _⟩ := h
          subst h1
          rw [ctx_addEdge]
        | none =>
          rw [hp] at h
          simp only [Option.some.injEq, Prod.mk.injEq] at h
          obtain ⟨h1, _⟩ := h
          subst h1
          rfl
    | Call.evalC self e =>
      match e with
      | Expr.lit w =>
        simp only [run, Option.some.injEq, Prod.mk.injEq] at h
        obtain ⟨h1, _⟩ := h
        subst h1
        rfl
      | Expr.readSelf =>
        simp only [run, Option.some.injEq, Prod.mk.injEq] at h
        obtain ⟨h1, _⟩ := h
        subst h1
        rfl
      | Expr.throwE k =>
        simp only [run, Option.some.injEq, Prod.mk.injEq] at h
        exact absurd h.2 (by simp)
      | Expr.force d =>
        simp only [run] at h
        exact ih _ _ _ _ h
      | Expr.computeE d =>
        simp only [run] at h
        exact ih _ _ _ _ h
      | Expr.addEdgeE d =>
        simp only [run, Option.some.injEq, Prod.mk.injEq] at h
        obtain ⟨h1, _⟩ := h
        subst h1
        rw [ctx_addEdge]
      | Expr.seq a b =>
        simp only [run] at h
        rcases ha : run f s (Call.evalC self a) with _ | ⟨s1, k | w⟩ <;> rw [ha] at h
        · exact absurd h (by simp)
        · simp only [Option.some.injEq, Prod.mk.injEq] at h
          exact absurd h.2 (by simp)
        · dsimp only at h
          exact (ih _ _ _ _ h).trans (ih _ _ _ _ ha)
      | Expr.add a b =>
        simp only [run] at h
        rcases ha : run f s (Call.evalC self a) with _ | ⟨s1, k | w⟩ <;> rw [ha] at h
        · exact absurd h (by simp)
        · simp only [Option.some.injEq, Prod.mk.injEq] at h
          exact absurd h.2 (by simp)
        · dsimp only at h
          rcases hb : run f s1 (Call.evalC self b) with _ | ⟨s2, k | w2⟩ <;> rw [hb] at h
          · exact absurd h (by simp)
          · simp only [Option.some.injEq, Prod.mk.injEq] at h
            exact absurd h.2 (by simp)
          · simp only [Option.some.injEq, Prod.mk.injEq] at h
            obtain ⟨h1, _⟩ := h
            subst h1
            exact (ih _ _ _ _ hb).trans (ih _ _ _ _ ha)
      | Expr.subE a b =>
        simp only [run] at h
        rcases ha : run f s (Call.evalC self a) with _ | ⟨s1, k | w⟩ <;> rw [ha] at h
        · exact absurd h (by simp)
        · simp only [Option.some.injEq, Prod.mk.injEq] at h
          exact absurd h.2 (by simp)
        · dsimp only at h
          rcases hb : run f s1 (Call.evalC self b) with _ | ⟨s2, k | w2⟩ <;> rw [hb] at h
          · exact absurd h (by simp)
          · simp only [Option.some.injEq, Prod.mk.injEq] at h
            exact absurd h.2 (by simp)
          · simp only [Option.some.injEq, Prod.mk.injEq] at h
            obtain ⟨h1, _⟩ := h
            subst h1
            exact (ih _ _ _ _ hb).trans (ih _ _ _ _ ha)
      | Expr.iteNz c0 t e0 =>
        simp only [run] at h
        rcases hc : run f s (Call.evalC self c0) with _ | ⟨s1, k | w⟩ <;> rw [hc] at h
        · exact absurd h (by simp)
        · simp only [Option.some.injEq, Prod.mk.injEq] at h
          exact absurd h.2 (by simp)
        · dsimp only at h
          by_cases hv : w ≠ 0
          · rw [if_pos hv] at h
            exact (ih _ _ _ _ h).trans (ih _ _ _ _ hc)
          · rw [if_neg hv] at h
            exact (ih _ _ _ _ h).trans (ih _ _ _ _ hc)

/-- Fuel monotonicity: a run that finishes with a given fuel finishes with
the same outcome on any larger fuel. -/
theorem run_mono : ∀ (f : Nat) (s : State) (c : Call) (r : RunRes),
    run f s c = some r → run (f+1) s c = some r := by
  intro f
  induction f with
  | zero => intro s c r h; exact absurd h (by simp [run])
  | succ f ih =>
    intro s c r h
    match c with
    | Call.computeC n =>
      simp only [run] at h
      rw [run]
      dsimp only
      by_cases hcl : (getNode s n).clean
      · rwa [if_pos hcl] at h ⊢
      · rw [if_neg hcl] at h ⊢
        rcases hev : run f (pushCall n (setClean n true
            ((getNode s n).sub.foldl (fun st x => deleteEdge n x st) s)))
            (Call.evalC n (getNode s n).body) with _ | ⟨s3, k | v⟩ <;> rw [hev] at h
        · exact absurd h (by simp)
        · rw [ih _ _ _ hev]
          exact h
        · rw [ih _ _ _ hev]
          dsimp only at h ⊢
          exact ih _ _ _ h
    | Call.forceC n =>
      simp only [run] at h
      rw [run]
      dsimp only
      rcases hcm : run f { s with currentlyAdapting := some n } (Call.computeC n)
        with _ | ⟨s2, k | v⟩ <;> rw [hcm] at h
      · exact absurd h (by simp)
      · rw [ih _ _ _ hcm]
        exact h
      · rw [ih _ _ _ hcm]
        exact h
    | Call.evalC self e =>
      match e with
      | Expr.lit v =>
        rw [run]
        simpa only [run] using h
      | Expr.readSelf =>
        rw [run]
        simpa only [run] using h
      | Expr.throwE k =>
        rw [run]
        simpa only [run] using h
      | Expr.addEdgeE d =>
        rw [run]
        simpa only [run] using h
      | Expr.force d =>
        simp only [run] at h
        rw [run]
        exact ih _ _ _ h
      | Expr.computeE d =>
        simp only [run] at h
        rw [run]
        exact ih _ _ _ h
      | Expr.seq a b =>
        simp only [run] at h
        rw [run]
        rcases ha : run f s (Call.evalC self a) with _ | ⟨s1, k | v⟩ <;> rw [ha] at h
        · exact absurd h (by simp)
        · rw [ih _ _ _ ha]
          exact h
        · rw [ih _ _ _ ha]
          dsimp only at h ⊢
          exact ih _ _ _ h
      | Expr.add a b =>
        simp only [run] at h
        rw [run]
        rcases ha : run f s (Call.evalC self a) with _ | ⟨s1, k | v⟩ <;> rw [ha] at h
        · exact absurd h (by simp)
        · rw [ih _ _ _ ha]
          exact h
        · rw [ih _ _ _ ha]
          dsimp only at h ⊢
          rcases hb : run f s1 (Call.evalC self b) with _ | ⟨s2, k | v2⟩ <;> rw [hb] at h
          · exact absurd h (by simp)
          · rw [ih _ _ _ hb]
            exact h
          · rw [ih _ _ _ hb]
            exact h
      | Expr.subE a b =>
        simp only [run] at h
        rw [run]
        rcases ha : run f s (Call.evalC self a) with _ | ⟨s1, k | v⟩ <;> rw [ha] at h
        · exact absurd h (by simp)
        · rw [ih _ _ _ ha]
          exact h
        · rw [ih _ _ _ ha]
          dsimp only at h ⊢
          rcases hb : run f s1 (Call.evalC self b) with _ | ⟨s2, k | v2⟩ <;> rw [hb] at h
          · exact absurd h (by simp)
          · rw [ih _ _ _ hb]
            exact h
          · rw [ih _ _ _ hb]
            exact h
      | Expr.iteNz c0 t e0 =>
        simp only [run] at h
        rw [run]
        rcases hc : run f s (Call.evalC self c0) with _ | ⟨s1, k | v⟩ <;> rw [hc] at h
        · exact absurd h (by simp)
        · rw [ih _ _ _ hc]
          exact h
        · rw [ih _ _ _ hc]
          dsimp only at h ⊢
          by_cases hv : v ≠ 0
          · rw [if_pos hv] at h ⊢
            exact ih _ _ _ h
          · rw [if_neg hv] at h ⊢
            exact ih _ _ _ h

/-- Fuel monotonicity, `≤` form. -/
theorem run_mono_le {f f' : Nat} (hf : f ≤ f') (s : State) (c : Call) (r : RunRes)
    (h : run f s c = some r) : run f' s c = some r := by
  induction hf with
  | refl => exact h
  | step _ ih => exact run_mono _ _ _ _ ih

/-- Two successful runs of the same call from the same state agree, whatever
their fuels. -/
theorem run_det {f f' : Nat} {s : State} {c : Call} {r r' : RunRes}
    (h : run f s c = some r) (h' : run f' s c = some r') : r = r' := by
  rcases Nat.le_total f f' with hle | hle
  · have h2 := run_mono_le hle s c r h
    rw [h2] at h'
    exact Option.some.inj h'
  · have h2 := run_mono_le hle s c r' h'
    rw [h2] at h
    exact (Option.some.inj h).symm

/-! ### Preservation of edge symmetry and store well-formedness -/

theorem getNode_appendNode (s : State) (nd : Node) (m : NodeId) :
    getNode (appendNode s nd) m =
      if m < s.nodes.length then getNode s m
      else if m = s.nodes.length then nd else defaultNode := by
  simp only [getNode, appendNode, List.getD_eq_getElem?_getD, List.getElem?_append]
  by_cases h1 : m < s.nodes.length
  · simp [h1]
  · rw [if_neg h1, if_neg h1]
    by_cases h2 : m = s.nodes.length
    · subst h2
      simp
    · have h3 : s.nodes.length < m := Nat.lt_of_le_of_ne (Nat.le_of_not_lt h1) (Ne.symm h2)
      rw [if_neg h2]
      have : m - s.nodes.length ≥ 1 := Nat.le_sub_of_add_le (by omega)
      rw [List.getElem?_eq_none (by simp; omega)]
      rfl

theorem length_appendNode (s : State) (nd : Node) :
    (appendNode s nd).nodes.length = s.nodes.length + 1 := by
  simp [appendNode]

theorem sym_addEdge {s : State} (hs : Sym s) (a b : NodeId) : Sym (addEdge a b s) := by
  intro x hx y hy
  rw [length_addEdge] at hx hy
  rw [sub_addEdge, super_addEdge]
  by_cases hax : a = x ∧ a < s.nodes.length <;> by_cases hby : b = y ∧ b < s.nodes.length
  · rw [if_pos hax, if_pos hby, mem_insertOnce, mem_insertOnce]
    obtain ⟨rfl, _⟩ := hax
    obtain ⟨rfl, _⟩ := hby
    simp
  · rw [if_pos hax, if_neg hby, mem_insertOnce]
    obtain ⟨rfl, _⟩ := hax
    have hyb : y ≠ b := fun he => hby ⟨he.symm, he ▸ hy⟩
    rw [hs a hx y hy]
    simp [hyb]
  · rw [if_neg hax, if_pos hby, mem_insertOnce]
    obtain ⟨rfl, _⟩ := hby
    have hxa : x ≠ a := fun he => hax ⟨he.symm, he ▸ hx⟩
    rw [hs x hx b hy]
    simp [hxa]
  · rw [if_neg hax, if_neg hby]
    exact hs x hx y hy

theorem sym_deleteEdge {s : State} (hs : Sym s) (a b : NodeId) : Sym (deleteEdge a b s) := by
  intro x hx y hy
  rw [length_deleteEdge] at hx hy
  rw [sub_deleteEdge, super_deleteEdge]
  by_cases hax : a = x ∧ a < s.nodes.length <;> by_cases hby : b = y ∧ b < s.nodes.length
  · rw [if_pos hax, if_pos hby, mem_removeAll, mem_removeAll]
    obtain ⟨rfl, _⟩ := hax
    obtain ⟨rfl, _⟩ := hby
    simp
  · rw [if_pos hax, if_neg hby, mem_removeAll]
    obtain ⟨rfl, _⟩ := hax
    have hyb : y ≠ b := fun he => hby ⟨he.symm, he ▸ hy⟩
    rw [hs a hx y hy]
    simp [hyb]
  · rw [if_neg hax, if_pos hby, mem_removeAll]
    obtain ⟨rfl, _⟩ := hby
    have hxa : x ≠ a := fun he => hax ⟨he.symm, he ▸ hx⟩
    rw [hs x hx b hy]
    simp [hxa]
  · rw [if_neg hax, if_neg hby]
    exact hs x hx y hy

/-- Transfer of `Sym` between stores with identical edge structure. -/
theorem sym_of_same_edges {s t : State} (hlen : t.nodes.length = s.nodes.length)
    (hsub : ∀ m, (getNode t m).sub = (getNode s m).sub)
    (hsup : ∀ m, (getNode t m).«super» = (getNode s m).«super»)
    (hs : Sym s) : Sym t := by
  intro x hx y hy
  rw [hlen] at hx hy
  rw [hsub, hsup]
  exact hs x hx y hy

theorem sym_setClean {s : State} (hs : Sym s) (n : NodeId) (b : Bool) :
    Sym (setClean n b s) :=
  sym_of_same_edges (length_setClean ..) (fun m => sub_setClean n b s m)
    (fun m => super_setClean n b s m) hs

theorem sym_setResult {s : State} (hs : Sym s) (n : NodeId) (v : Int) :
    Sym (setResult n v s) :=
  sym_of_same_edges (length_setResult ..) (fun m => sub_setResult n v s m)
    (fun m => super_setResult n v s m) hs

theorem sym_foldDel {s : State} (hs : Sym s) (n : NodeId) (l : List NodeId) :
    Sym (l.foldl (fun st x => deleteEdge n x st) s) := by
  induction l generalizing s with
  | nil => exact hs
  | cons x xs ih => exact ih (sym_deleteEdge hs n x)

/-- `Sym` is preserved by every engine run, with no well-formedness
assumption at all: both edge mutators always write the two sides
together. -/
theorem sym_run : ∀ (f : Nat) (s : State) (c : Call) (s' : State) (r : Except Nat Int),
    Sym s → run f s c = some (s', r) → Sym s' := by
  intro f
  induction f with
  | zero => intro s c s' r _ h; exact absurd h (by simp [run])
  | succ f ih =>
    intro s c s' r hs h
    match c with
    | Call.computeC n =>
      simp only [run] at h
      by_cases hcl : (getNode s n).clean
      · rw [if_pos hcl] at h
        simp only [Option.some.injEq, Prod.mk.injEq] at h
        obtain ⟨h1, _⟩ := h
        subst h1
        exact hs
      · rw [if_neg hcl] at h
        have hs2 : Sym (pushCall n (setClean n true
            ((getNode s n).sub.foldl (fun st x => deleteEdge n x st) s))) :=
          sym_setClean (sym_foldDel hs n _) n true
        rcases hev : run f (pushCall n (setClean n true
            ((getNode s n).sub.foldl (fun st x => deleteEdge n x st) s)))
            (Call.evalC n (getNode s n).body) with _ | ⟨s3, k | v⟩ <;> rw [hev] at h
        · exact absurd h (by simp)
        · simp only [Option.some.injEq, Prod.mk.injEq] at h
          obtain ⟨h1, _⟩ := h
          subst h1
          exact ih _ _ _ _ hs2 hev
        · have hs3 := ih _ _ _ _ hs2 hev
          exact ih _ _ _ _ (sym_setResult hs3 n v) h
    | Call.forceC n =>
      simp only [run] at h
      rcases hcm : run f { s with currentlyAdapting := some n } (Call.computeC n)
        with _ | ⟨s2, k | v⟩ <;> rw [hcm] at h
      · exact absurd h (by simp)
      · simp only [Option.some.injEq, Prod.mk.injEq] at h
        obtain ⟨h1, _⟩ := h
        subst h1
        exact ih { s with currentlyAdapting := some n } _ _ _ hs hcm
      · have hs2 : Sym s2 := ih { s with currentlyAdapting := some n } _ _ _ hs hcm
        match hp : s.currentlyAdapting with
        | some c =>
          rw [hp] at h
          simp only [Option.some.injEq, Prod.mk.injEq] at h
          obtain ⟨h1, _⟩ := h
          subst h1
          exact sym_addEdge hs2 c n
        | none =>
          rw [hp] at h
          simp only [Option.some.injEq, Prod.mk.injEq] at h
          obtain ⟨h1, _⟩ := h
          subst h1
          exact hs2
    | Call.evalC self e =>
      match e with
      | Expr.lit v =>
        simp only [run, Option.some.injEq, Prod.mk.injEq] at h
        obtain ⟨h1, _⟩ := h
        subst h1
        exact hs
      | Expr.readSelf =>
        simp only [run, Option.some.injEq, Prod.mk.injEq] at h
        obtain ⟨h1, _⟩ := h
        subst h1
        exact hs
      | Expr.throwE k =>
        simp only [run, Option.some.injEq, Prod.mk.injEq] at h
        obtain ⟨h1, _⟩ := h
        subst h1
        exact hs
      | Expr.force d =>
        simp only [run] at h
        exact ih _ _ _ _ hs h
      | Expr.computeE d =>
        simp only [run] at h
        exact ih _ _ _ _ hs h
      | Expr.addEdgeE d =>
        simp only [run, Option.some.injEq, Prod.mk.injEq] at h
        obtain ⟨h1, _⟩ := h
        subst h1
        exact sym_addEdge hs self d
      | Expr.seq a b =>
        simp only [run] at h
        rcases ha : run f s (Call.evalC self a) with _ | ⟨s1, k | v⟩ <;> rw [ha] at h
        · exact absurd h (by simp)
        · simp only [Option.some.injEq, Prod.mk.injEq] at h
          obtain ⟨h1, _⟩ := h
          subst h1
          exact ih _ _ _ _ hs ha
        · exact ih _ _ _ _ (ih _ _ _ _ hs ha) h
      | Expr.add a b =>
        simp only [run] at h
        rcases ha : run f s (Call.evalC self a) with _ | ⟨s1, k | v⟩ <;> rw [ha] at h
        · exact absurd h (by simp)
        · simp only [Option.some.injEq, Prod.mk.injEq] at h
          obtain ⟨h1, _⟩ := h
          subst h1
          exact ih _ _ _ _ hs ha
        · dsimp only at h
          rcases hb : run f s1 (Call.evalC self b) with _ | ⟨s2, k | v2⟩ <;> rw [hb] at h
          · exact absurd h (by simp)
          · simp only [Option.some.injEq, Prod.mk.injEq] at h
            obtain ⟨h1, _⟩ := h
            subst h1
            exact ih _ _ _ _ (ih _ _ _ _ hs ha) hb
          · simp only [Option.some.injEq, Prod.mk.injEq] at h
            obtain ⟨h1, _⟩ := h
            subst h1
            exact ih _ _ _ _ (ih _ _ _ _ hs ha) hb
      | Expr.subE a b =>
        simp only [run] at h
        rcases ha : run f s (Call.evalC self a) with _ | ⟨s1, k | v⟩ <;> rw [ha] at h
        · exact absurd h (by simp)
        · simp only [Option.some.injEq, Prod.mk.injEq] at h
          obtain ⟨h1, _⟩ := h
          subst h1
          exact ih _ _ _ _ hs ha
        · dsimp only at h
          rcases hb : run f s1 (Call.evalC self b) with _ | ⟨s2, k | v2⟩ <;> rw [hb] at h
          · exact absurd h (by simp)
          · simp only [Option.some.injEq, Prod.mk.injEq] at h
            obtain ⟨h1, _⟩ := h
            subst h1
            exact ih _ _ _ _ (ih _ _ _ _ hs ha) hb
          · simp only [Option.some.injEq, Prod.mk.injEq] at h
            obtain ⟨h1, _⟩ := h
            subst h1
            exact ih _ _ _ _ (ih _ _ _ _ hs ha) hb
      | Expr.iteNz c0 t e0 =>
        simp only [run] at h
        rcases hc : run f s (Call.evalC self c0) with _ | ⟨s1, k | v⟩ <;> rw [hc] at h
        · exact absurd h (by simp)
        · simp only [Option.some.injEq, Prod.mk.injEq] at h
          obtain ⟨h1, _⟩ := h
          subst h1
          exact ih _ _ _ _ hs hc
        · dsimp only at h
          by_cases hv : v ≠ 0
          · rw [if_pos hv] at h
            exact ih _ _ _ _ (ih _ _ _ _ hs hc) h
          · rw [if_neg hv] at h
            exact ih _ _ _ _ (ih _ _ _ _ hs hc) h

/-! ### The frame of a dirtying wave -/

theorem edgeFrame_refl (s : State) : EdgeFrame s s :=
  ⟨rfl, rfl, rfl, fun _ => ⟨rfl, rfl, rfl, rfl⟩, fun _ h => h⟩

theorem edgeFrame_trans {s t u : State} (h1 : EdgeFrame s t) (h2 : EdgeFrame t u) :
    EdgeFrame s u := by
  obtain ⟨a1, b1, c1, d1, e1⟩ := h1
  obtain ⟨a2, b2, c2, d2, e2⟩ := h2
  refine ⟨a2.trans a1, b2.trans b1, c2.trans c1, fun m => ?_, fun m hm => e1 m (e2 m hm)⟩
  obtain ⟨x1, y1, z1, w1⟩ := d1 m
  obtain ⟨x2, y2, z2, w2⟩ := d2 m
  exact ⟨x2.trans x1, y2.trans y1, z2.trans z1, w2.trans w1⟩

theorem edgeFrame_setCleanFalse (n : NodeId) (s : State) :
    EdgeFrame s (setClean n false s) := by
  refine ⟨length_setClean .., rfl, rfl,
    fun m => ⟨body_setClean .., result_setClean .., sub_setClean .., super_setClean ..⟩,
    fun m hm => ?_⟩
  rw [clean_setClean] at hm
  by_cases h : n = m ∧ n < s.nodes.length
  · rw [if_pos h] at hm
    cases hm
  · rwa [if_neg h] at hm

theorem dirty_frame : ∀ (f : Nat) (s : State) (n : NodeId) (s' : State),
    adaptonDirty f s n = some s' → EdgeFrame s s' := by
  intro f
  induction f with
  | zero => intro s n s' h; exact absurd h (by simp [adaptonDirty])
  | succ f ih =>
    have hfold : ∀ (l : List NodeId) (t t' : State),
        l.foldlM (fun st x => adaptonDirty f st x) t = some t' → EdgeFrame t t' := by
      intro l
      induction l with
      | nil =>
        intro t t' h2
        simp only [List.foldlM_nil] at h2
        cases h2
        exact edgeFrame_refl _
      | cons x xs ihl =>
        intro t t' h2
        simp only [List.foldlM_cons] at h2
        rcases hx : adaptonDirty f t x with _ | t2 <;> rw [hx] at h2
        · exact absurd h2 (by simp)
        · simp only [Option.bind_eq_bind, Option.some_bind] at h2
          exact edgeFrame_trans (ih _ _ _ hx) (ihl _ _ h2)
    intro s n s' h
    rw [adaptonDirty] at h
    dsimp only at h
    by_cases hcl : (getNode s n).clean = false
    · rw [if_pos hcl] at h
      cases h
      exact edgeFrame_refl _
    · rw [if_neg hcl] at h
      exact edgeFrame_trans (edgeFrame_setCleanFalse n s) (hfold _ _ _ h)

/-- Appending a node with no edges preserves symmetry, because no existing
edge can mention the new identifier. -/
theorem sym_appendNode {s : State} (hs : Sym s) (hval : EdgesValid s) (nd : Node)
    (hsub : nd.sub = []) (hsup : nd.«super» = []) : Sym (appendNode s nd) := by
  intro x hx y hy
  rw [length_appendNode] at hx hy
  rw [getNode_appendNode, getNode_appendNode]
  by_cases hxl : x < s.nodes.length <;> by_cases hyl : y < s.nodes.length
  · rw [if_pos hxl, if_pos hyl]
    exact hs x hxl y hyl
  · have hy2 : y = s.nodes.length := by omega
    subst hy2
    rw [if_pos hxl, if_neg (lt_irrefl _), if_pos rfl, hsup]
    constructor
    · intro hmem
      exact absurd ((hval x hxl).1 _ hmem) (lt_irrefl _)
    · intro hmem
      exact absurd hmem (List.not_mem_nil x)
  · have hx2 : x = s.nodes.length := by omega
    subst hx2
    rw [if_neg (lt_irrefl _), if_pos rfl, if_pos hyl, hsub]
    constructor
    · intro hmem
      exact absurd hmem (List.not_mem_nil y)
    · intro hmem
      exact absurd ((hval y hyl).2 _ hmem) (lt_irrefl _)
  · have hx2 : x = s.nodes.length := by omega
    have hy2 : y = s.nodes.length := by omega
    subst hx2
    subst hy2
    rw [if_neg (lt_irrefl _), if_pos rfl, hsub, hsup]

/-- Claim C3: edge symmetry is an invariant maintained by every operation —
`addEdge` and `deleteEdge` always mutate both sides together, and every
engine run, dirtying wave, ref write and node construction preserves
`Y ∈ X.sub ↔ X ∈ Y.super` for all existing nodes `X`, `Y`. -/
theorem claim_C3 (s : State) (hs : Sym s) :
    (∀ a b, Sym (addEdge a b s)) ∧
    (∀ a b, Sym (deleteEdge a b s)) ∧
    (∀ f c s' r, run f s c = some (s', r) → Sym s') ∧
    (∀ f n s', adaptonDirty f s n = some s' → Sym s') ∧
    (∀ f n v s', adaptonRefSet f s n v = some s' → Sym s') ∧
    (EdgesValid s → ∀ e v, Sym (makeAthunk e s) ∧ Sym (adaptonRef v s)) := by
  refine ⟨fun a b => sym_addEdge hs a b, fun a b => sym_deleteEdge hs a b,
    fun f c s' r h => sym_run f s c s' r hs h, fun f n s' h => ?_, fun f n v s' h => ?_,
    fun hval e v => ⟨sym_appendNode hs hval _ rfl rfl, sym_appendNode hs hval _ rfl rfl⟩⟩
  · obtain ⟨hlen, _, _, hfields, _⟩ := dirty_frame f s n s' h
    exact sym_of_same_edges hlen (fun m => (hfields m).2.2.1) (fun m => (hfields m).2.2.2) hs
  · rw [adaptonRefSet] at h
    obtain ⟨hlen, _, _, hfields, _⟩ := dirty_frame f (setResult n v s) n s' h
    have hs1 : Sym (setResult n v s) := sym_setResult hs n v
    exact sym_of_same_edges (hlen.trans (length_setResult ..))
      (fun m => ((hfields m).2.2.1).trans (sub_setResult ..))
      (fun m => ((hfields m).2.2.2).trans (super_setResult ..)) hs

/-- Witness for C3 on a concrete symmetric store. -/
theorem claim_C3_witness :
    Sym (addEdge 0 0 cleanScene) ∧ Sym (makeAthunk (Expr.lit 1) cleanScene) := by
  have h := claim_C3 cleanScene (by decide)
  exact ⟨h.1 0 0, (h.2.2.2.2.2 (by decide) (Expr.lit 1) 0).1⟩

theorem edgeFrame_super {s t : State} (h : EdgeFrame s t) (m : NodeId) :
    (getNode t m).«super» = (getNode s m).«super» := (h.2.2.2.1 m).2.2.2

theorem edgeFrame_length {s t : State} (h : EdgeFrame s t) :
    t.nodes.length = s.nodes.length := h.1

theorem edgeFrame_dirtyMono {s t : State} (h : EdgeFrame s t) {m : NodeId}
    (hm : (getNode s m).clean = false) : (getNode t m).clean = false := by
  cases hcl : (getNode t m).clean
  · rfl
  · rw [h.2.2.2.2 m hcl] at hm
    cases hm

theorem dirtyFold_frame (f : Nat) (l : List NodeId) (t t' : State)
    (h : l.foldlM (fun st x => adaptonDirty f st x) t = some t') : EdgeFrame t t' := by
  induction l generalizing t with
  | nil =>
    simp only [List.foldlM_nil] at h
    cases h
    exact edgeFrame_refl _
  | cons x xs ihl =>
    simp only [List.foldlM_cons] at h
    rcases hx : adaptonDirty f t x with _ | t2 <;> rw [hx] at h
    · exact absurd h (by simp)
    · simp only [Option.bind_eq_bind, Option.some_bind] at h
      exact edgeFrame_trans (dirty_frame f t x t2 hx) (ihl t2 h)

theorem reach_eq_of_super_eq {s t : State}
    (h : ∀ m, (getNode t m).«super» = (getNode s m).«super») : Reach t = Reach s := by
  have hse : SuperEdge t = SuperEdge s := by
    funext a b
    rw [SuperEdge, SuperEdge, h]
  rw [Reach, Reach, hse]

/-- Full characterization of one dirtying wave, by strong induction over the
fuel: (A) a node freshly dirtied by the wave is reachable from the start
node along super edges, and its (existing) dependents all end up dirty;
(B) the start node, when it exists, ends up dirty. -/
theorem dirty_wave : ∀ (f : Nat) (s : State) (n : NodeId) (s' : State),
    adaptonDirty f s n = some s' →
    ((∀ x, (getNode s x).clean = true → (getNode s' x).clean = false →
        Reach s n x ∧
        ∀ y ∈ (getNode s' x).«super», y < s.nodes.length → (getNode s' y).clean = false) ∧
     (n < s.nodes.length → (getNode s' n).clean = false)) := by
  intro f
  induction f with
  | zero => intro s n s' h; exact absurd h (by simp [adaptonDirty])
  | succ f ih =>
    have hQ : ∀ (l : List NodeId) (t t' : State),
        l.foldlM (fun st x => adaptonDirty f st x) t = some t' →
        ((∀ x, (getNode t x).clean = true → (getNode t' x).clean = false →
            (∃ y ∈ l, Reach t y x) ∧
            ∀ y ∈ (getNode t' x).«super», y < t.nodes.length →
              (getNode t' y).clean = false) ∧
         (∀ y ∈ l, y < t.nodes.length → (getNode t' y).clean = false)) := by
      intro l
      induction l with
      | nil =>
        intro t t' h2
        simp only [List.foldlM_nil] at h2
        cases h2
        refine ⟨fun x hx hx' => ?_, fun y hy => ?_⟩
        · rw [hx] at hx'
          cases hx'
        · cases hy
      | cons x xs ihl =>
        intro t t' h2
        simp only [List.foldlM_cons] at h2
        rcases hx : adaptonDirty f t x with _ | t2 <;> rw [hx] at h2
        · exact absurd h2 (by simp)
        · simp only [Option.bind_eq_bind, Option.some_bind] at h2
          have hP := ih t x t2 hx
          have hF2 : EdgeFrame t t2 := dirty_frame f t x t2 hx
          have hF3 : EdgeFrame t2 t' := dirtyFold_frame f xs t2 t' h2
          have hQ2 := ihl t2 t' h2
          refine ⟨fun x0 hx0t hx0t' => ?_, fun y hy hylen => ?_⟩
          · by_cases h2c : (getNode t2 x0).clean = false
            · obtain ⟨hre, hd4⟩ := hP.1 x0 hx0t h2c
              refine ⟨⟨x, List.mem_cons_self x xs, hre⟩, fun y hy hylen => ?_⟩
              rw [edgeFrame_super hF3] at hy
              exact edgeFrame_dirtyMono hF3 (hd4 y hy hylen)
            · have h2c' : (getNode t2 x0).clean = true := by
                cases hcl : (getNode t2 x0).clean
                · exact absurd hcl h2c
                · rfl
              obtain ⟨⟨y, hyxs, hre2⟩, hd4⟩ := hQ2.1 x0 h2c' hx0t'
              have hre3 : Reach t y x0 := by
                rw [← reach_eq_of_super_eq (edgeFrame_super hF2)]
                exact hre2
              refine ⟨⟨y, List.mem_cons_of_mem x hyxs, hre3⟩, fun z hz hzlen => ?_⟩
              exact hd4 z hz (by rwa [edgeFrame_length hF2])
          · rcases List.mem_cons.mp hy with rfl | hyxs
            · exact edgeFrame_dirtyMono hF3 (hP.2 hylen)
            · exact hQ2.2 y hyxs (by rwa [edgeFrame_length hF2])
    intro s n s' h
    rw [adaptonDirty] at h
    dsimp only at h
    by_cases hcl : (getNode s n).clean = false
    · rw [if_pos hcl] at h
      cases h
      refine ⟨fun x hx hx' => ?_, fun _ => hcl⟩
      rw [hx] at hx'
      cases hx'
    · rw [if_neg hcl] at h
      have hq := hQ _ _ _ h
      have hFf : EdgeFrame (setClean n false s) s' := dirtyFold_frame f _ _ _ h
      have hsupeq : ∀ m, (getNode (setClean n false s) m).«super» = (getNode s m).«super» :=
        fun m => super_setClean ..
      refine ⟨fun x hx hx' => ?_, fun hn => ?_⟩
      · by_cases hxn : x = n
        · subst hxn
          refine ⟨Relation.ReflTransGen.refl, fun y hy hylen => ?_⟩
          rw [edgeFrame_super hFf, hsupeq] at hy
          have hylen1 : y < (setClean x false s).nodes.length := by rwa [length_setClean]
          exact hq.2 y hy hylen1
        · have hx1 : (getNode (setClean n false s) x).clean = true := by
            rw [clean_setClean, if_neg (fun hc => hxn hc.1.symm)]
            exact hx
          obtain ⟨⟨y, hyl, hre⟩, hd4⟩ := hq.1 x hx1 hx'
          have hre2 : Reach s y x := by
            rw [← reach_eq_of_super_eq hsupeq]
            exact hre
          refine ⟨Relation.ReflTransGen.head hyl hre2, fun z hz hzlen => ?_⟩
          exact hd4 z hz (by rwa [length_setClean])
      · have hset : (getNode (setClean n false s) n).clean = false := by
          rw [clean_setClean, if_pos ⟨rfl, hn⟩]
        exact edgeFrame_dirtyMono hFf hset

/-- Claim C4, amended: under the dirtying invariant (every dirty node's
dependents are already dirty — which force-style use maintains but the
engine does not enforce), `dirty(n)` sets `clean = false` on `n` and on
exactly the nodes transitively reachable from `n` via dependent edges,
leaves every other clean flag unchanged, and touches nothing else: no edge,
no result, no body, and no computation invocation (the call log is part of
the unchanged frame). -/
theorem claim_C4 (f : Nat) (s : State) (n : NodeId) (s' : State)
    (hval : EdgesValid s) (hup : DirtyUp s) (hn : n < s.nodes.length)
    (h : adaptonDirty f s n = some s') :
    (∀ m, m < s.nodes.length →
      ((getNode s' m).clean = false ↔ ((getNode s m).clean = false ∨ Reach s n m))) ∧
    EdgeFrame s s' := by
  have hW := dirty_wave f s n s' h
  have hF := dirty_frame f s n s' h
  have haux : ∀ m', Reach s n m' →
      (getNode s' m').clean = false ∧ m' < s.nodes.length := by
    intro m' hre'
    induction hre' with
    | refl => exact ⟨hW.2 hn, hn⟩
    | @tail b c hab hbc ih =>
      obtain ⟨ihd, ihl⟩ := ih
      have hclen : c < s.nodes.length := (hval b ihl).2 c hbc
      cases hbcl : (getNode s b).clean with
      | false =>
        have hcd := hup b ihl hbcl c hbc
        exact ⟨edgeFrame_dirtyMono hF hcd, hclen⟩
      | true =>
        have hd4 := (hW.1 b hbcl ihd).2
        have hcs : c ∈ (getNode s' b).«super» := by
          rw [edgeFrame_super hF]
          exact hbc
        exact ⟨hd4 c hcs hclen, hclen⟩
  refine ⟨fun m hm => ⟨?_, ?_⟩, hF⟩
  · intro hm'
    cases hcl : (getNode s m).clean
    · exact Or.inl rfl
    · exact Or.inr (hW.1 m hcl hm').1
  · rintro (hd | hre)
    · exact edgeFrame_dirtyMono hF hd
    · exact (haux m hre).1

/-- Counterexample to C4 as stated: in the API-reachable store `microE`
(driven exactly like the repository's own micro-adapton demonstration),
node 2 is transitively reachable from node 0 via dependent edges, yet
dirtying node 0 leaves node 2 clean, because the wave short-circuits at the
already-dirty node 1. -/
theorem claim_C4_counterexample :
    adaptonDirty 10 microE 0 = some microOut ∧
    Reach microE 0 2 ∧
    (getNode microOut 2).clean = true := by
  refine ⟨rfl, ?_, by decide⟩
  exact Relation.ReflTransGen.head (show SuperEdge microE 0 1 by decide)
    (Relation.ReflTransGen.single (show SuperEdge microE 1 2 by decide))

/-- Witness for the amended C4 on the nested scenario, where the dirtying
invariant holds: dirtying the leaf does dirty the transitively reachable
node 2. -/
theorem claim_C4_witness : (getNode nestedDirtied 2).clean = false := by
  have h := claim_C4 10 nestedOut 0 nestedDirtied (by decide) (by decide) (by decide) rfl
  exact (h.1 2 (by decide)).mpr (Or.inr
    (Relation.ReflTransGen.head (show SuperEdge nestedOut 0 1 by decide)
      (Relation.ReflTransGen.single (show SuperEdge nestedOut 1 2 by decide))))

/-! ### Fresh-evaluation semantics: stability and congruence -/

theorem freshEval_ref {s : State} {n : Nat} (h : (getNode s n).body = Expr.readSelf) :
    freshEval s n = (getNode s n).result := by
  rw [freshEval, freshEvalAux, h]

theorem freshEvalAux_stable :
    ∀ (n : Nat), ∀ (f : Nat) (s : State), n < f → freshEvalAux f s n = freshEval s n := by
  intro n
  induction n using Nat.strong_induction_on with
  | _ n ih =>
    intro f s hf
    match f with
    | f'+1 =>
      have hv : (fun d => if d < n then freshEvalAux f' s d else 0)
          = (fun d => if d < n then freshEvalAux n s d else 0) := by
        funext d
        by_cases hd : d < n
        · rw [if_pos hd, if_pos hd, ih d hd f' s (by omega), ih d hd n s hd]
        · rw [if_neg hd, if_neg hd]
      rw [freshEval, freshEvalAux, freshEvalAux, hv]

theorem freshEval_thunk {s : State} {n : Nat} (h : (getNode s n).body ≠ Expr.readSelf) :
    freshEval s n = denotE (denotVals s n) (getNode s n).body := by
  have hv : (fun d => if d < n then freshEvalAux n s d else 0) = denotVals s n := by
    funext d
    by_cases hd : d < n
    · rw [if_pos hd, denotVals, if_pos hd, freshEvalAux_stable d n s hd]
    · rw [if_neg hd, denotVals, if_neg hd]
  rw [freshEval, freshEvalAux, ← hv]
  match hb : (getNode s n).body with
  | Expr.readSelf => exact absurd hb h
  | Expr.lit v => rfl
  | Expr.force d => rfl
  | Expr.computeE d => rfl
  | Expr.addEdgeE d => rfl
  | Expr.seq a b => rfl
  | Expr.add a b => rfl
  | Expr.subE a b => rfl
  | Expr.iteNz c t e => rfl
  | Expr.throwE k => rfl

/-- A fresh evaluation of node `n` reads the store only at indices `≤ n`. -/
theorem freshEvalAux_local :
    ∀ (f : Nat) (s t : State) (n : Nat), (∀ j, j ≤ n → getNode t j = getNode s j) →
      freshEvalAux f t n = freshEvalAux f s n := by
  intro f
  induction f with
  | zero => intro s t n _; rfl
  | succ f ih =>
    intro s t n hloc
    have hn := hloc n (Nat.le_refl n)
    have hv : (fun d => if d < n then freshEvalAux f t d else 0)
        = (fun d => if d < n then freshEvalAux f s d else 0) := by
      funext d
      by_cases hd : d < n
      · rw [if_pos hd, if_pos hd, ih s t d (fun j hj => hloc j (by omega))]
      · rw [if_neg hd, if_neg hd]
    rw [freshEvalAux, freshEvalAux, hn, hv]

theorem freshEval_local {s t : State} {n : Nat}
    (hloc : ∀ j, j ≤ n → getNode t j = getNode s j) : freshEval t n = freshEval s n :=
  freshEvalAux_local _ s t n hloc

theorem denotVals_local {s t : State} {n : Nat}
    (hloc : ∀ j, j ≤ n → getNode t j = getNode s j) : denotVals t n = denotVals s n := by
  funext d
  rw [denotVals, denotVals]
  by_cases hd : d < n
  · rw [if_pos hd, if_pos hd, freshEval_local (fun j hj => hloc j (by omega))]
  · rw [if_neg hd, if_neg hd]

theorem freshDeps_local {s t : State} {n : Nat}
    (hloc : ∀ j, j ≤ n → getNode t j = getNode s j) : freshDeps t n = freshDeps s n := by
  rw [freshDeps, freshDeps, denotVals_local hloc, hloc n (Nat.le_refl n)]

theorem freshEq_refl (s : State) : FreshEq s s := fun _ => ⟨rfl, fun _ => rfl⟩

theorem freshEq_trans {s t u : State} (h1 : FreshEq s t) (h2 : FreshEq t u) : FreshEq s u := by
  intro m
  obtain ⟨b1, r1⟩ := h1 m
  obtain ⟨b2, r2⟩ := h2 m
  exact ⟨b2.trans b1, fun hr => (r2 (b1.symm ▸ hr)).trans (r1 hr)⟩

theorem freshEvalAux_freshEq :
    ∀ (f : Nat) (s t : State), FreshEq s t → ∀ n, freshEvalAux f t n = freshEvalAux f s n := by
  intro f
  induction f with
  | zero => intro s t _ n; rfl
  | succ f ih =>
    intro s t hfe n
    obtain ⟨hb, hr⟩ := hfe n
    have hv : (fun d => if d < n then freshEvalAux f t d else 0)
        = (fun d => if d < n then freshEvalAux f s d else 0) := by
      funext d
      by_cases hd : d < n
      · rw [if_pos hd, if_pos hd, ih s t hfe d]
      · rw [if_neg hd, if_neg hd]
    rw [freshEvalAux, freshEvalAux, hb, hv]
    match hbody : (getNode s n).body with
    | Expr.readSelf => exact hr hbody
    | Expr.lit v => rfl
    | Expr.force d => rfl
    | Expr.computeE d => rfl
    | Expr.addEdgeE d => rfl
    | Expr.seq a b => rfl
    | Expr.add a b => rfl
    | Expr.subE a b => rfl
    | Expr.iteNz c t0 e0 => rfl
    | Expr.throwE k => rfl

theorem freshEval_freshEq {s t : State} (hfe : FreshEq s t) (n : Nat) :
    freshEval t n = freshEval s n :=
  freshEvalAux_freshEq _ s t hfe n

theorem denotVals_freshEq {s t : State} (hfe : FreshEq s t) (n : Nat) :
    denotVals t n = denotVals s n := by
  funext d
  rw [denotVals, denotVals]
  by_cases hd : d < n
  · rw [if_pos hd, if_pos hd, freshEval_freshEq hfe]
  · rw [if_neg hd, if_neg hd]

theorem freshDeps_freshEq {s t : State} (hfe : FreshEq s t) (n : Nat) :
    freshDeps t n = freshDeps s n := by
  rw [freshDeps, freshDeps, denotVals_freshEq hfe, (hfe n).1]

/-- Two valuations agreeing on the nodes an evaluation actually forces give
the same value and the same forced set. -/
theorem denotE_agree :
    ∀ (e : Expr) (vals1 vals2 : Nat → Int),
      (∀ d ∈ depsE vals1 e, vals1 d = vals2 d) →
      denotE vals2 e = denotE vals1 e ∧ depsE vals2 e = depsE vals1 e := by
  intro e
  induction e with
  | lit v => intro v1 v2 _; exact ⟨rfl, rfl⟩
  | readSelf => intro v1 v2 _; exact ⟨rfl, rfl⟩
  | throwE k => intro v1 v2 _; exact ⟨rfl, rfl⟩
  | force d =>
    intro v1 v2 h
    have hd := h d (by simp [depsE])
    exact ⟨hd.symm, rfl⟩
  | computeE d =>
    intro v1 v2 h
    have hd := h d (by simp [depsE])
    exact ⟨hd.symm, rfl⟩
  | addEdgeE d => intro v1 v2 _; exact ⟨rfl, rfl⟩
  | seq a b iha ihb =>
    intro v1 v2 h
    have ha := iha v1 v2 (fun d hd => h d (by simp [depsE, hd]))
    have hb := ihb v1 v2 (fun d hd => h d (by simp [depsE, hd]))
    exact ⟨hb.1, by rw [depsE, depsE, ha.2, hb.2]⟩
  | add a b iha ihb =>
    intro v1 v2 h
    have ha := iha v1 v2 (fun d hd => h d (by simp [depsE, hd]))
    have hb := ihb v1 v2 (fun d hd => h d (by simp [depsE, hd]))
    exact ⟨by rw [denotE, denotE, ha.1, hb.1], by rw [depsE, depsE, ha.2, hb.2]⟩
  | subE a b iha ihb =>
    intro v1 v2 h
    have ha := iha v1 v2 (fun d hd => h d (by simp [depsE, hd]))
    have hb := ihb v1 v2 (fun d hd => h d (by simp [depsE, hd]))
    exact ⟨by rw [denotE, denotE, ha.1, hb.1], by rw [depsE, depsE, ha.2, hb.2]⟩
  | iteNz c t e ihc iht ihe =>
    intro v1 v2 h
    have hc := ihc v1 v2 (fun d hd => h d (by simp [depsE, hd]))
    by_cases hnz : denotE v1 c ≠ 0
    · have ht := iht v1 v2 (fun d hd => h d (by simp [depsE, hd, if_pos hnz]))
      constructor
      · rw [denotE, denotE, hc.1, if_pos hnz, if_pos hnz, ht.1]
      · rw [depsE, depsE, hc.1, hc.2, if_pos hnz, if_pos hnz, ht.2]
    · have he := ihe v1 v2 (fun d hd => h d (by simp [depsE, hd, if_neg hnz]))
      constructor
      · rw [denotE, denotE, hc.1, if_neg hnz, if_neg hnz, he.1]
      · rw [depsE, depsE, hc.1, hc.2, if_neg hnz, if_neg hnz, he.2]

/-- A well-formed body only ever forces nodes below its own index. -/
theorem depsE_lt_of_wf :
    ∀ (e : Expr) (n : Nat), wfE n e = true → ∀ (vals : Nat → Int), ∀ d ∈ depsE vals e, d < n := by
  intro e
  induction e with
  | lit v => intro n _ vals d hd; cases hd
  | readSelf => intro n h; cases h
  | throwE k => intro n h; cases h
  | force d0 =>
    intro n h vals d hd
    rw [depsE, List.mem_singleton] at hd
    subst hd
    exact of_decide_eq_true h
  | computeE d0 => intro n h; cases h
  | addEdgeE d0 => intro n h; cases h
  | seq a b iha ihb =>
    intro n h vals d hd
    rw [wfE, Bool.and_eq_true] at h
    rw [depsE, List.mem_append] at hd
    rcases hd with hd | hd
    · exact iha n h.1 vals d hd
    · exact ihb n h.2 vals d hd
  | add a b iha ihb =>
    intro n h vals d hd
    rw [wfE, Bool.and_eq_true] at h
    rw [depsE, List.mem_append] at hd
    rcases hd with hd | hd
    · exact iha n h.1 vals d hd
    · exact ihb n h.2 vals d hd
  | subE a b iha ihb =>
    intro n h vals d hd
    rw [wfE, Bool.and_eq_true] at h
    rw [depsE, List.mem_append] at hd
    rcases hd with hd | hd
    · exact iha n h.1 vals d hd
    · exact ihb n h.2 vals d hd
  | iteNz c t e ihc iht ihe =>
    intro n h vals d hd
    rw [wfE, Bool.and_eq_true, Bool.and_eq_true] at h
    rw [depsE, List.mem_append] at hd
    rcases hd with hd | hd
    · exact ihc n h.1.1 vals d hd
    · by_cases hnz : denotE vals c ≠ 0
      · rw [if_pos hnz] at hd
        exact iht n h.1.2 vals d hd
      · rw [if_neg hnz] at hd
        exact ihe n h.2 vals d hd

/-- Transfer of `WFState` between stores with the same bodies and length. -/
theorem wfState_transfer {s t : State} (hlen : t.nodes.length = s.nodes.length)
    (hb : ∀ m, (getNode t m).body = (getNode s m).body) (h : WFState s) : WFState t := by
  intro n hn
  rw [hlen] at hn
  rw [hb]
  exact h n hn

/-- No engine run changes the stored result of a ref (a node whose body is
`readSelf`): recomputing a ref stores back the value it just read. -/
theorem run_ref_results : ∀ (f : Nat) (s : State) (c : Call) (s' : State) (r : Except Nat Int),
    run f s c = some (s', r) →
    ∀ m, (getNode s m).body = Expr.readSelf →
      (getNode s' m).result = (getNode s m).result := by
  intro f
  induction f with
  | zero => intro s c s' r h; exact absurd h (by simp [run])
  | succ f ih =>
    intro s c s' r h
    match c with
    | Call.computeC n =>
      simp only [run] at h
      by_cases hcl : (getNode s n).clean
      · rw [if_pos hcl] at h
        simp only [Option.some.injEq, Prod.mk.injEq] at h
        obtain ⟨h1, _⟩ := h
        subst h1
        intro m _
        rfl
      · rw [if_neg hcl] at h
        rcases hev : run f (pushCall n (setClean n true
            ((getNode s n).sub.foldl (fun st x => deleteEdge n x st) s)))
            (Call.evalC n (getNode s n).body) with _ | ⟨s3, k | v⟩ <;> rw [hev] at h
        · exact absurd h (by simp)
        · simp only [Option.some.injEq, Prod.mk.injEq] at h
          obtain ⟨h1, _⟩ := h
          subst h1
          intro m hm
          have hm2 : (getNode (pushCall n (setClean n true
              ((getNode s n).sub.foldl (fun st x => deleteEdge n x st) s))) m).body
              = Expr.readSelf := by
            rw [getNode_pushCall, body_setClean, foldDel_body]
            exact hm
          have := ih _ _ _ _ hev m hm2
          rw [getNode_pushCall, result_setClean, foldDel_result] at this
          exact this
        · intro m hm
          have hm2 : (getNode (pushCall n (setClean n true
              ((getNode s n).sub.foldl (fun st x => deleteEdge n x st) s))) m).body
              = Expr.readSelf := by
            rw [getNode_pushCall, body_setClean, foldDel_body]
            exact hm
          have hres2 : (getNode (pushCall n (setClean n true
              ((getNode s n).sub.foldl (fun st x => deleteEdge n x st) s))) m).result
              = (getNode s m).result := by
            rw [getNode_pushCall, result_setClean, foldDel_result]
          have hm3 : (getNode s3 m).body = Expr.readSelf := by
            rw [(run_frame _ _ _ _ _ hev).2.1 m, hm2]
          have hm3r : (getNode s3 m).result = (getNode s m).result :=
            (ih _ _ _ _ hev m hm2).trans hres2
          by_cases hmn : m = n
          · subst hmn
            rw [hm] at hev
            match f, hev with
            | f'+1, hev =>
              simp only [run, Option.some.injEq, Prod.mk.injEq] at hev
              obtain ⟨he1, he2⟩ := hev
              injection he2 with he2v
              have hm4 : (getNode (setResult m v s3) m).body = Expr.readSelf := by
                rw [body_setResult]
                exact hm3
              have hrec := ih _ _ _ _ h m hm4
              rw [hrec, result_setResult]
              by_cases hval : m = m ∧ m < s3.nodes.length
              · rw [if_pos hval, ← he2v]
                exact hres2
              · rw [if_neg hval]
                exact hm3r
          · have hm4 : (getNode (setResult n v s3) m).body = Expr.readSelf := by
              rw [body_setResult]
              exact hm3
            have := ih _ _ _ _ h m hm4
            rw [this, result_setResult, if_neg (fun hc => hmn hc.1.symm)]
            exact hm3r
    | Call.forceC n =>
      simp only [run] at h
      rcases hcm : run f { s with currentlyAdapting := some n } (Call.computeC n)
        with _ | ⟨s2, k | v⟩ <;> rw [hcm] at h
      · exact absurd h (by simp)
      · simp only [Option.some.injEq, Prod.mk.injEq] at h
        obtain ⟨h1, _⟩ := h
        subst h1
        intro m hm
        exact ih _ _ _ _ hcm m hm
      · match hp : s.currentlyAdapting with
        | some c =>
          rw [hp] at h
          simp only [Option.some.injEq, Prod.mk.injEq] at h
          obtain ⟨h1, _⟩ := h
          subst h1
          intro m hm
          rw [result_addEdge]
          exact ih _ _ _ _ hcm m hm
        | none =>
          rw [hp] at h
          simp only [Option.some.injEq, Prod.mk.injEq] at h
          obtain ⟨h1, _⟩ := h
          subst h1
          intro m hm
          exact ih _ _ _ _ hcm m hm
    | Call.evalC self e =>
      match e with
      | Expr.lit v =>
        simp only [run, Option.some.injEq, Prod.mk.injEq] at h
        obtain ⟨h1, _⟩ := h
        subst h1
        intro m _
        rfl
      | Expr.readSelf =>
        simp only [run, Option.some.injEq, Prod.mk.injEq] at h
        obtain ⟨h1, _⟩ := h
        subst h1
        intro m _
        rfl
      | Expr.throwE k =>
        simp only [run, Option.some.injEq, Prod.mk.injEq] at h
        obtain ⟨h1, _⟩ := h
        subst h1
        intro m _
        rfl
      | Expr.force d =>
        simp only [run] at h
        exact ih _ _ _ _ h
      | Expr.computeE d =>
        simp only [run] at h
        exact ih _ _ _ _ h
      | Expr.addEdgeE d =>
        simp only [run, Option.some.injEq, Prod.mk.injEq] at h
        obtain ⟨h1, _⟩ := h
        subst h1
        intro m _
        rw [result_addEdge]
      | Expr.seq a b =>
        simp only [run] at h
        rcases ha : run f s (Call.evalC self a) with _ | ⟨s1, k | v⟩ <;> rw [ha] at h
        · exact absurd h (by simp)
        · simp only [Option.some.injEq, Prod.mk.injEq] at h
          obtain ⟨h1, _⟩ := h
          subst h1
          exact ih _ _ _ _ ha
        · intro m hm
          have hm1 : (getNode s1 m).body = Expr.readSelf := by
            rw [(run_frame _ _ _ _ _ ha).2.1 m, hm]
          exact (ih _ _ _ _ h m hm1).trans (ih _ _ _ _ ha m hm)
      | Expr.add a b =>
        simp only [run] at h
        rcases ha : run f s (Call.evalC self a) with _ | ⟨s1, k | v⟩ <;> rw [ha] at h
        · exact absurd h (by simp)
        · simp only [Option.some.injEq, Prod.mk.injEq] at h
          obtain ⟨h1, _⟩ := h
          subst h1
          exact ih _ _ _ _ ha
        · dsimp only at h
          rcases hb : run f s1 (Call.evalC self b) with _ | ⟨s2, k | v2⟩ <;> rw [hb] at h
          · exact absurd h (by simp)
          · simp only [Option.some.injEq, Prod.mk.injEq] at h
            obtain ⟨h1, _⟩ := h
            subst h1
            intro m hm
            have hm1 : (getNode s1 m).body = Expr.readSelf := by
              rw [(run_frame _ _ _ _ _ ha).2.1 m, hm]
            exact (ih _ _ _ _ hb m hm1).trans (ih _ _ _ _ ha m hm)
          · simp only [Option.some.injEq, Prod.mk.injEq] at h
            obtain ⟨h1, _⟩ := h
            subst h1
            intro m hm
            have hm1 : (getNode s1 m).body = Expr.readSelf := by
              rw [(run_frame _ _ _ _ _ ha).2.1 m, hm]
            exact (ih _ _ _ _ hb m hm1).trans (ih _ _ _ _ ha m hm)
      | Expr.subE a b =>
        simp only [run] at h
        rcases ha : run f s (Call.evalC self a) with _ | ⟨s1, k | v⟩ <;> rw [ha] at h
        · exact absurd h (by simp)
        · simp only [Option.some.injEq, Prod.mk.injEq] at h
          obtain ⟨h1, _⟩ := h
          subst h1
          exact ih _ _ _ _ ha
        · dsimp only at h
          rcases hb : run f s1 (Call.evalC self b) with _ | ⟨s2, k | v2⟩ <;> rw [hb] at h
          · exact absurd h (by simp)
          · simp only [Option.some.injEq, Prod.mk.injEq] at h
            obtain ⟨h1, _⟩ := h
            subst h1
            intro m hm
            have hm1 : (getNode s1 m).body = Expr.readSelf := by
              rw [(run_frame _ _ _ _ _ ha).2.1 m, hm]
            exact (ih _ _ _ _ hb m hm1).trans (ih _ _ _ _ ha m hm)
          · simp only [Option.some.injEq, Prod.mk.injEq] at h
            obtain ⟨h1, _⟩ := h
            subst h1
            intro m hm
            have hm1 : (getNode s1 m).body = Expr.readSelf := by
              rw [(run_frame _ _ _ _ _ ha).2.1 m, hm]
            exact (ih _ _ _ _ hb m hm1).trans (ih _ _ _ _ ha m hm)
      | Expr.iteNz c0 t e0 =>
        simp only [run] at h
        rcases hc : run f s (Call.evalC self c0) with _ | ⟨s1, k | v⟩ <;> rw [hc] at h
        · exact absurd h (by simp)
        · simp only [Option.some.injEq, Prod.mk.injEq] at h
          obtain ⟨h1, _⟩ := h
          subst h1
          exact ih _ _ _ _ hc
        · dsimp only at h
          by_cases hv : v ≠ 0 <;> [rw [if_pos hv] at h; rw [if_neg hv] at h] <;>
          · intro m hm
            have hm1 : (getNode s1 m).body = Expr.readSelf := by
              rw [(run_frame _ _ _ _ _ hc).2.1 m, hm]
            exact (ih _ _ _ _ h m hm1).trans (ih _ _ _ _ hc m hm)

/-- One engine run preserves everything a fresh evaluation reads. -/
theorem run_freshEq {f : Nat} {s : State} {c : Call} {s' : State} {r : Except Nat Int}
    (h : run f s c = some (s', r)) : FreshEq s s' := by
  intro m
  refine ⟨(run_frame _ _ _ _ _ h).2.1 m, fun hr => run_ref_results _ _ _ _ _ h m hr⟩

theorem node_ext {a b : Node} (h1 : a.body = b.body) (h2 : a.result = b.result)
    (h3 : a.sub = b.sub) (h4 : a.«super» = b.«super») (h5 : a.clean = b.clean) : a = b := by
  cases a
  cases b
  simp only [] at h1 h2 h3 h4 h5
  subst h1
  subst h2
  subst h3
  subst h4
  subst h5
  rfl

/-- Entering the dirty branch of `compute` on node `n`: the prepared store
`invokeState s n` satisfies the invariant with `n` marked in-flight, and
relates to `s` by a precise frame. -/
theorem invoke_ready {E : List NodeId} {s : State} {n : NodeId}
    (hI : InvExc E s) (hn : n < s.nodes.length) (hd : (getNode s n).clean = false) :
    InvExc (n :: E) (invokeState s n) ∧
    (invokeState s n).nodes.length = s.nodes.length ∧
    (invokeState s n).currentlyAdapting = s.currentlyAdapting ∧
    FreshEq s (invokeState s n) ∧
    (getNode (invokeState s n) n).clean = true ∧
    (getNode (invokeState s n) n).sub = [] ∧
    (getNode (invokeState s n) n).body = (getNode s n).body ∧
    (getNode (invokeState s n) n).result = (getNode s n).result ∧
    (∀ x, n < x → getNode (invokeState s n) x = getNode s x) := by
  obtain ⟨hsym, hval, hsb, hup, hok⟩ := hI
  have hlen : (invokeState s n).nodes.length = s.nodes.length := by
    rw [invokeState, length_pushCall, length_setClean, foldDel_length]
  have hbody : ∀ x, (getNode (invokeState s n) x).body = (getNode s x).body := by
    intro x
    rw [invokeState, getNode_pushCall, body_setClean, foldDel_body]
  have hres : ∀ x, (getNode (invokeState s n) x).result = (getNode s x).result := by
    intro x
    rw [invokeState, getNode_pushCall, result_setClean, foldDel_result]
  have hsubx : ∀ x, x ≠ n → (getNode (invokeState s n) x).sub = (getNode s x).sub := by
    intro x hx
    rw [invokeState, getNode_pushCall, sub_setClean, foldDel_sub_ne _ _ _ _ hx]
  have hsupx : ∀ x, x ∉ (getNode s n).sub →
      (getNode (invokeState s n) x).«super» = (getNode s x).«super» := by
    intro x hx
    rw [invokeState, getNode_pushCall, super_setClean, foldDel_super_ne _ _ _ _ hx]
  have hcleanx : ∀ x, x ≠ n →
      (getNode (invokeState s n) x).clean = (getNode s x).clean := by
    intro x hx
    rw [invokeState, getNode_pushCall, clean_setClean, if_neg (fun hc => hx hc.1.symm),
      foldDel_clean]
  have hcleann : (getNode (invokeState s n) n).clean = true := by
    rw [invokeState, getNode_pushCall, clean_setClean, if_pos ⟨rfl, by rwa [foldDel_length]⟩]
  have hsubn : (getNode (invokeState s n) n).sub = [] := by
    rw [List.eq_nil_iff_forall_not_mem]
    intro x hx
    rw [invokeState, getNode_pushCall, sub_setClean, foldDel_sub] at hx
    exact absurd ⟨rfl, hx.1⟩ hx.2
  have hsupmem : ∀ x a, a ∈ (getNode (invokeState s n) x).«super» ↔
      (a ∈ (getNode s x).«super» ∧ ¬(a = n ∧ x ∈ (getNode s n).sub)) := by
    intro x a
    rw [invokeState, getNode_pushCall, super_setClean, foldDel_super]
  have hfe : FreshEq s (invokeState s n) := fun m => ⟨hbody m, fun _ => hres m⟩
  have hframe : ∀ x, n < x → getNode (invokeState s n) x = getNode s x := by
    intro x hx
    have hxn : x ≠ n := ne_of_gt hx
    have hxs : x ∉ (getNode s n).sub := fun hc => absurd (hsb n hn x hc) (Nat.lt_asymm hx)
    exact node_ext (hbody x) (hres x) (hsubx x hxn) (hsupx x hxs) (hcleanx x hxn)
  refine ⟨⟨?_, ?_, ?_, ?_, ?_⟩, hlen, by rw [invokeState, ctx_pushCall, ctx_setClean, foldDel_ctx],
    hfe, hcleann, hsubn, hbody n, hres n, hframe⟩
  · exact sym_setClean (sym_foldDel hsym n _) n true
  · intro a ha
    rw [hlen] at ha
    constructor
    · intro b hb
      rw [hlen]
      by_cases hab : a = n
      · subst hab
        rw [hsubn] at hb
        cases hb
      · rw [hsubx a hab] at hb
        exact (hval a ha).1 b hb
    · intro b hb
      rw [hlen]
      rw [hsupmem] at hb
      exact (hval a ha).2 b hb.1
  · intro m hm d hd
    rw [hlen] at hm
    by_cases hmn : m = n
    · subst hmn
      rw [hsubn] at hd
      cases hd
    · rw [hsubx m hmn] at hd
      exact hsb m hm d hd
  · intro a ha hda b hb
    rw [hlen] at ha
    have han : a ≠ n := by
      intro hc
      subst hc
      rw [hcleann] at hda
      cases hda
    rw [hcleanx a han] at hda
    rw [hsupmem] at hb
    obtain ⟨hb1, hb2⟩ := hb
    by_cases hbn : b = n
    · subst hbn
      exact absurd ⟨rfl, (hsym b hn a ha).mpr hb1⟩ hb2
    · rw [hcleanx b hbn]
      exact hup a ha hda b hb1
  · intro m hm hmE hclean
    rw [hlen] at hm
    have hmn : m ≠ n := fun hc => hmE (hc ▸ List.mem_cons_self n E)
    have hmE2 : m ∉ E := fun hc => hmE (List.mem_cons_of_mem n hc)
    rw [hcleanx m hmn] at hclean
    obtain ⟨hr1, hr2⟩ := hok m hm hmE2 hclean
    constructor
    · rw [hres m, freshEval_freshEq hfe, hr1]
    · intro d hd
      rw [freshDeps_freshEq hfe] at hd
      rw [hsupmem]
      exact ⟨hr2 d hd, fun hc => hmn hc.1⟩

/-- Registering the dependency edge at the end of a successful `force`: the
forced node `n` is clean and below its consumer `c`, so the invariant is
preserved and only the two endpoint nodes change, in a precise way. -/
theorem force_edge_ready {E : List NodeId} {s2 : State} {c n : NodeId}
    (hI : InvExc E s2) (hn : n < s2.nodes.length) (hc : c < s2.nodes.length)
    (hnc : n < c) (hclean : (getNode s2 n).clean = true) :
    InvExc E (addEdge c n s2) ∧
    FreshEq s2 (addEdge c n s2) ∧
    (addEdge c n s2).nodes.length = s2.nodes.length ∧
    (addEdge c n s2).currentlyAdapting = s2.currentlyAdapting ∧
    (∀ x, x ≠ c → x ≠ n → getNode (addEdge c n s2) x = getNode s2 x) ∧
    (getNode (addEdge c n s2) c) = { getNode s2 c with
      sub := insertOnce n (getNode s2 c).sub } ∧
    (getNode (addEdge c n s2) n).sub = (getNode s2 n).sub ∧
    (getNode (addEdge c n s2) n).clean = (getNode s2 n).clean := by
  obtain ⟨hsym, hval, hsb, hup, hok⟩ := hI
  have hcn : c ≠ n := ne_of_gt hnc
  have hcnode : (getNode (addEdge c n s2) c) = { getNode s2 c with
      sub := insertOnce n (getNode s2 c).sub } := by
    refine node_ext (body_addEdge ..) (result_addEdge ..) ?_ ?_ (clean_addEdge ..)
    · rw [sub_addEdge, if_pos ⟨rfl, hc⟩]
    · rw [super_addEdge, if_neg (fun hx => hcn hx.1.symm)]
  have hnsub : (getNode (addEdge c n s2) n).sub = (getNode s2 n).sub := by
    rw [sub_addEdge, if_neg (fun hx => hcn hx.1)]
  have hnsup : (getNode (addEdge c n s2) n).«super»
      = insertOnce c (getNode s2 n).«super» := by
    rw [super_addEdge, if_pos ⟨rfl, hn⟩]
  have hother : ∀ x, x ≠ c → x ≠ n → getNode (addEdge c n s2) x = getNode s2 x := by
    intro x hxc hxn
    refine node_ext (body_addEdge ..) (result_addEdge ..) ?_ ?_ (clean_addEdge ..)
    · rw [sub_addEdge, if_neg (fun hx => hxc hx.1.symm)]
    · rw [super_addEdge, if_neg (fun hx => hxn hx.1.symm)]
  have hfe : FreshEq s2 (addEdge c n s2) :=
    fun m => ⟨body_addEdge .., fun _ => result_addEdge ..⟩
  have hcleanEq : ∀ x, (getNode (addEdge c n s2) x).clean = (getNode s2 x).clean :=
    fun x => clean_addEdge ..
  have hsupmem : ∀ x b, b ∈ (getNode (addEdge c n s2) x).«super» ↔
      (b ∈ (getNode s2 x).«super» ∨ (x = n ∧ b = c)) := by
    intro x b
    by_cases hx : x = n
    · subst hx
      rw [hnsup, mem_insertOnce]
      constructor
      · rintro (h | rfl)
        · exact Or.inl h
        · exact Or.inr ⟨rfl, rfl⟩
      · rintro (h | ⟨_, rfl⟩)
        · exact Or.inl h
        · exact Or.inr rfl
    · rw [super_addEdge, if_neg (fun hcond => hx hcond.1.symm)]
      constructor
      · exact Or.inl
      · rintro (h | ⟨h1, _⟩)
        · exact h
        · exact absurd h1 hx
  have hsubmem : ∀ x d, d ∈ (getNode (addEdge c n s2) x).sub ↔
      (d ∈ (getNode s2 x).sub ∨ (x = c ∧ d = n)) := by
    intro x d
    by_cases hx : x = c
    · subst hx
      rw [hcnode]
      show d ∈ insertOnce n (getNode s2 x).sub ↔ _
      rw [mem_insertOnce]
      constructor
      · rintro (h | rfl)
        · exact Or.inl h
        · exact Or.inr ⟨rfl, rfl⟩
      · rintro (h | ⟨_, rfl⟩)
        · exact Or.inl h
        · exact Or.inr rfl
    · rw [sub_addEdge, if_neg (fun hcond => hx hcond.1.symm)]
      constructor
      · exact Or.inl
      · rintro (h | ⟨h1, _⟩)
        · exact h
        · exact absurd h1 hx
  refine ⟨⟨sym_addEdge hsym c n, ?_, ?_, ?_, ?_⟩, hfe, length_addEdge .., ctx_addEdge ..,
    hother, hcnode, hnsub, hcleanEq n⟩
  · intro a ha
    rw [length_addEdge] at ha
    constructor
    · intro b hb
      rw [length_addEdge]
      rcases (hsubmem a b).mp hb with h | ⟨_, rfl⟩
      · exact (hval a ha).1 b h
      · exact hn
    · intro b hb
      rw [length_addEdge]
      rcases (hsupmem a b).mp hb with h | ⟨_, rfl⟩
      · exact (hval a ha).2 b h
      · exact hc
  · intro m hm d hd
    rw [length_addEdge] at hm
    rcases (hsubmem m d).mp hd with h | ⟨rfl, rfl⟩
    · exact hsb m hm d h
    · exact hnc
  · intro a ha hda b hb
    rw [length_addEdge] at ha
    rw [hcleanEq] at hda
    rcases (hsupmem a b).mp hb with h | ⟨rfl, rfl⟩
    · rw [hcleanEq]
      exact hup a ha hda b h
    · rw [hclean] at hda
      cases hda
  · intro m hm hmE hclm
    rw [length_addEdge] at hm
    rw [hcleanEq] at hclm
    obtain ⟨hr1, hr2⟩ := hok m hm hmE hclm
    constructor
    · rw [result_addEdge, freshEval_freshEq hfe, hr1]
    · intro d hd
      rw [freshDeps_freshEq hfe] at hd
      rw [hsupmem]
      exact Or.inl (hr2 d hd)

theorem edgesValid_transfer {s t : State} (hlen : t.nodes.length = s.nodes.length)
    (hsub : ∀ m, (getNode t m).sub = (getNode s m).sub)
    (hsup : ∀ m, (getNode t m).«super» = (getNode s m).«super»)
    (h : EdgesValid s) : EdgesValid t := by
  intro a ha
  rw [hlen] at ha
  rw [hsub, hsup, hlen]
  exact h a ha

theorem subsBelow_transfer {s t : State} (hlen : t.nodes.length = s.nodes.length)
    (hsub : ∀ m, (getNode t m).sub = (getNode s m).sub)
    (h : SubsBelow s) : SubsBelow t := by
  intro m hm
  rw [hlen] at hm
  rw [hsub]
  exact h m hm

theorem dirtyUp_transfer {s t : State} (hlen : t.nodes.length = s.nodes.length)
    (hsup : ∀ m, (getNode t m).«super» = (getNode s m).«super»)
    (hclean : ∀ m, (getNode t m).clean = (getNode s m).clean)
    (h : DirtyUp s) : DirtyUp t := by
  intro a ha hda b hb
  rw [hlen] at ha
  rw [hclean] at hda
  rw [hsup] at hb
  rw [hclean]
  exact h a ha hda b hb

/-- Writing back the value a node already holds is the identity. -/
theorem setResult_self {s : State} {n : NodeId} :
    setResult n (getNode s n).result s = s := by
  show setNode s n (getNode s n) = s
  rw [setNode]
  have hnodes : s.nodes.set n (getNode s n) = s.nodes := by
    apply List.ext_getElem?
    intro i
    rw [List.getElem?_set]
    by_cases hi : n = i
    · subst hi
      by_cases hlen : n < s.nodes.length
      · rw [if_pos rfl, if_pos hlen, getNode, List.getD_eq_getElem?_getD,
          List.getElem?_eq_getElem hlen]
        rfl
      · rw [if_pos rfl, if_neg hlen, List.getElem?_eq_none (Nat.le_of_not_lt hlen)]
    · rw [if_neg hi]
  rw [hnodes]

/-- The invariant transports across stores with the same node table. -/
theorem invexc_same_nodes {E : List NodeId} {s t : State}
    (hlen : t.nodes.length = s.nodes.length)
    (hnodes : ∀ m, getNode t m = getNode s m) (h : InvExc E s) : InvExc E t := by
  obtain ⟨hsym, hval, hsb, hup, hok⟩ := h
  refine ⟨?_, ?_, ?_, ?_, ?_⟩
  · intro a ha b hb
    rw [hlen] at ha hb
    rw [hnodes, hnodes]
    exact hsym a ha b hb
  · exact edgesValid_transfer hlen (fun m => by rw [hnodes])
      (fun m => by rw [hnodes]) hval
  · exact subsBelow_transfer hlen (fun m => by rw [hnodes]) hsb
  · exact dirtyUp_transfer hlen (fun m => by rw [hnodes]) (fun m => by rw [hnodes]) hup
  · intro m hm hmE hcl
    rw [hlen] at hm
    rw [hnodes] at hcl
    obtain ⟨h1, h2⟩ := hok m hm hmE hcl
    have hfresh : freshEval t m = freshEval s m := freshEval_local (fun j _ => hnodes j)
    have hdeps : freshDeps t m = freshDeps s m := freshDeps_local (fun j _ => hnodes j)
    constructor
    · rw [hnodes, hfresh]
      exact h1
    · intro d hd
      rw [hdeps] at hd
      rw [hnodes]
      exact h2 d hd

theorem invexc_ctx {E : List NodeId} {s : State} {x : Option NodeId} (h : InvExc E s) :
    InvExc E { s with currentlyAdapting := x } :=
  @invexc_same_nodes E s { s with currentlyAdapting := x } rfl (fun _ => rfl) h

theorem wfState_ctx {s : State} {x : Option NodeId} (h : WFState s) :
    WFState { s with currentlyAdapting := x } :=
  @wfState_transfer s { s with currentlyAdapting := x } rfl (fun _ => rfl) h

theorem freshEval_ctx (s : State) (x : Option NodeId) (n : Nat) :
    freshEval { s with currentlyAdapting := x } n = freshEval s n :=
  @freshEval_local s { s with currentlyAdapting := x } n (fun _ _ => rfl)

theorem freshEq_ctx (s : State) (x : Option NodeId) :
    FreshEq s { s with currentlyAdapting := x } :=
  fun _ => ⟨rfl, fun _ => rfl⟩

/-- A dirty node is valid: out-of-range identifiers resolve to the inert
default node, which is clean. -/
theorem lt_of_dirty {s : State} {n : NodeId} (hd : (getNode s n).clean = false) :
    n < s.nodes.length := by
  by_contra hlen
  rw [getNode_of_ge s n (Nat.le_of_not_lt hlen)] at hd
  exact absurd hd (by simp [defaultNode])

theorem ctx_invokeState (s : State) (n : NodeId) :
    (invokeState s n).currentlyAdapting = s.currentlyAdapting := by
  rw [invokeState, ctx_pushCall, ctx_setClean, foldDel_ctx]

theorem clean_invokeState_self {s : State} {n : NodeId} (hlen : n < s.nodes.length) :
    (getNode (invokeState s n) n).clean = true := by
  rw [invokeState, getNode_pushCall, clean_setClean, if_pos ⟨rfl, by rwa [foldDel_length]⟩]

theorem result_invokeState (s : State) (n : NodeId) (m : NodeId) :
    (getNode (invokeState s n) m).result = (getNode s m).result := by
  rw [invokeState, getNode_pushCall, result_setClean, foldDel_result]

/-- Claim C2: for every node whose clean flag is true, `compute` returns its
cached result with the store untouched — in particular the computation
function is not invoked (the invocation log, like everything else in the
store, is unchanged). -/
theorem claim_C2 (f : Nat) (s : State) (n : NodeId) (h : (getNode s n).clean = true) :
    adaptonCompute (f+1) s n = some (s, Except.ok (getNode s n).result) := by
  simp [adaptonCompute, run, h]

/-- Witness for C2 at a concrete clean node. -/
theorem claim_C2_witness :
    adaptonCompute 1 cleanScene 0 = some (cleanScene, Except.ok 3) :=
  claim_C2 0 cleanScene 0 rfl

/-- Claim C5: on a dirty node, `compute` behaves exactly as the spec's steps
2-5 prescribe — it removes the node's outgoing dependency edges, sets the
clean flag strictly before invoking the computation (the invocation happens
in `invokeState`, where the flag is already true), stores the value, and
returns through a recursive `compute` on the same node; this is the
composition `computeDirtySpec`. -/
theorem claim_C5 (f : Nat) (s : State) (n : NodeId) (h : (getNode s n).clean = false) :
    adaptonCompute (f+1) s n = computeDirtySpec f s n ∧
    (getNode (invokeState s n) n).clean = true ∧
    (∀ x, x ∉ (getNode (invokeState s n) n).sub) := by
  refine ⟨?_, clean_invokeState_self (lt_of_dirty h), ?_⟩
  · simp only [adaptonCompute, run, computeDirtySpec, invokeState,
      Bool.not_eq_true, h, if_false, Bool.false_eq_true]
  · intro x hx
    rw [invokeState, getNode_pushCall, sub_setClean, foldDel_sub] at hx
    exact absurd ⟨rfl, hx.1⟩ hx.2

/-- Witness for C5 at a concrete dirty node. -/
theorem claim_C5_witness :
    adaptonCompute 2 throwScene 0 = computeDirtySpec 1 throwScene 0 ∧
    (getNode (invokeState throwScene 0) 0).clean = true := by
  have h := claim_C5 1 throwScene 0 rfl
  exact ⟨h.1, h.2.1⟩

/-- Claim C6: `force` saves the evaluation context, points it at the forced
node, computes, restores the saved context, and adds a dependency edge from
the restored outer context to the forced node exactly when that context is
non-null; nested forcing (A forces B forces C) therefore records B as a
dependent-side consumer of C and A of B, each level seeing its caller's
context restored. -/
theorem claim_C6 :
    (∀ f s n s' v, adaptonForce (f+1) s n = some (s', Except.ok v) →
      s'.currentlyAdapting = s.currentlyAdapting ∧
      (∀ c, s.currentlyAdapting = some c → c < s.nodes.length → n < s.nodes.length →
        n ∈ (getNode s' c).sub ∧ c ∈ (getNode s' n).«super») ∧
      (s.currentlyAdapting = none →
        ∃ s2, run f { s with currentlyAdapting := some n } (Call.computeC n)
            = some (s2, Except.ok v) ∧
          s' = { s2 with currentlyAdapting := none })) ∧
    (adaptonForce 10 nestedScene 2 = some (nestedOut, Except.ok 1) ∧
      1 ∈ (getNode nestedOut 2).sub ∧ 0 ∈ (getNode nestedOut 1).sub ∧
      2 ∈ (getNode nestedOut 1).«super» ∧ 1 ∈ (getNode nestedOut 0).«super» ∧
      nestedOut.currentlyAdapting = none) := by
  constructor
  · intro f s n s' v h
    rw [adaptonForce, run] at h
    dsimp only at h
    rcases hcm : run f { s with currentlyAdapting := some n } (Call.computeC n)
      with _ | ⟨s2, k | w⟩ <;> rw [hcm] at h
    · exact absurd h (by simp)
    · simp only [Option.some.injEq, Prod.mk.injEq] at h
      exact absurd h.2 (by simp)
    · have hlen : s2.nodes.length = s.nodes.length := (run_frame _ _ _ _ _ hcm).1
      match hp : s.currentlyAdapting with
      | some c =>
        rw [hp] at h
        simp only [Option.some.injEq, Prod.mk.injEq] at h
        obtain ⟨h1, h2⟩ := h
        subst h1
        injection h2 with h2v
        subst h2v
        refine ⟨?_, ?_, ?_⟩
        · rfl
        · intro c' hc' hcl hnl
          injection hc' with hcc
          subst hcc
          constructor
          · rw [sub_addEdge, if_pos ⟨rfl, by simpa [hlen]⟩, mem_insertOnce]
            exact Or.inr rfl
          · rw [super_addEdge, if_pos ⟨rfl, by simpa [hlen]⟩, mem_insertOnce]
            exact Or.inr rfl
        · intro hc
          simp at hc
      | none =>
        rw [hp] at h
        simp only [Option.some.injEq, Prod.mk.injEq] at h
        obtain ⟨h1, h2⟩ := h
        subst h1
        injection h2 with h2v
        subst h2v
        refine ⟨rfl, ?_, ?_⟩
        · intro c' hc'
          simp at hc'
        · intro _
          exact ⟨s2, rfl, rfl⟩
  · refine ⟨rfl, ?_, ?_, ?_, ?_, rfl⟩ <;> decide

/-- Witness for C6: the nested scenario instantiates the general clause. -/
theorem claim_C6_witness :
    nestedOut.currentlyAdapting = nestedScene.currentlyAdapting :=
  ((claim_C6.1 9 nestedScene 2 nestedOut 1 (claim_C6.2.1)).1)

/-- Counterexample to C9 as stated: computing a dirty node whose computation
forces a ref, while a caller's evaluation context is pending, both mutates
dependency edges and registers an edge against that caller context (node 2
acquires the ref, node 0, as a dependency), because `compute` runs the body
without touching `currentlyAdapting` and the body's `force` reads it. -/
theorem claim_C9_counterexample :
    (getNode pendingScene 2).sub = [] ∧
    adaptonCompute 10 pendingScene 1 = some (pendingOut, Except.ok 8) ∧
    0 ∈ (getNode pendingOut 2).sub ∧ 2 ∈ (getNode pendingOut 0).«super» :=
  ⟨rfl, rfl, by decide, by decide⟩

/-- Claim C9, amended: `compute` on a clean node returns the cached result
with no state change at all (no context access, no edge mutation); and any
successful `compute` leaves the currently-adapting context unchanged.  The
original claim's "performs no dependency-edge mutation" holds only in the
clean case: an unclean `compute` rebuilds the node's dependency edges and
runs its computation, whose `force` calls read the caller's context. -/
theorem claim_C9 (f : Nat) (s : State) (n : NodeId) :
    ((getNode s n).clean = true →
      adaptonCompute (f+1) s n = some (s, Except.ok (getNode s n).result)) ∧
    (∀ s' v, adaptonCompute f s n = some (s', Except.ok v) →
      s'.currentlyAdapting = s.currentlyAdapting) := by
  constructor
  · intro h
    simp [adaptonCompute, run, h]
  · intro s' v h
    exact run_ctx_ok _ _ _ _ _ h

/-- Witness for the amended C9 on a concrete clean node. -/
theorem claim_C9_witness :
    adaptonCompute 3 cleanScene 0 = some (cleanScene, Except.ok 3) :=
  (claim_C9 2 cleanScene 0).1 rfl

/-- Claim C7: a computation that throws propagates the failure unmodified to
the caller of `compute` (and through `force`), and leaves the node with
`clean = true` and its previous, stale cached result, which is never
overwritten. -/
theorem claim_C7 (f : Nat) (s : State) (n : NodeId) :
    (∀ s3 k, (getNode s n).clean = false →
      run f (invokeState s n) (Call.evalC n (getNode s n).body) = some (s3, Except.error k) →
      adaptonCompute (f+1) s n = some (s3, Except.error k) ∧
      (getNode s3 n).clean = true ∧
      (getNode s3 n).result = (getNode s n).result) ∧
    (∀ s2 k, adaptonCompute f { s with currentlyAdapting := some n } n
        = some (s2, Except.error k) →
      adaptonForce (f+1) s n = some (s2, Except.error k)) := by
  constructor
  · intro s3 k hd hev
    have hlen := lt_of_dirty hd
    refine ⟨?_, ?_, ?_⟩
    · simp only [adaptonCompute, run, hd, Bool.false_eq_true, if_false]
      rw [show pushCall n (setClean n true
        ((getNode s n).sub.foldl (fun st x => deleteEdge n x st) s)) = invokeState s n from rfl]
      rw [hev]
    · have hfr := run_frame _ _ _ _ _ hev
      exact (hfr.2.2 n (clean_invokeState_self hlen)).1
    · have hfr := run_frame _ _ _ _ _ hev
      rw [(hfr.2.2 n (clean_invokeState_self hlen)).2, result_invokeState]
  · intro s2 k hcm
    simp only [adaptonForce, run]
    rw [show run f { s with currentlyAdapting := some n } (Call.computeC n)
      = adaptonCompute f { s with currentlyAdapting := some n } n from rfl, hcm]

/-- Witness for C7 at a concrete throwing node. -/
theorem claim_C7_witness :
    adaptonCompute 2 throwScene 0 = some (invokeState throwScene 0, Except.error 7) ∧
    (getNode (invokeState throwScene 0) 0).clean = true ∧
    (getNode (invokeState throwScene 0) 0).result = 5 := by
  have h := (claim_C7 1 throwScene 0).1 (invokeState throwScene 0) 7 rfl (by rfl)
  exact ⟨h.1, h.2.1, h.2.2.trans rfl⟩

/-- Claim C10 (implicit): when the computation run by `force` throws, the
engine performs no exception-safe restore — after the failed call the
process-wide `currentlyAdapting` slot is still the forced node, not the
saved outer context. -/
theorem claim_C10 (f : Nat) (s : State) (n : NodeId) (k : Nat)
    (hd : (getNode s n).clean = false) (hb : (getNode s n).body = Expr.throwE k)
    (hctx : s.currentlyAdapting = none) :
    ∃ s', adaptonForce (f+3) s n = some (s', Except.error k) ∧
      s'.currentlyAdapting = some n ∧ s'.currentlyAdapting ≠ s.currentlyAdapting := by
  set s1 : State := { s with currentlyAdapting := some n } with hs1
  have hd1 : (getNode s1 n).clean = false := hd
  have hb1 : (getNode s1 n).body = Expr.throwE k := hb
  have hev : run (f+1) (invokeState s1 n) (Call.evalC n (getNode s1 n).body)
      = some (invokeState s1 n, Except.error k) := by
    rw [hb1, run]
  have hcomp : run (f+2) s1 (Call.computeC n) = some (invokeState s1 n, Except.error k) := by
    rw [run]
    dsimp only
    rw [if_neg (by rw [hd1]; simp)]
    rw [show pushCall n (setClean n true
      ((getNode s1 n).sub.foldl (fun st x => deleteEdge n x st) s1)) = invokeState s1 n from rfl]
    rw [hev]
  refine ⟨invokeState s1 n, ?_, ?_, ?_⟩
  · rw [adaptonForce, run]
    dsimp only
    rw [hcomp]
  · rw [ctx_invokeState]
  · rw [ctx_invokeState, hctx]
    simp

/-- Witness for C10 at a concrete throwing node forced from a null context. -/
theorem claim_C10_witness :
    ∃ s', adaptonForce 3 throwScene 0 = some (s', Except.error 7) ∧
      s'.currentlyAdapting = some 0 ∧ s'.currentlyAdapting ≠ throwScene.currentlyAdapting :=
  claim_C10 0 throwScene 0 7 rfl rfl rfl

end MiniAdapton

namespace MiniAdapton

/-- Discharging a node from the in-flight exception list once its cache
obligation is re-established. -/
theorem invexc_settle {E : List NodeId} {n : NodeId} {s : State}
    (hI : InvExc (n :: E) s) (hok : CleanOKAt s n) : InvExc E s := by
  obtain ⟨hsym, hval, hsb, hup, hokA⟩ := hI
  refine ⟨hsym, hval, hsb, hup, ?_⟩
  intro m hm hmE
  by_cases hmn : m = n
  · subst hmn
    exact hok
  · exact hokA m hm (fun hmem => by
      rcases List.mem_cons.mp hmem with h | h
      · exact hmn h
      · exact hmE h)

/-- Storing a result into an in-flight thunk keeps the invariant: no fresh
evaluation reads a thunk's stored result, and the node itself is exempt. -/
theorem invexc_setResult_mid {E : List NodeId} {s : State} {n : NodeId} {v : Int}
    (hI : InvExc E s) (hnE : n ∈ E) (hb : (getNode s n).body ≠ Expr.readSelf) :
    InvExc E (setResult n v s) := by
  obtain ⟨hsym, hval, hsb, hup, hok⟩ := hI
  have hfe : FreshEq s (setResult n v s) := by
    intro m
    refine ⟨body_setResult n v s m, fun hr => ?_⟩
    rw [result_setResult]
    by_cases hm : n = m ∧ n < s.nodes.length
    · obtain ⟨h1, _⟩ := hm
      subst h1
      exact absurd hr hb
    · rw [if_neg hm]
  refine ⟨sym_of_same_edges (length_setResult n v s) (sub_setResult n v s)
      (super_setResult n v s) hsym,
    edgesValid_transfer (length_setResult n v s) (sub_setResult n v s)
      (super_setResult n v s) hval,
    subsBelow_transfer (length_setResult n v s) (sub_setResult n v s) hsb,
    dirtyUp_transfer (length_setResult n v s) (super_setResult n v s)
      (clean_setResult n v s) hup, ?_⟩
  intro m hm hmE
  rw [length_setResult] at hm
  intro hcm
  rw [clean_setResult] at hcm
  obtain ⟨hr1, hr2⟩ := hok m hm hmE hcm
  have hmn : m ≠ n := fun h => hmE (h ▸ hnE)
  constructor
  · rw [result_setResult, if_neg (fun hh => hmn hh.1.symm), freshEval_freshEq hfe, hr1]
  · intro d hd
    rw [freshDeps_freshEq hfe] at hd
    rw [super_setResult]
    exact hr2 d hd

set_option maxHeartbeats 1000000 in
theorem engine_correct : ∀ (n : NodeId),
    (∀ (E : List NodeId) (s : State), InvExc E s → WFState s → n < s.nodes.length →
      (∀ x ∈ E, n < x) → s.currentlyAdapting = some n →
      ∃ f s', run f s (Call.computeC n) = some (s', Except.ok (freshEval s n)) ∧
        s'.currentlyAdapting = some n ∧
        s'.nodes.length = s.nodes.length ∧
        FreshEq s s' ∧
        InvExc E s' ∧
        (∀ x, n < x → getNode s' x = getNode s x) ∧
        (getNode s' n).clean = true ∧
        ((getNode s n).clean = true → s' = s) ∧
        ((getNode s n).clean = false →
          ∀ x, x ∈ (getNode s' n).sub ↔ x ∈ freshDeps s n)) ∧
    (∀ (E : List NodeId) (s : State), InvExc E s → WFState s → n < s.nodes.length →
      (∀ x ∈ E, n < x) →
      (s.currentlyAdapting = none ∨
        ∃ c, s.currentlyAdapting = some c ∧ c ∈ E ∧ c < s.nodes.length) →
      ∃ f s', run f s (Call.forceC n) = some (s', Except.ok (freshEval s n)) ∧
        s'.currentlyAdapting = s.currentlyAdapting ∧
        s'.nodes.length = s.nodes.length ∧
        FreshEq s s' ∧
        InvExc E s' ∧
        (∀ x, n < x → s.currentlyAdapting ≠ some x → getNode s' x = getNode s x) ∧
        (∀ c, s.currentlyAdapting = some c →
          getNode s' c = { getNode s c with sub := insertOnce n (getNode s c).sub }) ∧
        (getNode s' n).clean = true ∧
        ((getNode s n).clean = false →
          ∀ x, x ∈ (getNode s' n).sub ↔ x ∈ freshDeps s n) ∧
        ((getNode s n).clean = true → (getNode s' n).sub = (getNode s n).sub)) := by
  intro n
  induction n using Nat.strong_induction_on with
  | _ n ih =>
    have hB : ∀ (e : Expr), wfE n e = true → ∀ (E : List NodeId) (s : State),
        InvExc E s → WFState s → n < s.nodes.length → n ∈ E → (∀ x ∈ E, n ≤ x) →
        s.currentlyAdapting = some n →
        ∃ f s', run f s (Call.evalC n e)
            = some (s', Except.ok (denotE (denotVals s n) e)) ∧
          s'.currentlyAdapting = some n ∧
          s'.nodes.length = s.nodes.length ∧
          FreshEq s s' ∧
          InvExc E s' ∧
          (∀ x, n < x → getNode s' x = getNode s x) ∧
          (getNode s' n).body = (getNode s n).body ∧
          (getNode s' n).result = (getNode s n).result ∧
          (getNode s' n).clean = (getNode s n).clean ∧
          (getNode s' n).«super» = (getNode s n).«super» ∧
          (∀ x, x ∈ (getNode s' n).sub ↔
            (x ∈ (getNode s n).sub ∨ x ∈ depsE (denotVals s n) e)) := by
      intro e
      induction e with
      | lit v =>
        intro hwf E s hI hwfs hn hnE hEge hctx
        refine ⟨1, s, by rw [run]; rfl, hctx, rfl, freshEq_refl s, hI, fun x _ => rfl,
          rfl, rfl, rfl, rfl, fun x => by simp [depsE]⟩
      | readSelf => intro hwf; simp [wfE] at hwf
      | throwE k => intro hwf; simp [wfE] at hwf
      | computeE d => intro hwf; simp [wfE] at hwf
      | addEdgeE d => intro hwf; simp [wfE] at hwf
      | force d =>
        intro hwf E s hI hwfs hn hnE hEge hctx
        have hd : d < n := by
          rw [wfE] at hwf
          exact of_decide_eq_true hwf
        obtain ⟨fF, s', hrun, hctx', hlen, hfe, hI', hframe, hcown, hclean', hsubd, hsubc⟩ :=
          (ih d hd).2 E s hI hwfs (lt_trans hd hn)
            (fun x hx => lt_of_lt_of_le hd (hEge x hx))
            (Or.inr ⟨n, hctx, hnE, hn⟩)
        have hnode : getNode s' n = { getNode s n with
            sub := insertOnce d (getNode s n).sub } := hcown n hctx
        refine ⟨fF + 1, s', ?_, by rw [hctx', hctx], hlen, hfe, hI', ?_, ?_, ?_, ?_, ?_, ?_⟩
        · rw [run]
          rw [hrun]
          have hv : denotE (denotVals s n) (Expr.force d) = freshEval s d := by
            show denotVals s n d = freshEval s d
            rw [denotVals, if_pos hd]
          rw [hv]
        · intro x hx
          refine hframe x (lt_trans hd hx) ?_
          rw [hctx]
          intro hc
          injection hc with hcc
          exact absurd hcc (Nat.ne_of_lt hx)
        · rw [hnode]
        · rw [hnode]
        · rw [hnode]
        · rw [hnode]
        · intro x
          rw [hnode]
          show x ∈ insertOnce d (getNode s n).sub ↔ _
          rw [mem_insertOnce]
          simp [depsE]
      | seq a b iha ihb =>
        intro hwf E s hI hwfs hn hnE hEge hctx
        rw [wfE, Bool.and_eq_true] at hwf
        obtain ⟨fa, s1, hrunA, hctxA, hlenA, hfeA, hIA, hframeA, hbodyA, hresA, hcleanA,
          hsupA, hsubA⟩ := iha hwf.1 E s hI hwfs hn hnE hEge hctx
        obtain ⟨fb, s2, hrunB, hctxB, hlenB, hfeB, hIB, hframeB, hbodyB, hresB, hcleanB,
          hsupB, hsubB⟩ := ihb hwf.2 E s1 hIA
            (wfState_transfer hlenA (fun m => (hfeA m).1) hwfs)
            (by rwa [hlenA]) hnE hEge hctxA
        have hvals : denotVals s1 n = denotVals s n := denotVals_freshEq hfeA n
        refine ⟨fa + fb + 1, s2, ?_, hctxB, hlenB.trans hlenA, freshEq_trans hfeA hfeB,
          hIB, ?_, hbodyB.trans hbodyA, hresB.trans hresA, hcleanB.trans hcleanA,
          hsupB.trans hsupA, ?_⟩
        · rw [run]
          rw [run_mono_le (by omega) _ _ _ hrunA]
          dsimp only
          rw [run_mono_le (by omega) _ _ _ hrunB]
          rw [hvals]
          rfl
        · intro x hx
          rw [hframeB x hx, hframeA x hx]
        · intro x
          rw [hsubB x, hvals]
          show _ ↔ x ∈ (getNode s n).sub ∨ x ∈ depsE (denotVals s n) a ++ depsE (denotVals s n) b
          rw [List.mem_append]
          constructor
          · rintro (h | h)
            · rcases (hsubA x).mp h with h2 | h2
              · exact Or.inl h2
              · exact Or.inr (Or.inl h2)
            · exact Or.inr (Or.inr h)
          · rintro (h | h | h)
            · exact Or.inl ((hsubA x).mpr (Or.inl h))
            · exact Or.inl ((hsubA x).mpr (Or.inr h))
            · exact Or.inr h
      | add a b iha ihb =>
        intro hwf E s hI hwfs hn hnE hEge hctx
        rw [wfE, Bool.and_eq_true] at hwf
        obtain ⟨fa, s1, hrunA, hctxA, hlenA, hfeA, hIA, hframeA, hbodyA, hresA, hcleanA,
          hsupA, hsubA⟩ := iha hwf.1 E s hI hwfs hn hnE hEge hctx
        obtain ⟨fb, s2, hrunB, hctxB, hlenB, hfeB, hIB, hframeB, hbodyB, hresB, hcleanB,
          hsupB, hsubB⟩ := ihb hwf.2 E s1 hIA
            (wfState_transfer hlenA (fun m => (hfeA m).1) hwfs)
            (by rwa [hlenA]) hnE hEge hctxA
        have hvals : denotVals s1 n = denotVals s n := denotVals_freshEq hfeA n
        refine ⟨fa + fb + 1, s2, ?_, hctxB, hlenB.trans hlenA, freshEq_trans hfeA hfeB,
          hIB, ?_, hbodyB.trans hbodyA, hresB.trans hresA, hcleanB.trans hcleanA,
          hsupB.trans hsupA, ?_⟩
        · rw [run]
          rw [run_mono_le (by omega) _ _ _ hrunA]
          dsimp only
          rw [run_mono_le (by omega) _ _ _ hrunB]
          rw [hvals]
          rfl
        · intro x hx
          rw [hframeB x hx, hframeA x hx]
        · intro x
          rw [hsubB x, hvals]
          show _ ↔ x ∈ (getNode s n).sub ∨ x ∈ depsE (denotVals s n) a ++ depsE (denotVals s n) b
          rw [List.mem_append]
          constructor
          · rintro (h | h)
            · rcases (hsubA x).mp h with h2 | h2
              · exact Or.inl h2
              · exact Or.inr (Or.inl h2)
            · exact Or.inr (Or.inr h)
          · rintro (h | h | h)
            · exact Or.inl ((hsubA x).mpr (Or.inl h))
            · exact Or.inl ((hsubA x).mpr (Or.inr h))
            · exact Or.inr h
      | subE a b iha ihb =>
        intro hwf E s hI hwfs hn hnE hEge hctx
        rw [wfE, Bool.and_eq_true] at hwf
        obtain ⟨fa, s1, hrunA, hctxA, hlenA, hfeA, hIA, hframeA, hbodyA, hresA, hcleanA,
          hsupA, hsubA⟩ := iha hwf.1 E s hI hwfs hn hnE hEge hctx
        obtain ⟨fb, s2, hrunB, hctxB, hlenB, hfeB, hIB, hframeB, hbodyB, hresB, hcleanB,
          hsupB, hsubB⟩ := ihb hwf.2 E s1 hIA
            (wfState_transfer hlenA (fun m => (hfeA m).1) hwfs)
            (by rwa [hlenA]) hnE hEge hctxA
        have hvals : denotVals s1 n = denotVals s n := denotVals_freshEq hfeA n
        refine ⟨fa + fb + 1, s2, ?_, hctxB, hlenB.trans hlenA, freshEq_trans hfeA hfeB,
          hIB, ?_, hbodyB.trans hbodyA, hresB.trans hresA, hcleanB.trans hcleanA,
          hsupB.trans hsupA, ?_⟩
        · rw [run]
          rw [run_mono_le (by omega) _ _ _ hrunA]
          dsimp only
          rw [run_mono_le (by omega) _ _ _ hrunB]
          rw [hvals]
          rfl
        · intro x hx
          rw [hframeB x hx, hframeA x hx]
        · intro x
          rw [hsubB x, hvals]
          show _ ↔ x ∈ (getNode s n).sub ∨ x ∈ depsE (denotVals s n) a ++ depsE (denotVals s n) b
          rw [List.mem_append]
          constructor
          · rintro (h | h)
            · rcases (hsubA x).mp h with h2 | h2
              · exact Or.inl h2
              · exact Or.inr (Or.inl h2)
            · exact Or.inr (Or.inr h)
          · rintro (h | h | h)
            · exact Or.inl ((hsubA x).mpr (Or.inl h))
            · exact Or.inl ((hsubA x).mpr (Or.inr h))
            · exact Or.inr h
      | iteNz c t e ihc iht ihe =>
        intro hwf E s hI hwfs hn hnE hEge hctx
        rw [wfE, Bool.and_eq_true, Bool.and_eq_true] at hwf
        obtain ⟨fc, s1, hrunC, hctxC, hlenC, hfeC, hIC, hframeC, hbodyC, hresC, hcleanC,
          hsupC, hsubC⟩ := ihc hwf.1.1 E s hI hwfs hn hnE hEge hctx
        have hwfs1 : WFState s1 := wfState_transfer hlenC (fun m => (hfeC m).1) hwfs
        have hn1 : n < s1.nodes.length := by rwa [hlenC]
        have hvals : denotVals s1 n = denotVals s n := denotVals_freshEq hfeC n
        by_cases h0 : denotE (denotVals s n) c = 0
        · obtain ⟨fe, s2, hrunE, hctxE, hlenE, hfeE, hIE, hframeE, hbodyE, hresE, hcleanE,
            hsupE, hsubE2⟩ := ihe hwf.2 E s1 hIC hwfs1 hn1 hnE hEge hctxC
          refine ⟨fc + fe + 1, s2, ?_, hctxE, hlenE.trans hlenC, freshEq_trans hfeC hfeE,
            hIE, ?_, hbodyE.trans hbodyC, hresE.trans hresC, hcleanE.trans hcleanC,
            hsupE.trans hsupC, ?_⟩
          · rw [run]
            rw [run_mono_le (by omega) _ _ _ hrunC]
            dsimp only
            rw [if_neg (not_not_intro h0)]
            rw [run_mono_le (by omega) _ _ _ hrunE]
            rw [hvals]
            show _ = some (s2, Except.ok (if denotE (denotVals s n) c ≠ 0
              then denotE (denotVals s n) t else denotE (denotVals s n) e))
            rw [if_neg (not_not_intro h0)]
          · intro x hx
            rw [hframeE x hx, hframeC x hx]
          · intro x
            rw [hsubE2 x, hvals]
            show _ ↔ x ∈ (getNode s n).sub ∨ x ∈ depsE (denotVals s n) c ++
              (if denotE (denotVals s n) c ≠ 0 then depsE (denotVals s n) t
                else depsE (denotVals s n) e)
            rw [if_neg (not_not_intro h0), List.mem_append]
            constructor
            · rintro (h | h)
              · rcases (hsubC x).mp h with h2 | h2
                · exact Or.inl h2
                · exact Or.inr (Or.inl h2)
              · exact Or.inr (Or.inr h)
            · rintro (h | h | h)
              · exact Or.inl ((hsubC x).mpr (Or.inl h))
              · exact Or.inl ((hsubC x).mpr (Or.inr h))
              · exact Or.inr h
        · obtain ⟨ft, s2, hrunT, hctxT, hlenT, hfeT, hIT, hframeT, hbodyT, hresT, hcleanT,
            hsupT, hsubT⟩ := iht hwf.1.2 E s1 hIC hwfs1 hn1 hnE hEge hctxC
          refine ⟨fc + ft + 1, s2, ?_, hctxT, hlenT.trans hlenC, freshEq_trans hfeC hfeT,
            hIT, ?_, hbodyT.trans hbodyC, hresT.trans hresC, hcleanT.trans hcleanC,
            hsupT.trans hsupC, ?_⟩
          · rw [run]
            rw [run_mono_le (by omega) _ _ _ hrunC]
            dsimp only
            rw [if_pos h0]
            rw [run_mono_le (by omega) _ _ _ hrunT]
            rw [hvals]
            show _ = some (s2, Except.ok (if denotE (denotVals s n) c ≠ 0
              then denotE (denotVals s n) t else denotE (denotVals s n) e))
            rw [if_pos h0]
          · intro x hx
            rw [hframeT x hx, hframeC x hx]
          · intro x
            rw [hsubT x, hvals]
            show _ ↔ x ∈ (getNode s n).sub ∨ x ∈ depsE (denotVals s n) c ++
              (if denotE (denotVals s n) c ≠ 0 then depsE (denotVals s n) t
                else depsE (denotVals s n) e)
            rw [if_pos h0, List.mem_append]
            constructor
            · rintro (h | h)
              · rcases (hsubC x).mp h with h2 | h2
                · exact Or.inl h2
                · exact Or.inr (Or.inl h2)
              · exact Or.inr (Or.inr h)
            · rintro (h | h | h)
              · exact Or.inl ((hsubC x).mpr (Or.inl h))
              · exact Or.inl ((hsubC x).mpr (Or.inr h))
              · exact Or.inr h
    have hC : ∀ (E : List NodeId) (s : State), InvExc E s → WFState s → n < s.nodes.length →
        (∀ x ∈ E, n < x) → s.currentlyAdapting = some n →
        ∃ f s', run f s (Call.computeC n) = some (s', Except.ok (freshEval s n)) ∧
          s'.currentlyAdapting = some n ∧
          s'.nodes.length = s.nodes.length ∧
          FreshEq s s' ∧
          InvExc E s' ∧
          (∀ x, n < x → getNode s' x = getNode s x) ∧
          (getNode s' n).clean = true ∧
          ((getNode s n).clean = true → s' = s) ∧
          ((getNode s n).clean = false →
            ∀ x, x ∈ (getNode s' n).sub ↔ x ∈ freshDeps s n) := by
      intro E s hI hwfs hn hE hctx
      have hnE : n ∉ E := fun hmem => absurd (hE n hmem) (lt_irrefl n)
      by_cases hcl : (getNode s n).clean = true
      · have hres : (getNode s n).result = freshEval s n :=
          (hI.2.2.2.2 n hn hnE hcl).1
        refine ⟨1, s, ?_, hctx, rfl, freshEq_refl s, hI, fun x _ => rfl, hcl,
          fun _ => rfl, fun hc => absurd (hcl.symm.trans hc) (by decide)⟩
        rw [run]
        dsimp only
        rw [if_pos hcl, hres]
      · have hdirty : (getNode s n).clean = false := by
          revert hcl
          cases (getNode s n).clean <;> simp
        obtain ⟨hI2, hlen2, hctx2, hfe2, hclean2, hsub2, hbody2, hres2, habove2⟩ :=
          invoke_ready hI hn hdirty
        have hwfs2 : WFState (invokeState s n) :=
          wfState_transfer hlen2 (fun m => (hfe2 m).1) hwfs
        have hn2 : n < (invokeState s n).nodes.length := by rwa [hlen2]
        have hctx2n : (invokeState s n).currentlyAdapting = some n := by
          rw [hctx2, hctx]
        by_cases hb : (getNode s n).body = Expr.readSelf
        · have hb2 : (getNode (invokeState s n) n).body = Expr.readSelf := by
            rw [hbody2, hb]
          have hevalR : run 1 (invokeState s n) (Call.evalC n Expr.readSelf)
              = some (invokeState s n,
                  Except.ok (getNode (invokeState s n) n).result) := by
            rw [run]
          have hres2' : (getNode (invokeState s n) n).result = freshEval s n := by
            rw [hres2]
            exact (freshEval_ref hb).symm
          have hfast2 : run 1 (invokeState s n) (Call.computeC n)
              = some (invokeState s n, Except.ok (freshEval s n)) := by
            rw [run]
            dsimp only
            rw [if_pos hclean2, hres2']
          have hstep : run 3 s (Call.computeC n)
              = match run 2 (invokeState s n)
                  (Call.evalC n (getNode s n).body) with
                | none => none
                | some (s3, Except.error k) => some (s3, Except.error k)
                | some (s3, Except.ok v) =>
                  run 2 (setResult n v s3) (Call.computeC n) := by
            rw [run]
            dsimp only
            rw [if_neg hcl]
            rfl
          have htotal : run 3 s (Call.computeC n)
              = some (invokeState s n, Except.ok (freshEval s n)) := by
            rw [hstep, hb]
            rw [run_mono_le (by omega) _ _ _ hevalR]
            dsimp only
            rw [setResult_self]
            exact run_mono_le (by omega) _ _ _ hfast2
          have hokR : CleanOKAt (invokeState s n) n := by
            intro _
            constructor
            · exact hres2'.trans (freshEval_freshEq hfe2 n).symm
            · intro d hd
              rw [freshDeps, hb2] at hd
              simp [depsE] at hd
          refine ⟨3, invokeState s n, htotal, hctx2n, hlen2, hfe2,
            invexc_settle hI2 hokR, habove2, hclean2,
            fun hcT => absurd (hdirty.symm.trans hcT) (by decide),
            fun _ x => ?_⟩
          rw [hsub2, freshDeps, hb]
          simp [depsE]
        · have hwfE : wfE n (getNode s n).body = true := (hwfs n hn).resolve_left hb
          obtain ⟨fB, s3, hrunB, hctx3, hlen3, hfe3, hI3, habove3, hbody3, hres3,
            hclean3, hsup3, hsub3⟩ :=
            hB (getNode s n).body hwfE (n :: E) (invokeState s n) hI2 hwfs2 hn2
              (List.mem_cons_self n E)
              (fun x hx => by
                rcases List.mem_cons.mp hx with h | h
                · exact Nat.le_of_eq h.symm
                · exact le_of_lt (hE x h))
              hctx2n
          have hvals2 : denotVals (invokeState s n) n = denotVals s n :=
            denotVals_freshEq hfe2 n
          rw [hvals2] at hrunB hsub3
          rw [← freshEval_thunk hb] at hrunB
          have hn3 : n < s3.nodes.length := by rw [hlen3]; exact hn2
          have hclean3' : (getNode s3 n).clean = true := hclean3.trans hclean2
          have hclean4 : (getNode (setResult n (freshEval s n) s3) n).clean
              = true := by
            rw [clean_setResult]
            exact hclean3'
          have hres4 : (getNode (setResult n (freshEval s n) s3) n).result
              = freshEval s n := by
            rw [result_setResult, if_pos ⟨rfl, hn3⟩]
          have hfastR : run (fB + 1) (setResult n (freshEval s n) s3) (Call.computeC n)
              = some (setResult n (freshEval s n) s3, Except.ok (freshEval s n)) := by
            rw [run]
            dsimp only
            rw [if_pos hclean4, hres4]
          have hstep : run (fB + 1 + 1) s (Call.computeC n)
              = match run (fB + 1) (invokeState s n)
                  (Call.evalC n (getNode s n).body) with
                | none => none
                | some (s3, Except.error k) => some (s3, Except.error k)
                | some (s3, Except.ok v) =>
                  run (fB + 1) (setResult n v s3) (Call.computeC n) := by
            rw [run]
            dsimp only
            rw [if_neg hcl]
            rfl
          have htotal : run (fB + 1 + 1) s (Call.computeC n)
              = some (setResult n (freshEval s n) s3, Except.ok (freshEval s n)) := by
            rw [hstep]
            rw [run_mono_le (by omega) _ _ _ hrunB]
            dsimp only
            exact hfastR
          have hb3 : (getNode s3 n).body ≠ Expr.readSelf := by
            rw [hbody3, hbody2]
            exact hb
          have hfe4 : FreshEq s3 (setResult n (freshEval s n) s3) := by
            intro m
            refine ⟨body_setResult n (freshEval s n) s3 m, fun hr => ?_⟩
            rw [result_setResult]
            by_cases hm : n = m ∧ n < s3.nodes.length
            · obtain ⟨h1, _⟩ := hm
              subst h1
              exact absurd hr hb3
            · rw [if_neg hm]
          have hfeS : FreshEq s (setResult n (freshEval s n) s3) :=
            freshEq_trans (freshEq_trans hfe2 hfe3) hfe4
          have hokN : CleanOKAt (setResult n (freshEval s n) s3) n := by
            intro _
            constructor
            · rw [hres4, freshEval_freshEq hfeS]
            · intro d hd
              rw [freshDeps_freshEq hfeS] at hd
              rw [freshDeps] at hd
              have hdn : d < n :=
                depsE_lt_of_wf (getNode s n).body n hwfE (denotVals s n) d hd
              have hdsub : d ∈ (getNode s3 n).sub := (hsub3 d).mpr (Or.inr hd)
              rw [super_setResult]
              exact (hI3.1 n hn3 d (lt_trans hdn hn3)).mp hdsub
          have hI4 : InvExc E (setResult n (freshEval s n) s3) :=
            invexc_settle (invexc_setResult_mid hI3 (List.mem_cons_self n E) hb3) hokN
          refine ⟨fB + 1 + 1, setResult n (freshEval s n) s3, htotal, ?_, ?_, hfeS,
            hI4, ?_, hclean4,
            fun hcT => absurd (hdirty.symm.trans hcT) (by decide),
            fun _ x => ?_⟩
          · rw [ctx_setResult, hctx3]
          · rw [length_setResult, hlen3, hlen2]
          · intro x hx
            rw [getNode_setResult, if_neg (fun hh => Nat.ne_of_lt hx hh.1),
              habove3 x hx, habove2 x hx]
          · rw [sub_setResult, hsub3 x, hsub2, freshDeps]
            simp
    have hF : ∀ (E : List NodeId) (s : State), InvExc E s → WFState s → n < s.nodes.length →
        (∀ x ∈ E, n < x) →
        (s.currentlyAdapting = none ∨
          ∃ c, s.currentlyAdapting = some c ∧ c ∈ E ∧ c < s.nodes.length) →
        ∃ f s', run f s (Call.forceC n) = some (s', Except.ok (freshEval s n)) ∧
          s'.currentlyAdapting = s.currentlyAdapting ∧
          s'.nodes.length = s.nodes.length ∧
          FreshEq s s' ∧
          InvExc E s' ∧
          (∀ x, n < x → s.currentlyAdapting ≠ some x → getNode s' x = getNode s x) ∧
          (∀ c, s.currentlyAdapting = some c →
            getNode s' c = { getNode s c with sub := insertOnce n (getNode s c).sub }) ∧
          (getNode s' n).clean = true ∧
          ((getNode s n).clean = false →
            ∀ x, x ∈ (getNode s' n).sub ↔ x ∈ freshDeps s n) ∧
          ((getNode s n).clean = true → (getNode s' n).sub = (getNode s n).sub) := by
      intro E s hI hwfs hn hE hca
      have hI1 : InvExc E { s with currentlyAdapting := some n } := invexc_ctx hI
      have hwfs1 : WFState { s with currentlyAdapting := some n } := wfState_ctx hwfs
      obtain ⟨fC, s2, hrunC, hctx2, hlen2, hfe2, hI2, hframe2, hclean2, hcleaneq,
        hsubiff⟩ := hC E { s with currentlyAdapting := some n } hI1 hwfs1 hn hE rfl
      rw [freshEval_ctx] at hrunC
      have hfeIn : FreshEq s { s with currentlyAdapting := some n } :=
        freshEq_ctx s (some n)
      have hdeps1 : freshDeps { s with currentlyAdapting := some n } n
          = freshDeps s n := freshDeps_freshEq hfeIn n
      rcases hca with hnone | ⟨c, hc, hcE, hclen⟩
      · have htotal : run (fC + 1) s (Call.forceC n)
            = some ({ s2 with currentlyAdapting := none },
                Except.ok (freshEval s n)) := by
          rw [run]
          dsimp only
          rw [hrunC]
          dsimp only
          rw [hnone]
        refine ⟨fC + 1, { s2 with currentlyAdapting := none }, htotal,
          hnone.symm, hlen2,
          freshEq_trans (freshEq_trans hfeIn hfe2) (freshEq_ctx s2 none),
          invexc_ctx hI2, fun x hx _ => hframe2 x hx,
          fun c hc => absurd (hnone.symm.trans hc) (by simp),
          hclean2, ?_, ?_⟩
        · intro hcd x
          have h := hsubiff hcd x
          rwa [hdeps1] at h
        · intro hcT
          rw [hcleaneq hcT]
          rfl
      · have hnc : n < c := hE c hcE
        have hI3 : InvExc E { s2 with currentlyAdapting := some c } := invexc_ctx hI2
        have hn3 : n < ({ s2 with currentlyAdapting := some c } : State).nodes.length := by
          show n < s2.nodes.length
          rw [hlen2]
          exact hn
        have hc3 : c < ({ s2 with currentlyAdapting := some c } : State).nodes.length := by
          show c < s2.nodes.length
          rw [hlen2]
          exact hclen
        have hclean3 : (getNode { s2 with currentlyAdapting := some c } n).clean
            = true := hclean2
        obtain ⟨hIA, hfeA, hlenA, hctxA, hframeA, hnodeC, hsubA, hcleanA⟩ :=
          force_edge_ready hI3 hn3 hc3 hnc hclean3
        have htotal : run (fC + 1) s (Call.forceC n)
            = some (addEdge c n { s2 with currentlyAdapting := some c },
                Except.ok (freshEval s n)) := by
          rw [run]
          dsimp only
          rw [hrunC]
          dsimp only
          rw [hc]
        have hg3 : getNode { s2 with currentlyAdapting := some c } c = getNode s c :=
          hframe2 c hnc
        refine ⟨fC + 1, addEdge c n { s2 with currentlyAdapting := some c }, htotal,
          ?_, ?_,
          freshEq_trans (freshEq_trans hfeIn hfe2)
            (freshEq_trans (freshEq_ctx s2 (some c)) hfeA),
          hIA, ?_, ?_, ?_, ?_, ?_⟩
        · rw [hctxA, hc]
        · rw [hlenA]
          exact hlen2
        · intro x hx hne
          have hxc : x ≠ c := fun hxc => hne (hc.trans (by rw [hxc]))
          have hxn : x ≠ n := fun hxn => absurd (hxn ▸ hx) (lt_irrefl n)
          rw [hframeA x hxc hxn]
          exact hframe2 x hx
        · intro c' hc'
          have hcc : c' = c := Option.some.inj (hc'.symm.trans hc)
          subst hcc
          rw [hnodeC, hg3]
        · rw [hcleanA]
          exact hclean2
        · intro hcd x
          rw [hsubA]
          have h := hsubiff hcd x
          rwa [hdeps1] at h
        · intro hcT
          rw [hsubA, hcleaneq hcT]
          rfl
    exact ⟨hC, hF⟩

theorem invexc_cons {E : List NodeId} {n : NodeId} {s : State} (h : InvExc E s) :
    InvExc (n :: E) s := by
  obtain ⟨hsym, hval, hsb, hup, hok⟩ := h
  exact ⟨hsym, hval, hsb, hup,
    fun m hm hmE => hok m hm (fun h2 => hmE (List.mem_cons_of_mem n h2))⟩

/-- Evaluating a well-formed body outside any tracked computation (context
empty): the value is still the fresh one and the invariant survives, but the
evaluating node itself is left completely untouched — no edge is recorded
for any of its reads. -/
theorem eval_correct_top : ∀ (e : Expr) (n : NodeId), wfE n e = true →
    ∀ (E : List NodeId) (s : State), InvExc E s → WFState s → n < s.nodes.length →
    (∀ x ∈ E, n ≤ x) → s.currentlyAdapting = none →
    ∃ f s', run f s (Call.evalC n e) = some (s', Except.ok (denotE (denotVals s n) e)) ∧
      s'.currentlyAdapting = none ∧
      s'.nodes.length = s.nodes.length ∧
      FreshEq s s' ∧
      InvExc E s' ∧
      (∀ x, n ≤ x → getNode s' x = getNode s x) := by
  intro e
  induction e with
  | lit v =>
    intro n hwf E s hI hwfs hn hEge hctx
    exact ⟨1, s, by rw [run]; rfl, hctx, rfl, freshEq_refl s, hI, fun x _ => rfl⟩
  | readSelf => intro n hwf; simp [wfE] at hwf
  | throwE k => intro n hwf; simp [wfE] at hwf
  | computeE d => intro n hwf; simp [wfE] at hwf
  | addEdgeE d => intro n hwf; simp [wfE] at hwf
  | force d =>
    intro n hwf E s hI hwfs hn hEge hctx
    have hd : d < n := by
      rw [wfE] at hwf
      exact of_decide_eq_true hwf
    obtain ⟨fF, s', hrun, hctx', hlen, hfe, hI', hframe, hcown, hclean', hsubd, hsubc⟩ :=
      (engine_correct d).2 E s hI hwfs (lt_trans hd hn)
        (fun x hx => lt_of_lt_of_le hd (hEge x hx)) (Or.inl hctx)
    refine ⟨fF + 1, s', ?_, by rw [hctx', hctx], hlen, hfe, hI', ?_⟩
    · rw [run]
      rw [hrun]
      have hv : denotE (denotVals s n) (Expr.force d) = freshEval s d := by
        show denotVals s n d = freshEval s d
        rw [denotVals, if_pos hd]
      rw [hv]
    · intro x hx
      refine hframe x (lt_of_lt_of_le hd hx) ?_
      rw [hctx]
      intro hc
      exact Option.noConfusion hc
  | seq a b iha ihb =>
    intro n hwf E s hI hwfs hn hEge hctx
    rw [wfE, Bool.and_eq_true] at hwf
    obtain ⟨fa, s1, hrunA, hctxA, hlenA, hfeA, hIA, hframeA⟩ :=
      iha n hwf.1 E s hI hwfs hn hEge hctx
    obtain ⟨fb, s2, hrunB, hctxB, hlenB, hfeB, hIB, hframeB⟩ :=
      ihb n hwf.2 E s1 hIA (wfState_transfer hlenA (fun m => (hfeA m).1) hwfs)
        (by rwa [hlenA]) hEge hctxA
    have hvals : denotVals s1 n = denotVals s n := denotVals_freshEq hfeA n
    refine ⟨fa + fb + 1, s2, ?_, hctxB, hlenB.trans hlenA, freshEq_trans hfeA hfeB,
      hIB, fun x hx => (hframeB x hx).trans (hframeA x hx)⟩
    rw [run]
    rw [run_mono_le (by omega) _ _ _ hrunA]
    dsimp only
    rw [run_mono_le (by omega) _ _ _ hrunB]
    rw [hvals]
    rfl
  | add a b iha ihb =>
    intro n hwf E s hI hwfs hn hEge hctx
    rw [wfE, Bool.and_eq_true] at hwf
    obtain ⟨fa, s1, hrunA, hctxA, hlenA, hfeA, hIA, hframeA⟩ :=
      iha n hwf.1 E s hI hwfs hn hEge hctx
    obtain ⟨fb, s2, hrunB, hctxB, hlenB, hfeB, hIB, hframeB⟩ :=
      ihb n hwf.2 E s1 hIA (wfState_transfer hlenA (fun m => (hfeA m).1) hwfs)
        (by rwa [hlenA]) hEge hctxA
    have hvals : denotVals s1 n = denotVals s n := denotVals_freshEq hfeA n
    refine ⟨fa + fb + 1, s2, ?_, hctxB, hlenB.trans hlenA, freshEq_trans hfeA hfeB,
      hIB, fun x hx => (hframeB x hx).trans (hframeA x hx)⟩
    rw [run]
    rw [run_mono_le (by omega) _ _ _ hrunA]
    dsimp only
    rw [run_mono_le (by omega) _ _ _ hrunB]
    rw [hvals]
    rfl
  | subE a b iha ihb =>
    intro n hwf E s hI hwfs hn hEge hctx
    rw [wfE, Bool.and_eq_true] at hwf
    obtain ⟨fa, s1, hrunA, hctxA, hlenA, hfeA, hIA, hframeA⟩ :=
      iha n hwf.1 E s hI hwfs hn hEge hctx
    obtain ⟨fb, s2, hrunB, hctxB, hlenB, hfeB, hIB, hframeB⟩ :=
      ihb n hwf.2 E s1 hIA (wfState_transfer hlenA (fun m => (hfeA m).1) hwfs)
        (by rwa [hlenA]) hEge hctxA
    have hvals : denotVals s1 n = denotVals s n := denotVals_freshEq hfeA n
    refine ⟨fa + fb + 1, s2, ?_, hctxB, hlenB.trans hlenA, freshEq_trans hfeA hfeB,
      hIB, fun x hx => (hframeB x hx).trans (hframeA x hx)⟩
    rw [run]
    rw [run_mono_le (by omega) _ _ _ hrunA]
    dsimp only
    rw [run_mono_le (by omega) _ _ _ hrunB]
    rw [hvals]
    rfl
  | iteNz c t e ihc iht ihe =>
    intro n hwf E s hI hwfs hn hEge hctx
    rw [wfE, Bool.and_eq_true, Bool.and_eq_true] at hwf
    obtain ⟨fc, s1, hrunC, hctxC, hlenC, hfeC, hIC, hframeC⟩ :=
      ihc n hwf.1.1 E s hI hwfs hn hEge hctx
    have hwfs1 : WFState s1 := wfState_transfer hlenC (fun m => (hfeC m).1) hwfs
    have hn1 : n < s1.nodes.length := by rwa [hlenC]
    have hvals : denotVals s1 n = denotVals s n := denotVals_freshEq hfeC n
    by_cases h0 : denotE (denotVals s n) c = 0
    · obtain ⟨fe, s2, hrunE, hctxE, hlenE, hfeE, hIE, hframeE⟩ :=
        ihe n hwf.2 E s1 hIC hwfs1 hn1 hEge hctxC
      refine ⟨fc + fe + 1, s2, ?_, hctxE, hlenE.trans hlenC, freshEq_trans hfeC hfeE,
        hIE, fun x hx => (hframeE x hx).trans (hframeC x hx)⟩
      rw [run]
      rw [run_mono_le (by omega) _ _ _ hrunC]
      dsimp only
      rw [if_neg (not_not_intro h0)]
      rw [run_mono_le (by omega) _ _ _ hrunE]
      rw [hvals]
      show _ = some (s2, Except.ok (if denotE (denotVals s n) c ≠ 0
        then denotE (denotVals s n) t else denotE (denotVals s n) e))
      rw [if_neg (not_not_intro h0)]
    · obtain ⟨ft, s2, hrunT, hctxT, hlenT, hfeT, hIT, hframeT⟩ :=
        iht n hwf.1.2 E s1 hIC hwfs1 hn1 hEge hctxC
      refine ⟨fc + ft + 1, s2, ?_, hctxT, hlenT.trans hlenC, freshEq_trans hfeC hfeT,
        hIT, fun x hx => (hframeT x hx).trans (hframeC x hx)⟩
      rw [run]
      rw [run_mono_le (by omega) _ _ _ hrunC]
      dsimp only
      rw [if_pos h0]
      rw [run_mono_le (by omega) _ _ _ hrunT]
      rw [hvals]
      show _ = some (s2, Except.ok (if denotE (denotVals s n) c ≠ 0
        then denotE (denotVals s n) t else denotE (denotVals s n) e))
      rw [if_pos h0]

/-- `compute` on a node outside any tracked computation (context empty):
the returned value is the fresh one, but if the node was dirty its
dependency bookkeeping is NOT re-established (its reads registered no
edges), so the node itself must stay on the exception list. -/
theorem compute_top : ∀ (n : NodeId) (E : List NodeId) (s : State),
    InvExc E s → WFState s → n < s.nodes.length → (∀ x ∈ E, n < x) →
    s.currentlyAdapting = none →
    ∃ f s', run f s (Call.computeC n) = some (s', Except.ok (freshEval s n)) ∧
      s'.currentlyAdapting = none ∧
      s'.nodes.length = s.nodes.length ∧
      FreshEq s s' ∧
      InvExc (n :: E) s' := by
  intro n E s hI hwfs hn hE hctx
  have hnE : n ∉ E := fun hmem => absurd (hE n hmem) (lt_irrefl n)
  by_cases hcl : (getNode s n).clean = true
  · have hres : (getNode s n).result = freshEval s n :=
      (hI.2.2.2.2 n hn hnE hcl).1
    refine ⟨1, s, ?_, hctx, rfl, freshEq_refl s, invexc_cons hI⟩
    rw [run]
    dsimp only
    rw [if_pos hcl, hres]
  · have hdirty : (getNode s n).clean = false := by
      revert hcl
      cases (getNode s n).clean <;> simp
    obtain ⟨hI2, hlen2, hctx2, hfe2, hclean2, hsub2, hbody2, hres2, habove2⟩ :=
      invoke_ready hI hn hdirty
    have hwfs2 : WFState (invokeState s n) :=
      wfState_transfer hlen2 (fun m => (hfe2 m).1) hwfs
    have hn2 : n < (invokeState s n).nodes.length := by rwa [hlen2]
    have hctx2n : (invokeState s n).currentlyAdapting = none := by
      rw [hctx2, hctx]
    by_cases hb : (getNode s n).body = Expr.readSelf
    · have hb2 : (getNode (invokeState s n) n).body = Expr.readSelf := by
        rw [hbody2, hb]
      have hevalR : run 1 (invokeState s n) (Call.evalC n Expr.readSelf)
          = some (invokeState s n,
              Except.ok (getNode (invokeState s n) n).result) := by
        rw [run]
      have hres2r : (getNode (invokeState s n) n).result = freshEval s n := by
        rw [hres2]
        exact (freshEval_ref hb).symm
      have hfast2 : run 1 (invokeState s n) (Call.computeC n)
          = some (invokeState s n, Except.ok (freshEval s n)) := by
        rw [run]
        dsimp only
        rw [if_pos hclean2, hres2r]
      have hstep : run 3 s (Call.computeC n)
          = match run 2 (invokeState s n)
              (Call.evalC n (getNode s n).body) with
            | none => none
            | some (s3, Except.error k) => some (s3, Except.error k)
            | some (s3, Except.ok v) =>
              run 2 (setResult n v s3) (Call.computeC n) := by
        rw [run]
        dsimp only
        rw [if_neg hcl]
        rfl
      have htotal : run 3 s (Call.computeC n)
          = some (invokeState s n, Except.ok (freshEval s n)) := by
        rw [hstep, hb]
        rw [run_mono_le (by omega) _ _ _ hevalR]
        dsimp only
        rw [setResult_self]
        exact run_mono_le (by omega) _ _ _ hfast2
      exact ⟨3, invokeState s n, htotal, hctx2n, hlen2, hfe2, hI2⟩
    · have hwfE : wfE n (getNode s n).body = true := (hwfs n hn).resolve_left hb
      obtain ⟨fB, s3, hrunB, hctx3, hlen3, hfe3, hI3, hframe3⟩ :=
        eval_correct_top (getNode s n).body n hwfE (n :: E) (invokeState s n)
          hI2 hwfs2 hn2
          (fun x hx => by
            rcases List.mem_cons.mp hx with h | h
            · exact Nat.le_of_eq h.symm
            · exact le_of_lt (hE x h))
          hctx2n
      have hvals2 : denotVals (invokeState s n) n = denotVals s n :=
        denotVals_freshEq hfe2 n
      rw [hvals2] at hrunB
      rw [← freshEval_thunk hb] at hrunB
      have hn3 : n < s3.nodes.length := by rw [hlen3]; exact hn2
      have hnode3 : getNode s3 n = getNode (invokeState s n) n :=
        hframe3 n (Nat.le_refl n)
      have hclean3 : (getNode s3 n).clean = true := by rw [hnode3]; exact hclean2
      have hclean4 : (getNode (setResult n (freshEval s n) s3) n).clean = true := by
        rw [clean_setResult]
        exact hclean3
      have hres4 : (getNode (setResult n (freshEval s n) s3) n).result
          = freshEval s n := by
        rw [result_setResult, if_pos ⟨rfl, hn3⟩]
      have hfastR : run (fB + 1) (setResult n (freshEval s n) s3) (Call.computeC n)
          = some (setResult n (freshEval s n) s3, Except.ok (freshEval s n)) := by
        rw [run]
        dsimp only
        rw [if_pos hclean4, hres4]
      have hstep : run (fB + 1 + 1) s (Call.computeC n)
          = match run (fB + 1) (invokeState s n)
              (Call.evalC n (getNode s n).body) with
            | none => none
            | some (s3, Except.error k) => some (s3, Except.error k)
            | some (s3, Except.ok v) =>
              run (fB + 1) (setResult n v s3) (Call.computeC n) := by
        rw [run]
        dsimp only
        rw [if_neg hcl]
        rfl
      have htotal : run (fB + 1 + 1) s (Call.computeC n)
          = some (setResult n (freshEval s n) s3, Except.ok (freshEval s n)) := by
        rw [hstep]
        rw [run_mono_le (by omega) _ _ _ hrunB]
        dsimp only
        exact hfastR
      have hb3 : (getNode s3 n).body ≠ Expr.readSelf := by
        rw [hnode3, hbody2]
        exact hb
      have hfe4 : FreshEq s3 (setResult n (freshEval s n) s3) := by
        intro m
        refine ⟨body_setResult n (freshEval s n) s3 m, fun hr => ?_⟩
        rw [result_setResult]
        by_cases hm : n = m ∧ n < s3.nodes.length
        · obtain ⟨h1, _⟩ := hm
          subst h1
          exact absurd hr hb3
        · rw [if_neg hm]
      refine ⟨fB + 1 + 1, setResult n (freshEval s n) s3, htotal, ?_, ?_,
        freshEq_trans (freshEq_trans hfe2 hfe3) hfe4,
        invexc_setResult_mid hI3 (List.mem_cons_self n E) hb3⟩
      · rw [ctx_setResult, hctx3]
      · rw [length_setResult, hlen3, hlen2]

theorem freshEval_appendNode (s : State) (nd : Node) (m : Nat)
    (hm : m < s.nodes.length) :
    freshEval (appendNode s nd) m = freshEval s m :=
  freshEval_local (fun j hj => by
    rw [getNode_appendNode, if_pos (lt_of_le_of_lt hj hm)])

theorem denotVals_appendNode (s : State) (nd : Node) (m : Nat)
    (hm : m ≤ s.nodes.length) :
    denotVals (appendNode s nd) m = denotVals s m := by
  funext d
  rw [denotVals, denotVals]
  by_cases hd : d < m
  · rw [if_pos hd, if_pos hd, freshEval_appendNode s nd d (lt_of_lt_of_le hd hm)]
  · rw [if_neg hd, if_neg hd]

theorem freshDeps_appendNode (s : State) (nd : Node) (m : Nat)
    (hm : m < s.nodes.length) :
    freshDeps (appendNode s nd) m = freshDeps s m := by
  rw [freshDeps, freshDeps, denotVals_appendNode s nd m (le_of_lt hm),
    getNode_appendNode, if_pos hm]

/-- Appending an edgeless node preserves the engine invariant, given the
cache obligation for the new node. -/
theorem inv_appendNode {s : State} (hI : Inv s) (nd : Node)
    (hsub : nd.sub = []) (hsup : nd.«super» = [])
    (hok : CleanOKAt (appendNode s nd) s.nodes.length) :
    Inv (appendNode s nd) := by
  obtain ⟨hsym, hval, hsb, hup, hcln⟩ := hI
  refine ⟨sym_appendNode hsym hval nd hsub hsup, ?_, ?_, ?_, ?_⟩
  · intro a ha
    rw [length_appendNode] at ha
    rw [getNode_appendNode]
    by_cases hal : a < s.nodes.length
    · rw [if_pos hal]
      obtain ⟨h1, h2⟩ := hval a hal
      exact ⟨fun b hb => by rw [length_appendNode]; exact Nat.lt_succ_of_lt (h1 b hb),
        fun b hb => by rw [length_appendNode]; exact Nat.lt_succ_of_lt (h2 b hb)⟩
    · have hae : a = s.nodes.length := by omega
      rw [if_neg hal, if_pos hae, hsub, hsup]
      exact ⟨fun b hb => absurd hb (List.not_mem_nil b),
        fun b hb => absurd hb (List.not_mem_nil b)⟩
  · intro a ha
    rw [length_appendNode] at ha
    rw [getNode_appendNode]
    by_cases hal : a < s.nodes.length
    · rw [if_pos hal]
      exact hsb a hal
    · have hae : a = s.nodes.length := by omega
      rw [if_neg hal, if_pos hae, hsub]
      exact fun d hd => absurd hd (List.not_mem_nil d)
  · intro a ha hda b hb
    rw [length_appendNode] at ha
    rw [getNode_appendNode] at hda hb
    by_cases hal : a < s.nodes.length
    · rw [if_pos hal] at hda hb
      have hbl : b < s.nodes.length := (hval a hal).2 b hb
      rw [getNode_appendNode, if_pos hbl]
      exact hup a hal hda b hb
    · have hae : a = s.nodes.length := by omega
      rw [if_neg hal, if_pos hae, hsup] at hb
      exact absurd hb (List.not_mem_nil b)
  · intro m hm hmE
    rw [length_appendNode] at hm
    by_cases hml : m < s.nodes.length
    · intro hcm
      rw [getNode_appendNode, if_pos hml] at hcm
      obtain ⟨hr1, hr2⟩ := hcln m hml hmE hcm
      constructor
      · rw [getNode_appendNode, if_pos hml, freshEval_appendNode s nd m hml]
        exact hr1
      · intro d hd
        rw [freshDeps_appendNode s nd m hml] at hd
        have hmem := hr2 d hd
        by_cases hdl : d < s.nodes.length
        · rw [getNode_appendNode, if_pos hdl]
          exact hmem
        · rw [getNode_of_ge s d (Nat.le_of_not_lt hdl)] at hmem
          exact absurd hmem (List.not_mem_nil m)
    · have hme : m = s.nodes.length := by omega
      subst hme
      exact hok

theorem inv_adaptonRef {s : State} (hI : Inv s) (hwfs : WFState s) (v : Int) :
    Inv (adaptonRef v s) ∧ WFState (adaptonRef v s) ∧
    (adaptonRef v s).currentlyAdapting = s.currentlyAdapting := by
  have hnew : getNode (adaptonRef v s) s.nodes.length
      = { body := Expr.readSelf, result := v, sub := [], «super» := [],
          clean := true } := by
    show getNode (appendNode s _) s.nodes.length = _
    rw [getNode_appendNode, if_neg (lt_irrefl _), if_pos rfl]
  refine ⟨inv_appendNode hI _ rfl rfl ?_, ?_, rfl⟩
  · show CleanOKAt (adaptonRef v s) s.nodes.length
    intro _
    constructor
    · have hb : (getNode (adaptonRef v s) s.nodes.length).body
          = Expr.readSelf := by rw [hnew]
      exact (freshEval_ref hb).symm
    · intro d hd
      rw [freshDeps, hnew] at hd
      simp [depsE] at hd
  · have hgoal : WFState (appendNode s ({ body := Expr.readSelf, result := v, sub := [], «super» := [], clean := true } : Node)) → WFState (adaptonRef v s) := fun h => h
    apply hgoal
    intro m hm
    rw [length_appendNode] at hm
    rw [getNode_appendNode]
    by_cases hml : m < s.nodes.length
    · rw [if_pos hml]
      exact hwfs m hml
    · have hme : m = s.nodes.length := by omega
      rw [if_neg hml, if_pos hme]
      left
      rfl

theorem inv_makeAthunk {s : State} (hI : Inv s) (hwfs : WFState s) (e : Expr)
    (hwf : wfE s.nodes.length e = true) :
    Inv (makeAthunk e s) ∧ WFState (makeAthunk e s) ∧
    (makeAthunk e s).currentlyAdapting = s.currentlyAdapting := by
  have hnew : getNode (makeAthunk e s) s.nodes.length
      = { body := e, result := 0, sub := [], «super» := [],
          clean := false } := by
    show getNode (appendNode s _) s.nodes.length = _
    rw [getNode_appendNode, if_neg (lt_irrefl _), if_pos rfl]
  refine ⟨inv_appendNode hI _ rfl rfl ?_, ?_, rfl⟩
  · show CleanOKAt (makeAthunk e s) s.nodes.length
    intro hcm
    rw [hnew] at hcm
    simp at hcm
  · have hgoal : WFState (appendNode s ({ body := e, result := 0, sub := [], «super» := [], clean := false } : Node)) → WFState (makeAthunk e s) := fun h => h
    apply hgoal
    intro m hm
    rw [length_appendNode] at hm
    rw [getNode_appendNode]
    by_cases hml : m < s.nodes.length
    · rw [if_pos hml]
      exact hwfs m hml
    · have hme : m = s.nodes.length := by omega
      rw [if_neg hml, if_pos hme]
      subst hme
      right
      exact hwf

/-- After a write to ref `r` followed by a correct dirtying wave, every node
still clean evaluates freshly to what it did before the write, with the same
dependency set: its fresh run cannot reach `r`, or it would have been
dirtied. -/
theorem cleanok_stable {s s' : State} {r : NodeId}
    (hlen : s'.nodes.length = s.nodes.length)
    (hb : ∀ j, (getNode s' j).body = (getNode s j).body)
    (hres : ∀ j, j ≠ r → (getNode s' j).result = (getNode s j).result)
    (hsup : ∀ j, (getNode s' j).«super» = (getNode s j).«super»)
    (hclimp : ∀ j, (getNode s' j).clean = true → (getNode s j).clean = true)
    (hup : DirtyUp s')
    (hrd : (getNode s' r).clean = false)
    (hI : Inv s) (hwfs : WFState s) :
    ∀ m, m < s.nodes.length → (getNode s' m).clean = true →
      freshEval s' m = freshEval s m ∧ freshDeps s' m = freshDeps s m := by
  intro m
  induction m using Nat.strong_induction_on with
  | _ m ih =>
    intro hm hcm
    have hmr : m ≠ r := by
      intro h
      rw [h] at hcm
      exact absurd (hrd.symm.trans hcm) (by decide)
    have hcs : (getNode s m).clean = true := hclimp m hcm
    obtain ⟨hr1, hr2⟩ := hI.2.2.2.2 m hm (List.not_mem_nil m) hcs
    by_cases hbm : (getNode s m).body = Expr.readSelf
    · have hbody' : (getNode s' m).body = Expr.readSelf := (hb m).trans hbm
      constructor
      · rw [freshEval_ref hbody', freshEval_ref hbm, hres m hmr]
      · rw [freshDeps, freshDeps, hbody', hbm]
        rfl
    · have hwfm : wfE m (getNode s m).body = true := (hwfs m hm).resolve_left hbm
      have hagree : ∀ d ∈ depsE (denotVals s m) (getNode s m).body,
          denotVals s m d = denotVals s' m d := by
        intro d hd
        have hdm : d < m := depsE_lt_of_wf (getNode s m).body m hwfm (denotVals s m) d hd
        have hdsupmem : m ∈ (getNode s d).«super» := hr2 d (by rw [freshDeps]; exact hd)
        have hdlen : d < s.nodes.length := lt_trans hdm hm
        have hdclean : (getNode s' d).clean = true := by
          by_contra hdc
          have hdc2 : (getNode s' d).clean = false := by
            revert hdc
            cases (getNode s' d).clean <;> simp
          have hflat := hup d (by rw [hlen]; exact hdlen) hdc2 m
            (by rw [hsup]; exact hdsupmem)
          exact absurd (hflat.symm.trans hcm) (by decide)
        have hIH := ih d hdm hdlen hdclean
        rw [denotVals, denotVals, if_pos hdm, if_pos hdm]
        exact hIH.1.symm
      obtain ⟨hde, hdp⟩ := denotE_agree (getNode s m).body (denotVals s m)
        (denotVals s' m) hagree
      have hbody' : (getNode s' m).body ≠ Expr.readSelf := by
        rw [hb m]
        exact hbm
      constructor
      · rw [freshEval_thunk hbody', freshEval_thunk hbm, hb m]
        exact hde
      · rw [freshDeps, freshDeps, hb m]
        exact hdp

/-- `set_ref` preserves the quiescent invariant: the write plus the dirtying
wave leave a well-formed store whose still-clean caches are still fresh. -/
theorem inv_adaptonRefSet {s s' : State} {r : NodeId} {v : Int} (f : Nat)
    (hI : Inv s) (hwfs : WFState s) (hr : r < s.nodes.length)
    (h : adaptonRefSet f s r v = some s') :
    Inv s' ∧ WFState s' ∧ s'.currentlyAdapting = s.currentlyAdapting := by
  have hEF := dirty_frame f (setResult r v s) r s' h
  obtain ⟨hlenEF, hctxEF, _, hnodeEF, hclEF⟩ := hEF
  obtain ⟨hw1, hw2⟩ := dirty_wave f (setResult r v s) r s' h
  have hlen' : s'.nodes.length = s.nodes.length :=
    hlenEF.trans (length_setResult r v s)
  have hb' : ∀ j, (getNode s' j).body = (getNode s j).body := fun j =>
    ((hnodeEF j).1).trans (body_setResult r v s j)
  have hres' : ∀ j, j ≠ r → (getNode s' j).result = (getNode s j).result := by
    intro j hj
    rw [(hnodeEF j).2.1, result_setResult, if_neg (fun hh => hj hh.1.symm)]
  have hsub' : ∀ j, (getNode s' j).sub = (getNode s j).sub := fun j =>
    ((hnodeEF j).2.2.1).trans (sub_setResult r v s j)
  have hsup' : ∀ j, (getNode s' j).«super» = (getNode s j).«super» := fun j =>
    ((hnodeEF j).2.2.2).trans (super_setResult r v s j)
  have hclimp' : ∀ j, (getNode s' j).clean = true → (getNode s j).clean = true := by
    intro j hj
    rw [← clean_setResult r v s j]
    exact hclEF j hj
  have hcldown : ∀ j, (getNode s j).clean = false → (getNode s' j).clean = false := by
    intro j hj
    by_contra hc
    have hc2 : (getNode s' j).clean = true := by
      revert hc
      cases (getNode s' j).clean <;> simp
    exact absurd ((hclimp' j hc2).symm.trans hj) (by decide)
  have hrd : (getNode s' r).clean = false := hw2 (by rw [length_setResult]; exact hr)
  have hupS : DirtyUp s' := by
    intro a ha hda b hbmem
    rw [hlen'] at ha
    have hbsup : b ∈ (getNode s a).«super» := by rw [← hsup' a]; exact hbmem
    have hbl : b < s.nodes.length := (hI.2.1 a ha).2 b hbsup
    by_cases hca : (getNode (setResult r v s) a).clean = true
    · obtain ⟨_, hprop⟩ := hw1 a hca hda
      exact hprop b hbmem (by rw [length_setResult]; exact hbl)
    · have hda0 : (getNode s a).clean = false := by
        rw [← clean_setResult r v s a]
        revert hca
        cases (getNode (setResult r v s) a).clean <;> simp
      have hbdirty : (getNode s b).clean = false := hI.2.2.2.1 a ha hda0 b hbsup
      exact hcldown b hbdirty
  have hstable := cleanok_stable hlen' hb' hres' hsup' hclimp' hupS hrd hI hwfs
  refine ⟨⟨sym_of_same_edges hlen' hsub' hsup' hI.1,
    edgesValid_transfer hlen' hsub' hsup' hI.2.1,
    subsBelow_transfer hlen' hsub' hI.2.2.1,
    hupS, ?_⟩,
    wfState_transfer hlen' hb' hwfs,
    hctxEF.trans (ctx_setResult r v s)⟩
  intro m hm _ hcm
  rw [hlen'] at hm
  have hmr : m ≠ r := by
    intro hh
    rw [hh] at hcm
    exact absurd (hrd.symm.trans hcm) (by decide)
  obtain ⟨hfE, hfD⟩ := hstable m hm hcm
  obtain ⟨hr1, hr2⟩ := hI.2.2.2.2 m hm (List.not_mem_nil m) (hclimp' m hcm)
  constructor
  · rw [hres' m hmr, hfE, hr1]
  · intro d hd
    rw [hfD] at hd
    rw [hsup' d]
    exact hr2 d hd

/-- A successful top-level `force` preserves the quiescent invariant and
returns the fresh value. -/
theorem inv_force {s s' : State} {d : NodeId} {f : Nat} {v : Int}
    (hI : Inv s) (hwfs : WFState s) (hd : d < s.nodes.length)
    (hctx : s.currentlyAdapting = none)
    (h : run f s (Call.forceC d) = some (s', Except.ok v)) :
    Inv s' ∧ WFState s' ∧ s'.currentlyAdapting = none ∧ v = freshEval s d ∧
    s'.nodes.length = s.nodes.length ∧ FreshEq s s' := by
  obtain ⟨f2, s2, hrun2, hctx2, hlen2, hfe2, hI2, _⟩ :=
    (engine_correct d).2 [] s hI hwfs hd (by simp) (Or.inl hctx)
  have hdet := run_det h hrun2
  injection hdet with h1 h2
  injection h2 with h3
  subst h1
  subst h3
  exact ⟨hI2, wfState_transfer hlen2 (fun m => (hfe2 m).1) hwfs,
    hctx2.trans hctx, rfl, hlen2, hfe2⟩

/-- Every valid client operation preserves the quiescent invariant. -/
theorem applyOp_preserve {s t : State} {op : Op} {f : Nat}
    (hI : Inv s) (hwfs : WFState s) (hctx : s.currentlyAdapting = none)
    (hwf : wfOp s op = true) (h : applyOp f s op = some t) :
    Inv t ∧ WFState t ∧ t.currentlyAdapting = none := by
  match op with
  | Op.mkRef v =>
    simp only [applyOp, Option.some.injEq] at h
    subst h
    obtain ⟨h1, h2, h3⟩ := inv_adaptonRef hI hwfs v
    exact ⟨h1, h2, h3.trans hctx⟩
  | Op.mkThunk e =>
    rw [wfOp] at hwf
    simp only [applyOp, Option.some.injEq] at h
    subst h
    obtain ⟨h1, h2, h3⟩ := inv_makeAthunk hI hwfs e hwf
    exact ⟨h1, h2, h3.trans hctx⟩
  | Op.setRefOp r v =>
    rw [wfOp, Bool.and_eq_true, decide_eq_true_eq, decide_eq_true_eq] at hwf
    simp only [applyOp] at h
    obtain ⟨h1, h2, h3⟩ := inv_adaptonRefSet f hI hwfs hwf.1 h
    exact ⟨h1, h2, h3.trans hctx⟩
  | Op.forceOp d =>
    rw [wfOp, decide_eq_true_eq] at hwf
    simp only [applyOp] at h
    rcases hrun : run f s (Call.forceC d) with _ | ⟨s1, r⟩
    · rw [hrun] at h
      exact absurd h (by simp)
    · rw [hrun] at h
      match r with
      | Except.error k => exact absurd h (by simp)
      | Except.ok v =>
        simp only [Option.some.injEq] at h
        subst h
        obtain ⟨h1, h2, h3, _⟩ := inv_force hI hwfs hwf hctx hrun
        exact ⟨h1, h2, h3⟩

/-- Any valid operation sequence preserves the quiescent invariant. -/
theorem runOps_preserve : ∀ (ops : List Op) (f : Nat) (s t : State),
    Inv s → WFState s → s.currentlyAdapting = none →
    runOps f s ops = some t →
    Inv t ∧ WFState t ∧ t.currentlyAdapting = none := by
  intro ops
  induction ops with
  | nil =>
    intro f s t hI hwfs hctx h
    rw [runOps] at h
    injection h with h1
    subst h1
    exact ⟨hI, hwfs, hctx⟩
  | cons op rest ih =>
    intro f s t hI hwfs hctx h
    rw [runOps] at h
    by_cases hwf : wfOp s op
    · rw [if_pos hwf] at h
      rcases happ : applyOp f s op with _ | u
      · rw [happ] at h
        exact absurd h (by simp)
      · rw [happ] at h
        simp only [Option.some_bind] at h
        obtain ⟨h1, h2, h3⟩ := applyOp_preserve hI hwfs hctx hwf happ
        exact ih f u t h1 h2 h3 h
    · rw [if_neg hwf] at h
      exact absurd h (by simp)

/-- C1 (corrected): for every dependency graph built through the public API
from `make_ref`/`make_thunk` whose thunk computations read other nodes only
through `force` — each reading only nodes created before it, as the
construction order of the API produces — and every valid sequence of
`set_ref` calls (interleaved with forces), a subsequent `force` or `compute`
on any node yields exactly the same value as a fresh, non-memoized
evaluation of that node's computation graph from the current ref values. -/
theorem claim_C1 (ops : List Op) (f : Nat) (t : State)
    (h : runOps f initState ops = some t) (n : NodeId) (hn : n < t.nodes.length) :
    (∃ g t', adaptonForce g t n = some (t', Except.ok (freshEval t n))) ∧
    (∃ g t', adaptonCompute g t n = some (t', Except.ok (freshEval t n))) := by
  obtain ⟨hI, hwfs, hctx⟩ :=
    runOps_preserve ops f initState t (by decide) (by decide) rfl h
  constructor
  · obtain ⟨g, t', hrun, _⟩ :=
      (engine_correct n).2 [] t hI hwfs hn (by simp) (Or.inl hctx)
    exact ⟨g, t', hrun⟩
  · obtain ⟨g, t', hrun, _⟩ := compute_top n [] t hI hwfs hn (by simp) hctx
    exact ⟨g, t', hrun⟩

/-- Counterexample to C1 as stated: a graph built from `make_ref`/`make_thunk`
in which the thunk's computation reads the ref through the low-level
`compute` instead of `force`.  No dependency edge is ever registered, so
`set_ref 0 0` dirties nothing above the ref, and a subsequent `force` of the
thunk returns the stale cache `8`, while a fresh, non-memoized evaluation
from the current ref values gives `0 + 5 = 5`. -/
theorem claim_C1_counterexample :
    ∃ s2 s3 s4 : State,
      adaptonForce 10 (makeAthunk (Expr.add (Expr.computeE 0) (Expr.lit 5))
        (adaptonRef 3 initState)) 1 = some (s2, Except.ok 8) ∧
      adaptonRefSet 10 s2 0 0 = some s3 ∧
      adaptonForce 10 s3 1 = some (s4, Except.ok 8) ∧
      freshEval s3 1 = 5 ∧ (8 : Int) ≠ 5 := by
  refine ⟨_, _, _, rfl, rfl, rfl, rfl, by decide⟩

/-- C1 witness: a force-style ref/thunk pipeline with a `set_ref`; both a
subsequent `force` and a subsequent `compute` of the thunk return its fresh
value. -/
theorem claim_C1_witness :
    ∃ t : State,
      runOps 10 initState [Op.mkRef 3,
        Op.mkThunk (Expr.add (Expr.force 0) (Expr.lit 5)),
        Op.forceOp 1, Op.setRefOp 0 2] = some t ∧
      ((∃ g t', adaptonForce g t 1 = some (t', Except.ok (freshEval t 1))) ∧
       (∃ g t', adaptonCompute g t 1 = some (t', Except.ok (freshEval t 1)))) := by
  refine ⟨_, rfl, claim_C1 [Op.mkRef 3,
    Op.mkThunk (Expr.add (Expr.force 0) (Expr.lit 5)),
    Op.forceOp 1, Op.setRefOp 0 2] 10 _ rfl 1 (by decide)⟩

/-- C8 (confirmed): when a dirty thunk is recomputed (forced from a
quiescent well-formed store), its dependency set afterwards contains exactly
the nodes its most recent — fresh — run forces; stale edges from earlier
runs are removed. -/
theorem claim_C8 (s : State) (n : NodeId) (hI : Inv s) (hwfs : WFState s)
    (hn : n < s.nodes.length) (hctx : s.currentlyAdapting = none)
    (hd : (getNode s n).clean = false) :
    ∃ f s', adaptonForce f s n = some (s', Except.ok (freshEval s n)) ∧
      (∀ x, x ∈ (getNode s' n).sub ↔ x ∈ freshDeps s n) := by
  obtain ⟨f, s', hrun, _, _, _, _, _, _, _, hsub, _⟩ :=
    (engine_correct n).2 [] s hI hwfs hn (by simp) (Or.inl hctx)
  exact ⟨f, s', hrun, hsub hd⟩

/-- C8 witness: a thunk conditionally forcing ref 1 or ref 2 under guard
ref 0.  Its first run forces nodes 0 and 1; after `set_ref 0 0` flips the
guard, recomputing it leaves the dependency set exactly {0, 2} — the stale
edge to node 1 is gone. -/
theorem claim_C8_witness :
    ∃ t : State,
      runOps 10 initState [Op.mkRef 1, Op.mkRef 10, Op.mkRef 20,
        Op.mkThunk (Expr.iteNz (Expr.force 0) (Expr.force 1) (Expr.force 2)),
        Op.forceOp 3, Op.setRefOp 0 0] = some t ∧
      (∃ f s', adaptonForce f t 3 = some (s', Except.ok (freshEval t 3)) ∧
        (∀ x, x ∈ (getNode s' 3).sub ↔ x ∈ freshDeps t 3)) := by
  refine ⟨_, rfl, claim_C8 ((runOps 10 initState [Op.mkRef 1, Op.mkRef 10,
    Op.mkRef 20,
    Op.mkThunk (Expr.iteNz (Expr.force 0) (Expr.force 1) (Expr.force 2)),
    Op.forceOp 3, Op.setRefOp 0 0]).getD initState) 3
    (by decide) (by decide) (by decide) (by decide) (by decide)⟩

end MiniAdapton
